import Mathlib

/-!
Tarjan.h: strongly connected components over a sparse edge list.

A shallow embedding of `src/Tarjan.h` (`binary_search_index`, `min`, `contains`,
`strong_com`, `graph_con_com`) together with theorems about it.

Modelling conventions.

* C++ `int` is `Int`; the development covers runs in which no `int` overflows.
* `std::vector<X>` is `List X`; `v[k]` with `k` outside `[0, size)` is undefined
  behaviour and is reported as `Outcome.undefined`.
* `vertex*` is the position of the pointed-to object in the `vertices` vector
  (every `vertex` object is created once by `graph_con_com` and stored there).
* `std::stack<vertex*>` is a `List Nat` whose head is the top of the stack;
  `top`/`pop` on an empty stack is undefined behaviour.
* Loops and the recursion of `strong_com` are driven by a fuel argument that
  decreases structurally; running out of fuel is `Outcome.out_of_fuel`, which is
  distinct from every result the code can produce.
-/

namespace Tarjan

/-! ## Outcomes -/

/-- Result of running a piece of the program: a value, undefined behaviour
(out-of-range `operator[]`, `top`/`pop` on an empty stack), or exhausted fuel. -/
inductive Outcome (α : Type) where
  | ok : α → Outcome α
  | undefined : Outcome α
  | out_of_fuel : Outcome α
deriving DecidableEq, Repr

/-- Sequencing of outcomes. -/
def Outcome.bind {α β : Type} (x : Outcome α) (f : α → Outcome β) : Outcome β :=
  match x with
  | .ok a => f a
  | .undefined => .undefined
  | .out_of_fuel => .out_of_fuel

instance : Monad Outcome where
  pure := Outcome.ok
  bind := Outcome.bind

/-- An optional value read as an outcome: `none` is undefined behaviour. -/
def Outcome.ofOption {α : Type} : Option α → Outcome α
  | some a => .ok a
  | none => .undefined

/-! ## Data model -/

/-- Modelled from the spec: `Matrices/SparseElement.h` is not part of the sources.
One sparse entry `(source, destination)`; the stored value of type `T` is never
read by `Tarjan.h` and is left out. -/
structure SparseElement where
  i : Int
  j : Int
deriving DecidableEq, Repr

/-- Modelled from the spec: accessor `getI` of `SparseElement.h`, the row (source
vertex) of a sparse entry. -/
def SparseElement.getI (e : SparseElement) : Int := e.i

/-- Modelled from the spec: accessor `getJ` of `SparseElement.h`, the column
(destination vertex) of a sparse entry. -/
def SparseElement.getJ (e : SparseElement) : Int := e.j

/-- Modelled from the spec: `Vertex.h` is not part of the sources. A vertex has a
fixed identity `vertex_name`, a traversal `index` and a `low_link`. -/
structure vertex where
  vertex_name : Int
  index : Int
  low_link : Int
deriving DecidableEq, Repr

/-- Modelled from the spec: the constructor call `vertex(j,-1)` of `Vertex.h`
yields a vertex with identity `j` and `index = low_link = -1`. -/
def vertex.new (name : Int) (init : Int) : vertex :=
  { vertex_name := name, index := init, low_link := init }

/-- Modelled from the spec: accessor `get_vertex_name` of `Vertex.h`. -/
def vertex.get_vertex_name (v : vertex) : Int := v.vertex_name

/-- Modelled from the spec: accessor `get_index` of `Vertex.h`. -/
def vertex.get_index (v : vertex) : Int := v.index

/-- Modelled from the spec: accessor `get_low_link` of `Vertex.h`. -/
def vertex.get_low_link (v : vertex) : Int := v.low_link

/-- Modelled from the spec: mutator `set_index` of `Vertex.h`. -/
def vertex.set_index (v : vertex) (x : Int) : vertex := { v with index := x }

/-- Modelled from the spec: mutator `set_low_link` of `Vertex.h`. -/
def vertex.set_low_link (v : vertex) (x : Int) : vertex := { v with low_link := x }

/-- Modelled from the spec: `operator==` of `Vertex.h` compares the fixed identity
of two vertices. -/
def vertex.eq (a b : vertex) : Bool := a.vertex_name == b.vertex_name

/-- Modelled from the spec: `operator!=` of `Vertex.h`, the negation of `operator==`. -/
def vertex.ne (a b : vertex) : Bool := !(vertex.eq a b)

/-- Read `v[k]` of a `std::vector` with an `int` subscript. -/
def vec_at {α : Type} (v : List α) (k : Int) : Outcome α :=
  if 0 ≤ k then Outcome.ofOption v[k.toNat]? else .undefined

/-- Read `vertices[k]` as a pointer: the position `k`, provided it is in range. -/
def ptr_at (vertices : List vertex) (k : Int) : Outcome Nat :=
  if 0 ≤ k ∧ k.toNat < vertices.length then .ok k.toNat else .undefined

/-- Dereference of a `vertex*`. -/
def deref (vertices : List vertex) (p : Nat) : Outcome vertex :=
  Outcome.ofOption vertices[p]?

/-- Store through a `vertex*`. -/
def store (vertices : List vertex) (p : Nat) (v : vertex) : List vertex :=
  vertices.set p v

/-! ## binary_search_index -/

/-- First loop of `binary_search_index` (lines 31-43); returns `(start, finish, mid)`
as they stand when the loop is left. -/
def bsi_search (sparse_graph : List SparseElement) (curr_row : Int) :
    Nat → Int → Int → Int → Outcome (Int × Int × Int)
  | 0, _, _, _ => .out_of_fuel
  | fuel + 1, start, finish, mid =>
    if start ≤ finish ∧ mid ≥ 0 ∧ mid < (sparse_graph.length : Int) then do
      let mid := Int.tdiv (start + finish) 2
      let e ← vec_at sparse_graph mid
      if e.getI = curr_row then
        pure (start, finish, mid)
      else if e.getI < curr_row then
        bsi_search sparse_graph curr_row fuel (mid + 1) finish mid
      else
        bsi_search sparse_graph curr_row fuel start (mid - 1) mid
    else pure (start, finish, mid)

/-- Second loop of `binary_search_index` (lines 46-48); returns `mid` as it stands
when the loop is left. -/
def bsi_rewind (sparse_graph : List SparseElement) (curr_row : Int) :
    Nat → Int → Outcome Int
  | 0, _ => .out_of_fuel
  | fuel + 1, mid =>
    if mid > -1 then do
      let e ← vec_at sparse_graph mid
      if e.getI = curr_row then
        bsi_rewind sparse_graph curr_row fuel (mid - 1)
      else pure mid
    else pure mid

/-- The function `binary_search_index` (lines 23-55). The two loops get fuel
`size + 1` and `size + 2`, which they never exhaust. -/
def binary_search_index (sparse_graph : List SparseElement) (curr_row : Int) :
    Outcome Int := do
  let sparse_size : Int := sparse_graph.length
  let r ← bsi_search sparse_graph curr_row (sparse_graph.length + 1) 0 (sparse_size - 1) 0
  let mid ← bsi_rewind sparse_graph curr_row (sparse_graph.length + 2) r.2.2
  let mid := mid + 1
  if r.1 > r.2.1 then pure (-1) else pure mid

/-! ## min and contains -/

/-- The function `min` (lines 62-69). -/
def min (a b : Int) : Int := if a > b then b else a

/-- First loop of `contains` (lines 84-93): pops `s` into `other_stack` until the
top equals `w`; returns `(found, s, other_stack)`. -/
def contains_scan (vertices : List vertex) (w : vertex) :
    List Nat → List Nat → Outcome (Int × List Nat × List Nat)
  | [], other_stack => pure (0, [], other_stack)
  | current :: rest, other_stack => do
    let c ← deref vertices current
    if vertex.eq c w then pure (1, current :: rest, other_stack)
    else contains_scan vertices w rest (current :: other_stack)

/-- Second loop of `contains` (lines 96-100): pushes `other_stack` back onto `s`. -/
def contains_restore : List Nat → List Nat → List Nat
  | [], s => s
  | current :: other_stack, s => contains_restore other_stack (current :: s)

/-- The function `contains` (lines 77-103); returns `(found, s)` with `s` the stack
as the call leaves it. -/
def contains (vertices : List vertex) (s : List Nat) (w : vertex) :
    Outcome (Int × List Nat) := do
  let r ← contains_scan vertices w s []
  pure (r.1, contains_restore r.2.2 r.2.1)

/-! ## strong_com -/

/-- Mutable state shared by the calls of `strong_com`: the counter `*index`, the
`vertices` vector (with the objects it points to) and the stack `st`. -/
structure TState where
  index : Int
  vertices : List vertex
  st : List Nat
deriving DecidableEq, Repr

/-- The loop of the closing step (lines 165-170), entered with `hold` already
popped; returns the vertices and the stack as the loop leaves them. -/
def strong_com_unwind (curr_vertex : Nat) :
    Nat → List Nat → List vertex → Outcome (List vertex × List Nat)
  | hold, [], vertices => do
    let _ ← deref vertices hold
    let _ ← deref vertices curr_vertex
    pure (vertices, [])
  | hold, top :: rest, vertices => do
    let h ← deref vertices hold
    let c ← deref vertices curr_vertex
    if vertex.ne h c then
      let p ← ptr_at vertices h.get_vertex_name
      let hv ← deref vertices p
      strong_com_unwind curr_vertex top rest
        (store vertices p (hv.set_low_link c.get_low_link))
    else pure (vertices, top :: rest)

/-- The closing step of `strong_com` (lines 161-171). -/
def strong_com_close (curr_vertex : Nat) (s : TState) : Outcome TState := do
  let c ← deref s.vertices curr_vertex
  if c.get_low_link = c.get_index then
    match s.st with
    | [] => .undefined
    | hold :: rest =>
      let r ← strong_com_unwind curr_vertex hold rest s.vertices
      pure { s with vertices := r.1, st := r.2 }
  else pure s

mutual

/-- The function `strong_com` (lines 117-172) on vertex `vertex_number`. -/
def strong_com (sparse_graph : List SparseElement) (num_vertices : Int) :
    Nat → Int → TState → Outcome TState
  | 0, _, _ => .out_of_fuel
  | fuel + 1, vertex_number, s => do
    let sparse_size : Int := sparse_graph.length
    let sparse_edges_index ← binary_search_index sparse_graph vertex_number
    let curr_vertex ← ptr_at s.vertices vertex_number
    let c ← deref s.vertices curr_vertex
    let c := (c.set_index s.index).set_low_link s.index
    let s := { s with vertices := store s.vertices curr_vertex c, index := s.index + 1 }
    if sparse_edges_index < sparse_size ∧ sparse_edges_index > -1 then
      let sparse_vertex ← vec_at sparse_graph sparse_edges_index
      let s := { s with st := curr_vertex :: s.st }
      let s ← strong_com_loop sparse_graph num_vertices fuel vertex_number curr_vertex
        sparse_edges_index sparse_vertex s
      strong_com_close curr_vertex s
    else pure s

/-- The edge loop of `strong_com` (lines 145-158), entered with the current
`sparse_edges_index` and `sparse_vertex`. -/
def strong_com_loop (sparse_graph : List SparseElement) (num_vertices : Int) :
    Nat → Int → Nat → Int → SparseElement → TState → Outcome TState
  | 0, _, _, _, _, _ => .out_of_fuel
  | fuel + 1, vertex_number, curr_vertex, sparse_edges_index, sparse_vertex, s =>
    if sparse_edges_index < (sparse_graph.length : Int) ∧ sparse_vertex.getI = vertex_number then do
      let sparse_vertex ← vec_at sparse_graph sparse_edges_index
      let other_vertex ← ptr_at s.vertices sparse_vertex.getJ
      let o ← deref s.vertices other_vertex
      if o.get_index = -1 then
        let s ← strong_com sparse_graph num_vertices fuel sparse_vertex.getJ s
        let c ← deref s.vertices curr_vertex
        let o ← deref s.vertices other_vertex
        let c := c.set_low_link (min c.get_low_link o.get_low_link)
        let s := { s with vertices := store s.vertices curr_vertex c }
        strong_com_loop sparse_graph num_vertices fuel vertex_number curr_vertex
          (sparse_edges_index + 1) sparse_vertex s
      else
        let r ← contains s.vertices s.st o
        let s := { s with st := r.2 }
        if r.1 = 1 then
          let c ← deref s.vertices curr_vertex
          let o ← deref s.vertices other_vertex
          let c := c.set_low_link (min c.get_low_link o.get_index)
          let s := { s with vertices := store s.vertices curr_vertex c }
          strong_com_loop sparse_graph num_vertices fuel vertex_number curr_vertex
            (sparse_edges_index + 1) sparse_vertex s
        else
          strong_com_loop sparse_graph num_vertices fuel vertex_number curr_vertex
            (sparse_edges_index + 1) sparse_vertex s
    else pure s

end

/-! ## graph_con_com -/

/-- The vertex array built by lines 194-197: `vertices[j] = new vertex(j,-1)`. -/
def graph_con_com_init (num_vertices : Nat) : List vertex :=
  (List.range num_vertices).map (fun (j : Nat) => vertex.new (j : Int) (-1))

/-- The driver loop of `graph_con_com` (lines 200-207), entered with loop variable `i`;
`fuel` is handed to each call of `strong_com`. -/
def graph_con_com_loop (sparse_form : List SparseElement) (num_vertices : Int) (fuel : Nat) :
    Nat → Int → TState → Outcome TState
  | 0, _, _ => .out_of_fuel
  | k + 1, i, s =>
    if i < num_vertices then do
      let p ← ptr_at s.vertices i
      let v ← deref s.vertices p
      if v.get_low_link = -1 then
        let s ← strong_com sparse_form num_vertices fuel i s
        graph_con_com_loop sparse_form num_vertices fuel k (i + 1) s
      else
        graph_con_com_loop sparse_form num_vertices fuel k (i + 1) s
    else pure s

/-- The state in which `graph_con_com` leaves its driver loop. `DenseMatrix1D` is not
part of the sources: the row count `sm.getNumberOfRows()` and the edge list
`sm.getSparseForm()` are the parameters `num_vertices` and `sparse_form`. The driver
loop gets fuel `num_vertices + 1`, which it never exhausts; `fuel` bounds the
recursion of `strong_com`. -/
def graph_con_com_run (fuel : Nat) (num_vertices : Nat) (sparse_form : List SparseElement) :
    Outcome TState :=
  graph_con_com_loop sparse_form (num_vertices : Int) fuel (num_vertices + 1) 0
    { index := 0, vertices := graph_con_com_init num_vertices, st := [] }

/-- The function `graph_con_com` (lines 183-210): the returned `vertices`. -/
def graph_con_com (fuel : Nat) (num_vertices : Nat) (sparse_form : List SparseElement) :
    Outcome (List vertex) := do
  let s ← graph_con_com_run fuel num_vertices sparse_form
  pure s.vertices

/-! ## Input conditions and example inputs -/

/-- Edge list sorted ascending by source. -/
def sorted_by_source (g : List SparseElement) : Prop :=
  g.Pairwise (fun a b => a.getI ≤ b.getI)

instance : DecidablePred sorted_by_source :=
  fun g => by unfold sorted_by_source; infer_instance

/-- Every source and destination of the edge list is a vertex id in `[0, n)`. -/
def in_range (n : Nat) (g : List SparseElement) : Prop :=
  ∀ e ∈ g, (0 ≤ e.getI ∧ e.getI < n) ∧ (0 ≤ e.getJ ∧ e.getJ < n)

instance (n : Nat) : DecidablePred (in_range n) :=
  fun g => by unfold in_range; infer_instance

/-- A sorted edge list in which vertex 2 has a run of two edges. -/
def example_run : List SparseElement := [⟨0, 1⟩, ⟨2, 3⟩, ⟨2, 0⟩]

/-- Outcome `y` agrees with outcome `x` unless `x` ran out of fuel. -/
def Outcome.refines {α : Type} (x y : Outcome α) : Prop :=
  x = Outcome.out_of_fuel ∨ x = y

/-- The edge list has a directed edge from `u` to `v`. -/
def edge (g : List SparseElement) (u v : Int) : Prop :=
  ∃ e ∈ g, e.getI = u ∧ e.getJ = v

/-- There is a directed path (possibly of length 0) from `u` to `v`. -/
def reach (g : List SparseElement) : Int → Int → Prop :=
  Relation.ReflTransGen (edge g)

/-- The graph has no directed cycle. -/
def acyclic (g : List SparseElement) : Prop :=
  ∀ u, ¬ Relation.TransGen (edge g) u u

/-- The final `low_link` values of a returned vertex array, by vertex id. -/
def low_links (vs : List vertex) : List Int := vs.map vertex.get_low_link

/-- The final `index` values of a returned vertex array, by vertex id. -/
def indices (vs : List vertex) : List Int := vs.map vertex.get_index

/-- Two 3-cycles joined by the bridge edge 2→3 (section 8 of the spec). -/
def two_cycles : List SparseElement :=
  [⟨0, 1⟩, ⟨1, 2⟩, ⟨2, 0⟩, ⟨2, 3⟩, ⟨3, 4⟩, ⟨4, 5⟩, ⟨5, 3⟩]

/-- The chain 0→1→2 (section 8 of the spec). -/
def chain3 : List SparseElement := [⟨0, 1⟩, ⟨1, 2⟩]

/-- An acyclic graph on 4 vertices, 2→3→0→1, sorted by source: the run of vertex 0
is followed directly by the run of vertex 2. -/
def dag4 : List SparseElement := [⟨0, 1⟩, ⟨2, 3⟩, ⟨3, 0⟩]

/-- A topological rank for `dag4`: every edge goes to a smaller rank. -/
def dag4_rank (v : Int) : Nat :=
  if v = 2 then 3 else if v = 3 then 2 else if v = 0 then 1 else 0

/-- The state in which `strong_com` is called on vertex 1 during the run on the
single edge 0→1: vertex 0 is visited and on the stack, the counter is 1. -/
def sink_call_state : TState :=
  { index := 1, vertices := [⟨0, 0, 0⟩, ⟨1, -1, -1⟩], st := [0] }

/-! ## Invariants of the traversal state -/

/-- Number of vertices that have not been visited yet (`index == -1`). -/
def unvisited (vs : List vertex) : Nat := vs.countP (fun v => decide (v.index = -1))

/-- The vertex stored at position `p` has been visited. -/
def visited_at (vs : List vertex) (p : Nat) : Prop :=
  ∃ v, vs[p]? = some v ∧ v.index ≠ -1

/-- Shape of the vertex array over `n` vertices: position `p` holds the vertex named
`p`, and a vertex is either untouched (`index = low_link = -1`) or carries a
non-negative `index` and `low_link`. -/
structure wf_vertices (n : Nat) (vs : List vertex) : Prop where
  len : vs.length = n
  names : ∀ (p : Nat) (v : vertex), vs[p]? = some v → v.vertex_name = (p : Int)
  marks : ∀ (p : Nat) (v : vertex), vs[p]? = some v →
    (v.index = -1 ∧ v.low_link = -1) ∨ (0 ≤ v.index ∧ 0 ≤ v.low_link)

/-- Shape of the traversal state: a well-shaped vertex array, a stack of visited
vertices and a non-negative counter. -/
structure wf_state (n : Nat) (s : TState) : Prop where
  vertices : wf_vertices n s.vertices
  stack : ∀ p ∈ s.st, visited_at s.vertices p
  counter : 0 ≤ s.index

/-- The vertex array `vs2` is a later stage of `vs`: same size, and every visited
vertex has kept its `index`. -/
def evolves (vs vs2 : List vertex) : Prop :=
  vs2.length = vs.length ∧
  ∀ (p : Nat) (v : vertex), vs[p]? = some v → v.index ≠ -1 →
    ∃ w, vs2[p]? = some w ∧ w.index = v.index

/-! ## The cycle of length k -/

/-- The directed cycle 0→1→...→(k-1)→0 as an edge list in ascending source order. -/
def cycle_graph (k : Nat) : List SparseElement :=
  (List.range k).map (fun (i : Nat) => (⟨(i : Int), (((i + 1) % k : Nat) : Int)⟩ : SparseElement))

/-- Vertex array on the way down the cycle: vertices below `j` are visited with
`low_link = index`, the others are untouched. -/
def cycle_pre (k j : Nat) : List vertex :=
  (List.range k).map (fun (i : Nat) =>
    if i < j then (⟨(i : Int), (i : Int), (i : Int)⟩ : vertex) else ⟨(i : Int), -1, -1⟩)

/-- Vertex array on the way back up the cycle: vertices below `j` still have
`low_link = index`, the others have `low_link = 0`. -/
def cycle_post (k j : Nat) : List vertex :=
  (List.range k).map (fun (i : Nat) =>
    if i < j then (⟨(i : Int), (i : Int), (i : Int)⟩ : vertex) else ⟨(i : Int), (i : Int), 0⟩)

/-- The stack holding vertices `j-1, ..., 0`, top first. -/
def cycle_stack (j : Nat) : List Nat := (List.range j).reverse


/-! ## The same program with a record of what it does

The functions below are `strong_com` and `graph_con_com` again, statement for
statement, with one addition: every call of `strong_com`, every edge loaded by the
edge loop and every store to a vertex is put on a log (newest event first).
`strong_com_tr_erase` and its companions show that dropping the log gives back the
functions above. -/

/-- Something the traversal does. -/
inductive Event where
  /-- `strong_com` is entered on `vertex_number`; `depth` counts the calls of
  `strong_com` that are active, this one included. -/
  | call (vertex_number : Int) (depth : Nat)
  /-- The edge loop of `strong_com(vertex_number)` loads
  `sparse_graph[sparse_edges_index]` (line 146) and works on it. -/
  | edge (vertex_number : Int) (sparse_edges_index : Int) (e : SparseElement)
  /-- The vertex at position `p` is overwritten: `old` becomes `new`. -/
  | write (p : Nat) (old new : vertex)
deriving DecidableEq, Repr

/-- A traversal state together with the log of events so far. -/
structure TrState where
  s : TState
  log : List Event
deriving DecidableEq, Repr

/-- Change of the result of an outcome. -/
def Outcome.map {α β : Type} (f : α → β) : Outcome α → Outcome β
  | .ok a => .ok (f a)
  | .undefined => .undefined
  | .out_of_fuel => .out_of_fuel

/-- The loop of the closing step (lines 165-170) with its stores logged. -/
def strong_com_unwind_tr (curr_vertex : Nat) :
    Nat → List Nat → List vertex → List Event →
      Outcome (List vertex × List Nat × List Event)
  | hold, [], vertices, log => do
    let _ ← deref vertices hold
    let _ ← deref vertices curr_vertex
    pure (vertices, [], log)
  | hold, top :: rest, vertices, log => do
    let h ← deref vertices hold
    let c ← deref vertices curr_vertex
    if vertex.ne h c then
      let p ← ptr_at vertices h.get_vertex_name
      let hv ← deref vertices p
      strong_com_unwind_tr curr_vertex top rest
        (store vertices p (hv.set_low_link c.get_low_link))
        (Event.write p hv (hv.set_low_link c.get_low_link) :: log)
    else pure (vertices, top :: rest, log)

/-- The closing step of `strong_com` (lines 161-171) with its stores logged. -/
def strong_com_close_tr (curr_vertex : Nat) (t : TrState) : Outcome TrState := do
  let c ← deref t.s.vertices curr_vertex
  if c.get_low_link = c.get_index then
    match t.s.st with
    | [] => .undefined
    | hold :: rest =>
      let r ← strong_com_unwind_tr curr_vertex hold rest t.s.vertices t.log
      pure { s := { t.s with vertices := r.1, st := r.2.1 }, log := r.2.2 }
  else pure t

mutual

/-- The function `strong_com` (lines 117-172) with its call, its edge loads and its
stores logged; `depth` is the number of active calls, this one included. -/
def strong_com_tr (sparse_graph : List SparseElement) (num_vertices : Int) :
    Nat → Nat → Int → TrState → Outcome TrState
  | 0, _, _, _ => .out_of_fuel
  | fuel + 1, depth, vertex_number, t => do
    let log := Event.call vertex_number depth :: t.log
    let s := t.s
    let sparse_size : Int := sparse_graph.length
    let sparse_edges_index ← binary_search_index sparse_graph vertex_number
    let curr_vertex ← ptr_at s.vertices vertex_number
    let c0 ← deref s.vertices curr_vertex
    let c := (c0.set_index s.index).set_low_link s.index
    let log := Event.write curr_vertex c0 c :: log
    let s := { s with vertices := store s.vertices curr_vertex c, index := s.index + 1 }
    if sparse_edges_index < sparse_size ∧ sparse_edges_index > -1 then
      let sparse_vertex ← vec_at sparse_graph sparse_edges_index
      let s := { s with st := curr_vertex :: s.st }
      let t ← strong_com_loop_tr sparse_graph num_vertices fuel depth vertex_number
        curr_vertex sparse_edges_index sparse_vertex { s := s, log := log }
      strong_com_close_tr curr_vertex t
    else pure { s := s, log := log }

/-- The edge loop of `strong_com` (lines 145-158) with its edge loads and stores
logged; recursive calls run one level deeper. -/
def strong_com_loop_tr (sparse_graph : List SparseElement) (num_vertices : Int) :
    Nat → Nat → Int → Nat → Int → SparseElement → TrState → Outcome TrState
  | 0, _, _, _, _, _, _ => .out_of_fuel
  | fuel + 1, depth, vertex_number, curr_vertex, sparse_edges_index, sparse_vertex, t =>
    if sparse_edges_index < (sparse_graph.length : Int) ∧ sparse_vertex.getI = vertex_number then do
      let sparse_vertex ← vec_at sparse_graph sparse_edges_index
      let log := Event.edge vertex_number sparse_edges_index sparse_vertex :: t.log
      let s := t.s
      let other_vertex ← ptr_at s.vertices sparse_vertex.getJ
      let o ← deref s.vertices other_vertex
      if o.get_index = -1 then
        let t ← strong_com_tr sparse_graph num_vertices fuel (depth + 1) sparse_vertex.getJ
          { s := s, log := log }
        let s := t.s
        let c0 ← deref s.vertices curr_vertex
        let o ← deref s.vertices other_vertex
        let c := c0.set_low_link (min c0.get_low_link o.get_low_link)
        let s := { s with vertices := store s.vertices curr_vertex c }
        strong_com_loop_tr sparse_graph num_vertices fuel depth vertex_number curr_vertex
          (sparse_edges_index + 1) sparse_vertex
          { s := s, log := Event.write curr_vertex c0 c :: t.log }
      else
        let r ← contains s.vertices s.st o
        let s := { s with st := r.2 }
        if r.1 = 1 then
          let c0 ← deref s.vertices curr_vertex
          let o ← deref s.vertices other_vertex
          let c := c0.set_low_link (min c0.get_low_link o.get_index)
          let s := { s with vertices := store s.vertices curr_vertex c }
          strong_com_loop_tr sparse_graph num_vertices fuel depth vertex_number curr_vertex
            (sparse_edges_index + 1) sparse_vertex
            { s := s, log := Event.write curr_vertex c0 c :: log }
        else
          strong_com_loop_tr sparse_graph num_vertices fuel depth vertex_number curr_vertex
            (sparse_edges_index + 1) sparse_vertex { s := s, log := log }
    else pure t

end

/-- The driver loop of `graph_con_com` (lines 200-207) over logged states; the calls
of `strong_com` it makes have depth 1. -/
def graph_con_com_loop_tr (sparse_form : List SparseElement) (num_vertices : Int)
    (fuel : Nat) : Nat → Int → TrState → Outcome TrState
  | 0, _, _ => .out_of_fuel
  | k + 1, i, t =>
    if i < num_vertices then do
      let p ← ptr_at t.s.vertices i
      let v ← deref t.s.vertices p
      if v.get_low_link = -1 then
        let t ← strong_com_tr sparse_form num_vertices fuel 1 i t
        graph_con_com_loop_tr sparse_form num_vertices fuel k (i + 1) t
      else
        graph_con_com_loop_tr sparse_form num_vertices fuel k (i + 1) t
    else pure t

/-- The run of `graph_con_com` with its log, started with an empty log. -/
def graph_con_com_run_tr (fuel : Nat) (num_vertices : Nat)
    (sparse_form : List SparseElement) : Outcome TrState :=
  graph_con_com_loop_tr sparse_form (num_vertices : Int) fuel (num_vertices + 1) 0
    { s := { index := 0, vertices := graph_con_com_init num_vertices, st := [] }, log := [] }

/-- The vertices on which `strong_com` was called, newest first. -/
def calls : List Event → List Int
  | [] => []
  | Event.call v _ :: l => v :: calls l
  | _ :: l => calls l

/-! ## Invariants of the logged traversal -/

/-- What is required of a single event over `n` vertices: a call is at most
`n` deep, and a store to a vertex keeps its name and, once the vertex has been
visited, keeps its index and does not raise its low_link. -/
def good_event (n : Nat) : Event → Prop
  | Event.call _ depth => depth ≤ n
  | Event.edge _ _ _ => True
  | Event.write _ old new =>
    new.vertex_name = old.vertex_name ∧
      (old.index ≠ -1 → new.index = old.index ∧ new.low_link ≤ old.low_link)

/-- The stronger shape of a traversal state: on top of `wf_state` the stack has no
repetition, `low_link ≤ index < counter` for every vertex, visited vertices have
distinct indices, and the counter is the number of visited vertices. -/
structure rich_state (n : Nat) (s : TState) : Prop where
  wf : wf_state n s
  nodup : s.st.Nodup
  low_le : ∀ (p : Nat) (v : vertex), s.vertices[p]? = some v → v.low_link ≤ v.index
  index_lt : ∀ (p : Nat) (v : vertex), s.vertices[p]? = some v → v.index < s.index
  index_inj : ∀ (p q : Nat) (v w : vertex), s.vertices[p]? = some v →
    s.vertices[q]? = some w → v.index ≠ -1 → v.index = w.index → p = q
  count : s.index + (unvisited s.vertices : Int) = (n : Int)

/-- Shape of a logged state: a `rich_state`, a log of good events, and `strong_com`
called exactly once on each visited vertex and on no other. -/
structure rich_trace (n : Nat) (t : TrState) : Prop where
  state : rich_state n t.s
  good : ∀ e ∈ t.log, good_event n e
  calls_nodup : (calls t.log).Nodup
  calls_iff : ∀ v : Int, v ∈ calls t.log ↔ (0 ≤ v ∧ visited_at t.s.vertices v.toNat)

/-- The vertex array `vs2` comes from `vs` by lowering the low_link of visited
vertices to non-negative values; nothing else changes. -/
def low_only (vs vs2 : List vertex) : Prop :=
  vs2.length = vs.length ∧
  ∀ (p : Nat) (v : vertex), vs[p]? = some v →
    ∃ w, vs2[p]? = some w ∧ w.vertex_name = v.vertex_name ∧ w.index = v.index ∧
      (w.low_link = v.low_link ∨
        (v.index ≠ -1 ∧ 0 ≤ w.low_link ∧ w.low_link ≤ v.low_link))

/-- Every vertex of `ext` (the part of the stack above `curr`) has a low_link at
least that of `curr`. -/
def low_order (vs : List vertex) (curr : Nat) (ext : List Nat) : Prop :=
  ∀ q ∈ ext, ∀ (w c : vertex), vs[q]? = some w → vs[curr]? = some c →
    c.low_link ≤ w.low_link

/-- The counter and the index of every stacked vertex are at least `B`. -/
def index_bounded (B : Int) (s : TState) : Prop :=
  B ≤ s.index ∧ ∀ q ∈ s.st, ∀ (w : vertex), s.vertices[q]? = some w → B ≤ w.index

/-- What a call of the logged `strong_com` on an unvisited vertex achieves, given
`fuel`: it returns, keeps the invariants, visits at least the vertex itself, leaves
the entry stack in place below whatever it adds, does not touch the vertices of the
entry stack, and keeps every low_link it leaves on the stack at or above its own. -/
def strong_spec (g : List SparseElement) (n : Nat) (N : Int) (fuel : Nat) : Prop :=
  ∀ (d : Nat) (v : Int) (t : TrState) (p : Nat) (old : vertex),
    rich_trace n t → ptr_at t.s.vertices v = Outcome.ok p → t.s.vertices[p]? = some old →
    old.index = -1 → d + unvisited t.s.vertices ≤ n + 1 →
    unvisited t.s.vertices * (g.length + 2) ≤ fuel →
    ∃ t2, strong_com_tr g N fuel d v t = Outcome.ok t2 ∧ rich_trace n t2 ∧
      evolves t.s.vertices t2.s.vertices ∧
      unvisited t2.s.vertices < unvisited t.s.vertices ∧
      (∃ c, t2.s.vertices[p]? = some c ∧ c.index = t.s.index ∧
        (c.low_link = c.index → t2.s.st = t.s.st)) ∧
      (∃ ext, t2.s.st = ext ++ t.s.st ∧ low_order t2.s.vertices p ext) ∧
      (∀ q ∈ t.s.st, t2.s.vertices[q]? = t.s.vertices[q]?) ∧
      (∀ B, index_bounded B t.s →
        index_bounded B t2.s ∧ ∀ (c : vertex), t2.s.vertices[p]? = some c → B ≤ c.low_link)

/-- What the logged edge loop of `curr` achieves from any of its iterations on,
given `fuel`; the stack is `ext ++ curr :: st0` with `st0` the stack at entry of the
call. -/
def loop_spec (g : List SparseElement) (n : Nat) (N : Int) (fuel : Nat) : Prop :=
  ∀ (d : Nat) (v : Int) (curr : Nat) (idx : Int) (sv : SparseElement) (t : TrState)
    (st0 ext : List Nat),
    rich_trace n t → 0 ≤ idx → t.s.st = ext ++ curr :: st0 →
    low_order t.s.vertices curr ext → d + 1 + unvisited t.s.vertices ≤ n + 1 →
    unvisited t.s.vertices * (g.length + 2) + ((g.length : Int) - idx).toNat < fuel →
    ∃ t2, strong_com_loop_tr g N fuel d v curr idx sv t = Outcome.ok t2 ∧ rich_trace n t2 ∧
      evolves t.s.vertices t2.s.vertices ∧
      (∃ ext2, t2.s.st = ext2 ++ curr :: st0 ∧ low_order t2.s.vertices curr ext2) ∧
      (∀ q ∈ st0, t2.s.vertices[q]? = t.s.vertices[q]?) ∧
      (∀ B, index_bounded B t.s →
        (∀ (c : vertex), t.s.vertices[curr]? = some c → B ≤ c.low_link) →
        index_bounded B t2.s ∧
          ∀ (c : vertex), t2.s.vertices[curr]? = some c → B ≤ c.low_link)

/-! ## Further inputs, and binary_search_index with its reads recorded -/

/-- A graph on 4 vertices with edges 0→1, 1→3, 2→0, sorted by source; every run is
followed directly by the run of the next vertex. -/
def stray3 : List SparseElement := [⟨0, 1⟩, ⟨1, 3⟩, ⟨2, 0⟩]

/-- A log that fits a given vertex array: one call event for each visited vertex. -/
def ghost_log (vs : List vertex) : List Event :=
  ((List.range vs.length).filter (fun (p : Nat) =>
      match vs[p]? with
      | some v => decide (v.index ≠ -1)
      | none => false)).map (fun (p : Nat) => Event.call (p : Int) 0)

/-- The first loop of `binary_search_index` with the positions it reads put on
`reads` (newest first); a position is recorded before it is read. -/
def bsi_search_tr (sparse_graph : List SparseElement) (curr_row : Int) :
    Nat → Int → Int → Int → List Int → Outcome (Int × Int × Int × List Int)
  | 0, _, _, _, _ => .out_of_fuel
  | fuel + 1, start, finish, mid, reads =>
    if start ≤ finish ∧ mid ≥ 0 ∧ mid < (sparse_graph.length : Int) then do
      let mid := Int.tdiv (start + finish) 2
      let reads := mid :: reads
      let e ← vec_at sparse_graph mid
      if e.getI = curr_row then
        pure (start, finish, mid, reads)
      else if e.getI < curr_row then
        bsi_search_tr sparse_graph curr_row fuel (mid + 1) finish mid reads
      else
        bsi_search_tr sparse_graph curr_row fuel start (mid - 1) mid reads
    else pure (start, finish, mid, reads)

/-- The second loop of `binary_search_index` with the positions it reads put on
`reads`. -/
def bsi_rewind_tr (sparse_graph : List SparseElement) (curr_row : Int) :
    Nat → Int → List Int → Outcome (Int × List Int)
  | 0, _, _ => .out_of_fuel
  | fuel + 1, mid, reads =>
    if mid > -1 then do
      let reads := mid :: reads
      let e ← vec_at sparse_graph mid
      if e.getI = curr_row then
        bsi_rewind_tr sparse_graph curr_row fuel (mid - 1) reads
      else pure (mid, reads)
    else pure (mid, reads)

/-- The function `binary_search_index` returning, next to its result, the positions
of `sparse_graph` it has read. -/
def binary_search_index_tr (sparse_graph : List SparseElement) (curr_row : Int) :
    Outcome (Int × List Int) := do
  let sparse_size : Int := sparse_graph.length
  let r ← bsi_search_tr sparse_graph curr_row (sparse_graph.length + 1) 0 (sparse_size - 1) 0 []
  let m ← bsi_rewind_tr sparse_graph curr_row (sparse_graph.length + 2) r.2.2.1 r.2.2.2
  let mid := m.1 + 1
  if r.1 > r.2.1 then pure (-1, m.2) else pure (mid, m.2)

/-- An edge list that is not sorted by source. -/
def unsorted3 : List SparseElement := [⟨2, 0⟩, ⟨0, 1⟩, ⟨1, 2⟩]

/-- A vertex array of three visited vertices. -/
def three_vertices : List vertex := [⟨0, 0, 0⟩, ⟨1, 1, 1⟩, ⟨2, 2, 2⟩]

/-- A graph on 3 vertices with edges 0→1, 1→2, 2→1, sorted by source: vertex 0
leads to the cycle of 1 and 2. -/
def tail_cycle : List SparseElement := [⟨0, 1⟩, ⟨1, 2⟩, ⟨2, 1⟩]

/-- The state in which the run on `tail_cycle` calls `strong_com` on vertex 1:
vertex 0 has been marked with index 0 and pushed, the counter stands at 1, and the
edge loop of vertex 0 has found vertex 1 unvisited. -/
def inner_call_state : TState :=
  { index := 1, vertices := [⟨0, 0, 0⟩, ⟨1, -1, -1⟩, ⟨2, -1, -1⟩], st := [0] }

/-! # Theorems -/

/-! ## Outcome algebra -/

@[simp] theorem Outcome.pure_def {α : Type} (a : α) : (pure a : Outcome α) = Outcome.ok a := rfl

@[simp] theorem Outcome.ok_bind {α β : Type} (a : α) (f : α → Outcome β) :
    (Outcome.ok a >>= f) = f a := rfl

@[simp] theorem Outcome.undefined_bind {α β : Type} (f : α → Outcome β) :
    ((Outcome.undefined : Outcome α) >>= f) = Outcome.undefined := rfl

@[simp] theorem Outcome.fuel_bind {α β : Type} (f : α → Outcome β) :
    ((Outcome.out_of_fuel : Outcome α) >>= f) = Outcome.out_of_fuel := rfl

theorem Outcome.bind_eq_ok {α β : Type} {x : Outcome α} {f : α → Outcome β} {b : β}
    (h : (x >>= f) = Outcome.ok b) : ∃ a, x = Outcome.ok a ∧ f a = Outcome.ok b := by
  cases x with
  | ok a => exact ⟨a, rfl, h⟩
  | undefined => cases h
  | out_of_fuel => cases h

/-! ## Vector reads -/

theorem vec_at_eq_ok {α : Type} {v : List α} {k : Int} {a : α} :
    vec_at v k = Outcome.ok a ↔ 0 ≤ k ∧ v[k.toNat]? = some a := by
  unfold vec_at
  by_cases hk : 0 ≤ k
  · simp only [hk, if_true, true_and]
    cases h : v[k.toNat]? with
    | none => simp [Outcome.ofOption]
    | some b => simp [Outcome.ofOption]
  · simp [hk]

theorem vec_at_of_lt {α : Type} (v : List α) {k : Int} (h0 : 0 ≤ k) (h1 : k < v.length) :
    ∃ a, vec_at v k = Outcome.ok a := by
  have hlt : k.toNat < v.length := by omega
  exact ⟨v[k.toNat], vec_at_eq_ok.2 ⟨h0, List.getElem?_eq_getElem hlt⟩⟩

theorem vec_at_ok_lt {α : Type} {v : List α} {k : Int} {a : α}
    (h : vec_at v k = Outcome.ok a) : 0 ≤ k ∧ k < v.length := by
  obtain ⟨h0, h1⟩ := vec_at_eq_ok.1 h
  have := (List.getElem?_eq_some_iff.1 h1).1
  omega

theorem vec_at_natCast {α : Type} {v : List α} {k : Nat} :
    vec_at v (k : Int) = Outcome.ofOption v[k]? := by
  simp [vec_at]

/-! ## binary_search_index -/

theorem sorted_by_source_at {g : List SparseElement} (hs : sorted_by_source g)
    {a b : Int} {ea eb : SparseElement} (ha : vec_at g a = Outcome.ok ea)
    (hb : vec_at g b = Outcome.ok eb) (hab : a ≤ b) : ea.getI ≤ eb.getI := by
  obtain ⟨ha0, ha1⟩ := vec_at_eq_ok.1 ha
  obtain ⟨hb0, hb1⟩ := vec_at_eq_ok.1 hb
  obtain ⟨hla, rfl⟩ := List.getElem?_eq_some_iff.1 ha1
  obtain ⟨hlb, rfl⟩ := List.getElem?_eq_some_iff.1 hb1
  rcases Nat.lt_or_ge a.toNat b.toNat with hlt | hge
  · exact (List.pairwise_iff_getElem.1 hs) a.toNat b.toNat hla hlb hlt
  · have : a.toNat = b.toNat := by omega
    simp [this]

theorem bsi_search_spec (g : List SparseElement) (q : Int) :
    ∀ (fuel : Nat) (start finish mid : Int),
      0 ≤ start → finish < g.length → 0 ≤ mid → mid < g.length →
      start ≤ finish + 1 → finish - start + 1 < fuel →
      (finish < start → ∀ e, vec_at g mid = Outcome.ok e → e.getI ≠ q) →
      ∃ s f m e, bsi_search g q fuel start finish mid = Outcome.ok (s, f, m) ∧
        vec_at g m = Outcome.ok e ∧ (s ≤ f → e.getI = q) ∧ (f < s → e.getI ≠ q) ∧
        (sorted_by_source g →
          (∀ k e, vec_at g k = Outcome.ok e → k < start → e.getI < q) →
          (∀ k e, vec_at g k = Outcome.ok e → finish < k → q < e.getI) →
          f < s → ∀ k e, vec_at g k = Outcome.ok e → e.getI ≠ q) := by
  intro fuel
  induction fuel with
  | zero => intro start finish mid h0 h1 h2 h3 hsf hf; omega
  | succ fuel ih =>
    intro start finish mid h0 h1 h2 h3 hsf hf hmid
    unfold bsi_search
    by_cases hc : start ≤ finish ∧ mid ≥ 0 ∧ mid < (g.length : Int)
    · rw [if_pos hc]
      have hdiv : Int.tdiv (start + finish) 2 = (start + finish) / 2 :=
        Int.tdiv_eq_ediv (by omega) (by omega)
      simp only [hdiv]
      have hm0 : 0 ≤ (start + finish) / 2 := by omega
      have hm1 : (start + finish) / 2 < g.length := by omega
      obtain ⟨e, he⟩ := vec_at_of_lt g hm0 hm1
      rw [he]
      simp only [Outcome.ok_bind]
      by_cases heq : e.getI = q
      · rw [if_pos heq]
        refine ⟨start, finish, _, e, rfl, he, fun _ => heq, fun h => by omega, ?_⟩
        intro _ _ _ h; omega
      · rw [if_neg heq]
        by_cases hlt : e.getI < q
        · rw [if_pos hlt]
          obtain ⟨s, f, m, e', h1', h2', h3', h4', h5'⟩ :=
            ih ((start + finish) / 2 + 1) finish ((start + finish) / 2)
              (by omega) h1 hm0 hm1 (by omega) (by omega)
              (fun _ e2 he2 => by rw [he] at he2; cases he2; exact heq)
          refine ⟨s, f, m, e', h1', h2', h3', h4', ?_⟩
          intro hs hlo hhi
          refine h5' hs ?_ hhi
          intro k ek hk hklt
          have := sorted_by_source_at hs hk he (by omega)
          omega
        · rw [if_neg hlt]
          obtain ⟨s, f, m, e', h1', h2', h3', h4', h5'⟩ :=
            ih start ((start + finish) / 2 - 1) ((start + finish) / 2)
              h0 (by omega) hm0 hm1 (by omega) (by omega)
              (fun _ e2 he2 => by rw [he] at he2; cases he2; exact heq)
          refine ⟨s, f, m, e', h1', h2', h3', h4', ?_⟩
          intro hs hlo hhi
          refine h5' hs hlo ?_
          intro k ek hk hklt
          have := sorted_by_source_at hs he hk (by omega)
          omega
    · rw [if_neg hc]
      have hfs : finish < start := by omega
      obtain ⟨e, he⟩ := vec_at_of_lt g h2 h3
      refine ⟨start, finish, mid, e, rfl, he, fun h => by omega, fun _ => hmid hfs e he, ?_⟩
      intro hs hlo hhi _ k ek hk
      rcases lt_or_le k start with h | h
      · exact ne_of_lt (hlo k ek hk h)
      · exact ne_of_gt (hhi k ek hk (by omega))

theorem bsi_rewind_spec (g : List SparseElement) (q : Int) :
    ∀ (fuel : Nat) (mid : Int), -1 ≤ mid → mid < g.length → mid + 1 < fuel →
      ∃ r, bsi_rewind g q fuel mid = Outcome.ok r ∧ -1 ≤ r ∧ r ≤ mid ∧
        (∀ k e, vec_at g k = Outcome.ok e → r < k → k ≤ mid → e.getI = q) ∧
        (∀ e, vec_at g r = Outcome.ok e → e.getI ≠ q) := by
  intro fuel
  induction fuel with
  | zero => intro mid h0 h1 hf; omega
  | succ fuel ih =>
    intro mid h0 h1 hf
    unfold bsi_rewind
    by_cases hc : mid > -1
    · rw [if_pos hc]
      obtain ⟨e, he⟩ := vec_at_of_lt g (by omega : 0 ≤ mid) h1
      rw [he]
      simp only [Outcome.ok_bind]
      by_cases heq : e.getI = q
      · rw [if_pos heq]
        obtain ⟨r, hr, hr0, hr1, hr2, hr3⟩ := ih (mid - 1) (by omega) (by omega) (by omega)
        refine ⟨r, hr, hr0, by omega, ?_, hr3⟩
        intro k ek hk hrk hkm
        rcases eq_or_lt_of_le hkm with h | h
        · subst h; rw [he] at hk; cases hk; exact heq
        · exact hr2 k ek hk hrk (by omega)
      · rw [if_neg heq]
        refine ⟨mid, rfl, h0, le_refl _, ?_, ?_⟩
        · intro k ek _ h1 h2; omega
        · intro e2 he2; rw [he] at he2; cases he2; exact heq
    · rw [if_neg hc]
      have : mid = -1 := by omega
      subst this
      refine ⟨-1, rfl, le_refl _, le_refl _, ?_, ?_⟩
      · intro k ek _ h1 h2; omega
      · intro e he; have := vec_at_ok_lt he; omega

theorem binary_search_index_spec (g : List SparseElement) (q : Int) (hne : g ≠ []) :
    ∃ r, binary_search_index g q = Outcome.ok r ∧
      ((r = -1 ∧ (sorted_by_source g → ∀ k e, vec_at g k = Outcome.ok e → e.getI ≠ q)) ∨
       (0 ≤ r ∧ ∃ e, vec_at g r = Outcome.ok e ∧ e.getI = q ∧
          ∀ e2, vec_at g (r - 1) = Outcome.ok e2 → e2.getI ≠ q)) := by
  have hlen : 0 < g.length := List.length_pos.2 hne
  obtain ⟨s, f, m, e, h1, h2, h3, h4, h5⟩ :=
    bsi_search_spec g q (g.length + 1) 0 ((g.length : Int) - 1) 0
      (le_refl _) (by omega) (le_refl _) (by omega) (by omega) (by push_cast; omega)
      (fun h => by omega)
  obtain ⟨hm0, hm1⟩ := vec_at_ok_lt h2
  obtain ⟨r, hr, hr0, hr1, hr2, hr3⟩ :=
    bsi_rewind_spec g q (g.length + 2) m (by omega) hm1 (by push_cast; omega)
  unfold binary_search_index
  simp only [h1, hr, Outcome.ok_bind, Outcome.pure_def]
  by_cases hsf : s > f
  · rw [if_pos hsf]
    refine ⟨-1, rfl, Or.inl ⟨rfl, ?_⟩⟩
    intro hs
    refine h5 hs ?_ ?_ hsf
    · intro k ek hk hk0; have := vec_at_ok_lt hk; omega
    · intro k ek hk hk0; have := vec_at_ok_lt hk; omega
  · rw [if_neg hsf]
    have hem : e.getI = q := h3 (by omega)
    have hrm : r < m := by
      rcases eq_or_lt_of_le hr1 with h | h
      · subst h; exact absurd hem (hr3 e h2)
      · exact h
    obtain ⟨e1, he1⟩ := vec_at_of_lt g (by omega : 0 ≤ r + 1) (by omega)
    refine ⟨r + 1, rfl, Or.inr ⟨by omega, e1, he1, hr2 _ e1 he1 (by omega) (by omega), ?_⟩⟩
    intro e2 he2
    have : r + 1 - 1 = r := by omega
    rw [this] at he2
    exact hr3 e2 he2

theorem mem_of_vec_at {α : Type} {v : List α} {k : Int} {a : α}
    (h : vec_at v k = Outcome.ok a) : a ∈ v := by
  obtain ⟨hlt, rfl⟩ := List.getElem?_eq_some_iff.1 (vec_at_eq_ok.1 h).2
  exact List.getElem_mem hlt

theorem vec_at_of_mem {α : Type} {v : List α} {a : α} (h : a ∈ v) :
    ∃ k : Nat, k < v.length ∧ vec_at v (k : Int) = Outcome.ok a := by
  obtain ⟨k, hk, rfl⟩ := List.getElem_of_mem h
  exact ⟨k, hk, vec_at_eq_ok.2 ⟨by omega, by simp [List.getElem?_eq_getElem hk]⟩⟩

/-- The function `binary_search_index` always leaves its two loops with fuel to spare. -/
theorem binary_search_index_ne_out_of_fuel (g : List SparseElement) (q : Int) :
    binary_search_index g q ≠ Outcome.out_of_fuel := by
  by_cases hne : g = []
  · subst hne
    simp [binary_search_index, bsi_search, bsi_rewind, vec_at, Outcome.ofOption]
  · obtain ⟨r, hr, _⟩ := binary_search_index_spec g q hne
    rw [hr]
    intro h
    cases h

/-- C2: on a non-empty edge list sorted ascending by source, a query that is the
source of at least one edge gets the smallest position whose edge has that source. -/
theorem binary_search_index_first (g : List SparseElement) (q : Int) (hne : g ≠ [])
    (hs : sorted_by_source g) (hq : ∃ e ∈ g, e.getI = q) :
    ∃ p : Nat, binary_search_index g q = Outcome.ok (p : Int) ∧ p < g.length ∧
      (∃ e, g[p]? = some e ∧ e.getI = q) ∧
      ∀ k e, k < p → g[k]? = some e → e.getI ≠ q := by
  obtain ⟨r, hr, hcase⟩ := binary_search_index_spec g q hne
  rcases hcase with ⟨_, hnone⟩ | ⟨hr0, e, he, heq, hprev⟩
  · obtain ⟨e, hmem, heq⟩ := hq
    obtain ⟨k, _, hk⟩ := vec_at_of_mem hmem
    exact absurd heq (hnone hs k e hk)
  · obtain ⟨_, hr1⟩ := vec_at_ok_lt he
    refine ⟨r.toNat, ?_, by omega, ⟨e, (vec_at_eq_ok.1 he).2, heq⟩, ?_⟩
    · rw [hr, Int.toNat_of_nonneg hr0]
    · intro k ek hk hek
      have hkv : vec_at g (k : Int) = Outcome.ok ek := vec_at_eq_ok.2 ⟨by omega, by simpa using hek⟩
      obtain ⟨e2, he2⟩ := vec_at_of_lt g (by omega : 0 ≤ r - 1) (by omega)
      have h1 := sorted_by_source_at hs hkv he2 (by omega)
      have h2 := sorted_by_source_at hs he2 he (by omega)
      have h3 := hprev e2 he2
      omega

theorem binary_search_index_eq_neg_one (g : List SparseElement) (q : Int) (hne : g ≠ [])
    (hq : ∀ e ∈ g, e.getI ≠ q) : binary_search_index g q = Outcome.ok (-1) := by
  obtain ⟨r, hr, hcase⟩ := binary_search_index_spec g q hne
  rcases hcase with ⟨h, _⟩ | ⟨_, e, he, heq, _⟩
  · rw [hr, h]
  · exact absurd heq (hq e (mem_of_vec_at he))

/-- C3: on a non-empty edge list sorted ascending by source, a query that is the
source of no edge gets -1. -/
theorem binary_search_index_absent (g : List SparseElement) (q : Int) (hne : g ≠ [])
    (_hs : sorted_by_source g) (hq : ∀ e ∈ g, e.getI ≠ q) :
    binary_search_index g q = Outcome.ok (-1) :=
  binary_search_index_eq_neg_one g q hne hq

/-- Witness for C2: in `example_run` the run of vertex 2 starts at position 1. -/
theorem binary_search_index_first_witness :
    ∃ p : Nat, binary_search_index example_run 2 = Outcome.ok (p : Int) ∧
      p < example_run.length ∧ (∃ e, example_run[p]? = some e ∧ e.getI = 2) ∧
      ∀ k e, k < p → example_run[k]? = some e → e.getI ≠ 2 :=
  binary_search_index_first example_run 2 (by decide) (by decide)
    ⟨⟨2, 3⟩, by decide, rfl⟩

/-- Witness for C3: vertex 1 is the source of no edge of `example_run`. -/
theorem binary_search_index_absent_witness :
    binary_search_index example_run 1 = Outcome.ok (-1) :=
  binary_search_index_absent example_run 1 (by decide) (by decide) (by decide)

/-! ## Fuel: more fuel never changes a result -/

theorem Outcome.refines_refl {α : Type} (x : Outcome α) : Outcome.refines x x := Or.inr rfl

theorem Outcome.refines_fuel {α : Type} (y : Outcome α) :
    Outcome.refines Outcome.out_of_fuel y := Or.inl rfl

theorem Outcome.refines_trans {α : Type} {x y z : Outcome α}
    (h1 : Outcome.refines x y) (h2 : Outcome.refines y z) : Outcome.refines x z := by
  rcases h1 with h | h
  · exact Or.inl h
  · subst h; exact h2

theorem Outcome.refines_bind {α β : Type} {x y : Outcome α} {f k : α → Outcome β}
    (h1 : Outcome.refines x y) (h2 : ∀ a, Outcome.refines (f a) (k a)) :
    Outcome.refines (x >>= f) (y >>= k) := by
  rcases h1 with h | h
  · subst h; exact Or.inl rfl
  · subst h
    cases x with
    | ok a => exact h2 a
    | undefined => exact Or.inr rfl
    | out_of_fuel => exact Or.inl rfl

theorem Outcome.refines_ite {α : Type} {c : Prop} [Decidable c] {x y u v : Outcome α}
    (h1 : Outcome.refines x y) (h2 : Outcome.refines u v) :
    Outcome.refines (if c then x else u) (if c then y else v) := by
  split
  · exact h1
  · exact h2

theorem Outcome.refines_ok {α : Type} {y : Outcome α} {a : α}
    (h : Outcome.refines (Outcome.ok a) y) : y = Outcome.ok a := by
  rcases h with h | h
  · cases h
  · exact h.symm

theorem Outcome.refines_undefined {α : Type} {y : Outcome α}
    (h : Outcome.refines (Outcome.undefined : Outcome α) y) : y = Outcome.undefined := by
  rcases h with h | h
  · cases h
  · exact h.symm

theorem strong_com_fuel_succ (g : List SparseElement) (n : Int) (fuel : Nat) :
    (∀ v s, Outcome.refines (strong_com g n fuel v s) (strong_com g n (fuel + 1) v s)) ∧
    (∀ v c i sv s, Outcome.refines (strong_com_loop g n fuel v c i sv s)
      (strong_com_loop g n (fuel + 1) v c i sv s)) := by
  induction fuel with
  | zero =>
    constructor
    · intro v s; rw [strong_com]; exact Outcome.refines_fuel _
    · intro v c i sv s; rw [strong_com_loop]; exact Outcome.refines_fuel _
  | succ fuel ih =>
    obtain ⟨ih1, ih2⟩ := ih
    constructor
    · intro v s
      rw [strong_com, strong_com]
      refine Outcome.refines_bind (Outcome.refines_refl _) fun _ => ?_
      refine Outcome.refines_bind (Outcome.refines_refl _) fun _ => ?_
      refine Outcome.refines_bind (Outcome.refines_refl _) fun _ => ?_
      refine Outcome.refines_ite ?_ (Outcome.refines_refl _)
      refine Outcome.refines_bind (Outcome.refines_refl _) fun _ => ?_
      exact Outcome.refines_bind (ih2 _ _ _ _ _) fun _ => Outcome.refines_refl _
    · intro v c i sv s
      rw [strong_com_loop, strong_com_loop]
      refine Outcome.refines_ite ?_ (Outcome.refines_refl _)
      refine Outcome.refines_bind (Outcome.refines_refl _) fun _ => ?_
      refine Outcome.refines_bind (Outcome.refines_refl _) fun _ => ?_
      refine Outcome.refines_bind (Outcome.refines_refl _) fun _ => ?_
      refine Outcome.refines_ite ?_ ?_
      · refine Outcome.refines_bind (ih1 _ _) fun _ => ?_
        refine Outcome.refines_bind (Outcome.refines_refl _) fun _ => ?_
        refine Outcome.refines_bind (Outcome.refines_refl _) fun _ => ?_
        exact ih2 _ _ _ _ _
      · refine Outcome.refines_bind (Outcome.refines_refl _) fun _ => ?_
        refine Outcome.refines_ite ?_ (ih2 _ _ _ _ _)
        refine Outcome.refines_bind (Outcome.refines_refl _) fun _ => ?_
        refine Outcome.refines_bind (Outcome.refines_refl _) fun _ => ?_
        exact ih2 _ _ _ _ _

theorem strong_com_fuel_le (g : List SparseElement) (n : Int) {f1 f2 : Nat} (h : f1 ≤ f2)
    (v : Int) (s : TState) :
    Outcome.refines (strong_com g n f1 v s) (strong_com g n f2 v s) := by
  induction h with
  | refl => exact Outcome.refines_refl _
  | step _ ih => exact Outcome.refines_trans ih ((strong_com_fuel_succ g n _).1 v s)

theorem graph_con_com_loop_fuel_le (g : List SparseElement) (n : Int) {f1 f2 : Nat}
    (h : f1 ≤ f2) : ∀ (k : Nat) (i : Int) (s : TState),
      Outcome.refines (graph_con_com_loop g n f1 k i s) (graph_con_com_loop g n f2 k i s) := by
  intro k
  induction k with
  | zero => intro i s; rw [graph_con_com_loop]; exact Outcome.refines_fuel _
  | succ k ih =>
    intro i s
    rw [graph_con_com_loop, graph_con_com_loop]
    refine Outcome.refines_ite ?_ (Outcome.refines_refl _)
    refine Outcome.refines_bind (Outcome.refines_refl _) fun _ => ?_
    refine Outcome.refines_bind (Outcome.refines_refl _) fun _ => ?_
    refine Outcome.refines_ite ?_ (ih _ _)
    exact Outcome.refines_bind (strong_com_fuel_le g n h _ _) fun _ => ih _ _

theorem graph_con_com_run_fuel_le {f1 f2 : Nat} (h : f1 ≤ f2) (n : Nat)
    (g : List SparseElement) :
    Outcome.refines (graph_con_com_run f1 n g) (graph_con_com_run f2 n g) :=
  graph_con_com_loop_fuel_le g n h _ _ _

theorem graph_con_com_fuel_le {f1 f2 : Nat} (h : f1 ≤ f2) (n : Nat)
    (g : List SparseElement) :
    Outcome.refines (graph_con_com f1 n g) (graph_con_com f2 n g) := by
  unfold graph_con_com
  exact Outcome.refines_bind (graph_con_com_run_fuel_le h n g) fun _ => Outcome.refines_refl _

/-! ## Runs on concrete graphs -/

theorem graph_con_com_of_eval {f : Nat} {n : Nat} {g : List SparseElement} {vs : List vertex}
    (h : graph_con_com f n g = Outcome.ok vs) (fuel : Nat) :
    graph_con_com (fuel + f) n g = Outcome.ok vs := by
  have := graph_con_com_fuel_le (Nat.le_add_left f fuel) n g
  rw [h] at this
  exact Outcome.refines_ok this

theorem reach_rank (g : List SparseElement) (rank : Int → Nat)
    (h : ∀ e ∈ g, rank e.getJ < rank e.getI) {u v : Int} (huv : reach g u v) :
    v = u ∨ rank v < rank u := by
  induction huv with
  | refl => exact Or.inl rfl
  | tail _ hbc ih =>
    obtain ⟨e, he, rfl, rfl⟩ := hbc
    have := h e he
    rcases ih with ih | ih
    · rw [← ih]; exact Or.inr this
    · exact Or.inr (lt_trans this ih)

theorem acyclic_of_rank (g : List SparseElement) (rank : Int → Nat)
    (h : ∀ e ∈ g, rank e.getJ < rank e.getI) : acyclic g := by
  have key : ∀ u v, Relation.TransGen (edge g) u v → rank v < rank u := by
    intro u v huv
    induction huv with
    | single hab => obtain ⟨e, he, rfl, rfl⟩ := hab; exact h e he
    | tail _ hbc ih => obtain ⟨e, he, rfl, rfl⟩ := hbc; exact lt_trans (h e he) ih
  intro u hu
  exact lt_irrefl _ (key u u hu)

theorem dag4_rank_decreases : ∀ e ∈ dag4, dag4_rank e.getJ < dag4_rank e.getI := by
  decide

/-- C9: on the two 3-cycles joined by the bridge 2→3, vertices 0,1,2 end with
low_link 0 and vertices 3,4,5 end with low_link 3: exactly two components. -/
theorem graph_con_com_two_cycles (fuel : Nat) :
    ∃ vs, graph_con_com (fuel + 14) 6 two_cycles = Outcome.ok vs ∧
      low_links vs = [0, 0, 0, 3, 3, 3] := by
  have h : graph_con_com 14 6 two_cycles
      = Outcome.ok [⟨0, 0, 0⟩, ⟨1, 1, 0⟩, ⟨2, 2, 0⟩, ⟨3, 3, 3⟩, ⟨4, 4, 3⟩, ⟨5, 5, 3⟩] := by
    decide!
  exact ⟨_, graph_con_com_of_eval h fuel, rfl⟩

/-- C1 at `dag4`: the input is non-empty, sorted and in range, vertices 0 and 3 end
with the same low_link, and there is no directed path from 0 to 3. -/
theorem graph_con_com_dag4_merges (fuel : Nat) :
    dag4 ≠ [] ∧ sorted_by_source dag4 ∧ in_range 4 dag4 ∧
    ∃ vs v0 v3, graph_con_com (fuel + 6) 4 dag4 = Outcome.ok vs ∧
      vs[0]? = some v0 ∧ vs[3]? = some v3 ∧ v0.low_link = v3.low_link ∧
      ¬ reach dag4 0 3 := by
  have h : graph_con_com 6 4 dag4
      = Outcome.ok [⟨0, 0, 0⟩, ⟨1, 1, 1⟩, ⟨2, 3, 3⟩, ⟨3, 2, 0⟩] := by decide!
  refine ⟨by decide, by decide, by decide, _, ⟨0, 0, 0⟩, ⟨3, 2, 0⟩,
    graph_con_com_of_eval h fuel, rfl, rfl, rfl, ?_⟩
  intro hr
  rcases reach_rank dag4 dag4_rank dag4_rank_decreases hr with h1 | h1
  · exact absurd h1 (by decide)
  · exact absurd h1 (by decide)

/-- C4 at `dag4`: the input is an acyclic graph, sorted and in range, and the final
low_link values are not pairwise distinct (vertices 0 and 3 both end with 0). -/
theorem graph_con_com_dag4_not_distinct (fuel : Nat) :
    acyclic dag4 ∧ sorted_by_source dag4 ∧ in_range 4 dag4 ∧
    ∃ vs, graph_con_com (fuel + 6) 4 dag4 = Outcome.ok vs ∧
      low_links vs = [0, 1, 3, 0] ∧ ¬ (low_links vs).Nodup := by
  have h : graph_con_com 6 4 dag4
      = Outcome.ok [⟨0, 0, 0⟩, ⟨1, 1, 1⟩, ⟨2, 3, 3⟩, ⟨3, 2, 0⟩] := by decide!
  exact ⟨acyclic_of_rank dag4 dag4_rank dag4_rank_decreases, by decide, by decide,
    _, graph_con_com_of_eval h fuel, rfl, by decide⟩

/-- C4 on its own example: the chain 0→1→2 ends with three distinct low_link values. -/
theorem graph_con_com_chain3 (fuel : Nat) :
    ∃ vs, graph_con_com (fuel + 5) 3 chain3 = Outcome.ok vs ∧ low_links vs = [0, 1, 2] := by
  have h : graph_con_com 5 3 chain3
      = Outcome.ok [⟨0, 0, 0⟩, ⟨1, 1, 1⟩, ⟨2, 2, 2⟩] := by decide!
  exact ⟨_, graph_con_com_of_eval h fuel, rfl⟩

/-- C6 at `dag4`: the input is non-empty, sorted and in range, vertex 3 is alone in its strongly connected component and has
index 2, yet it ends with low_link 0, the index of vertex 0. -/
theorem graph_con_com_dag4_low_link (fuel : Nat) :
    dag4 ≠ [] ∧ sorted_by_source dag4 ∧ in_range 4 dag4 ∧
    (∀ w, reach dag4 3 w → reach dag4 w 3 → w = 3) ∧
    ∃ vs v3, graph_con_com (fuel + 6) 4 dag4 = Outcome.ok vs ∧ vs[3]? = some v3 ∧
      v3.index = 2 ∧ v3.low_link = 0 := by
  have h : graph_con_com 6 4 dag4
      = Outcome.ok [⟨0, 0, 0⟩, ⟨1, 1, 1⟩, ⟨2, 3, 3⟩, ⟨3, 2, 0⟩] := by decide!
  refine ⟨by decide, by decide, by decide, ?_, _, ⟨3, 2, 0⟩,
    graph_con_com_of_eval h fuel, rfl, rfl, rfl⟩
  intro w h1 h2
  rcases reach_rank dag4 dag4_rank dag4_rank_decreases h1 with h3 | h3
  · exact h3
  · rcases reach_rank dag4 dag4_rank dag4_rank_decreases h2 with h4 | h4
    · exact h4.symm
    · exact absurd h3 (by omega)

/-! ## The empty edge list -/

theorem binary_search_index_nil (q : Int) :
    binary_search_index [] q = Outcome.undefined := by
  simp [binary_search_index, bsi_search, bsi_rewind, vec_at, Outcome.ofOption]

theorem graph_con_com_init_at {n : Nat} {p : Nat} (h : p < n) :
    (graph_con_com_init n)[p]? = some (vertex.new (p : Int) (-1)) := by
  rw [graph_con_com_init, List.getElem?_map, List.getElem?_range h]
  rfl

theorem graph_con_com_init_length (n : Nat) : (graph_con_com_init n).length = n := by
  rw [graph_con_com_init, List.length_map, List.length_range]

/-- C7: with at least one vertex and an empty edge list the first call of
binary_search_index reads `sparse_graph[0]` of an empty vector, and the run is
undefined instead of yielding singleton components. -/
theorem graph_con_com_no_edges (fuel n : Nat) :
    graph_con_com (fuel + 1) (n + 1) [] = Outcome.undefined := by
  have h0 : (graph_con_com_init (n + 1))[0]? = some (vertex.new (0 : Nat) (-1)) :=
    graph_con_com_init_at (Nat.succ_pos n)
  simp [graph_con_com, graph_con_com_run, graph_con_com_loop, ptr_at, deref, h0,
    graph_con_com_init_length, Outcome.ofOption, vertex.get_low_link, vertex.new,
    strong_com, binary_search_index_nil]

/-! ## strong_com on a vertex without outgoing edges -/

theorem ptr_at_eq_ok {vs : List vertex} {k : Int} {p : Nat} :
    ptr_at vs k = Outcome.ok p ↔ 0 ≤ k ∧ p < vs.length ∧ p = k.toNat := by
  unfold ptr_at
  by_cases h : 0 ≤ k ∧ k.toNat < vs.length
  · rw [if_pos h]
    constructor
    · intro hp; cases hp; exact ⟨h.1, h.2, rfl⟩
    · rintro ⟨_, _, rfl⟩; rfl
  · rw [if_neg h]
    constructor
    · intro hp; cases hp
    · rintro ⟨h0, h1, rfl⟩; exact absurd ⟨h0, h1⟩ h

theorem deref_eq_ok {vs : List vertex} {p : Nat} {v : vertex} :
    deref vs p = Outcome.ok v ↔ vs[p]? = some v := by
  unfold deref
  cases h : vs[p]? with
  | none => simp [Outcome.ofOption]
  | some b => simp [Outcome.ofOption]

theorem deref_store_same {vs : List vertex} {p : Nat} (v : vertex) (h : p < vs.length) :
    (store vs p v)[p]? = some v := by
  simp [store, List.getElem?_set, h]

/-- C10 as the code has it: a call of strong_com on a vertex whose edge lookup
returns -1 sets index and low_link to the counter at entry, increments the counter
and leaves the stack exactly as it was: the vertex is not pushed. -/
theorem strong_com_sink (g : List SparseElement) (n : Int) (fuel : Nat) (v : Int)
    (s : TState) (p : Nat) (old : vertex)
    (hb : binary_search_index g v = Outcome.ok (-1))
    (hp : ptr_at s.vertices v = Outcome.ok p) (hold : s.vertices[p]? = some old)
    (_hun : old.index = -1) :
    ∃ s2 w, strong_com g n (fuel + 1) v s = Outcome.ok s2 ∧
      s2.vertices[p]? = some w ∧ w.index = s.index ∧ w.low_link = s.index ∧
      s2.index = s.index + 1 ∧ s2.st = s.st := by
  have hlt : p < s.vertices.length := (ptr_at_eq_ok.1 hp).2.1
  refine ⟨{ s with vertices := store s.vertices p ((old.set_index s.index).set_low_link s.index),
                   index := s.index + 1 },
    (old.set_index s.index).set_low_link s.index, ?_, deref_store_same _ hlt, rfl, rfl, rfl, rfl⟩
  rw [strong_com]
  simp [hb, hp, deref_eq_ok.2 hold]

/-- Witness for C10 as the code has it: the call on vertex 1 in `sink_call_state`. -/
theorem strong_com_sink_witness :
    ∃ s2 w, strong_com [⟨0, 1⟩] 2 (0 + 1) 1 sink_call_state = Outcome.ok s2 ∧
      s2.vertices[1]? = some w ∧ w.index = sink_call_state.index ∧
      w.low_link = sink_call_state.index ∧
      s2.index = sink_call_state.index + 1 ∧ s2.st = sink_call_state.st :=
  strong_com_sink [⟨0, 1⟩] 2 0 1 sink_call_state 1 ⟨1, -1, -1⟩ (by decide) (by decide)
    (by decide) (by decide)

/-- C10 as stated fails: vertex 1 has no outgoing edges in the graph 0→1 and is
unvisited in `sink_call_state`, and after strong_com on it the stack is still `[0]`:
vertex 1 is not on the stack. -/
theorem strong_com_sink_not_pushed :
    binary_search_index [⟨0, 1⟩] 1 = Outcome.ok (-1) ∧
    sink_call_state.vertices[1]? = some ⟨1, -1, -1⟩ ∧
    ∃ s2, strong_com [⟨0, 1⟩] 2 1 1 sink_call_state = Outcome.ok s2 ∧
      s2.index = 2 ∧ s2.vertices[1]? = some ⟨1, 1, 1⟩ ∧ (1 : Nat) ∉ s2.st := by
  refine ⟨by decide, by decide, ⟨2, [⟨0, 0, 0⟩, ⟨1, 1, 1⟩], [0]⟩, by decide!, rfl, rfl, by decide⟩

/-! ## Invariant toolkit -/

theorem min_nonneg {a b : Int} (ha : 0 ≤ a) (hb : 0 ≤ b) : 0 ≤ min a b := by
  unfold min; split <;> assumption

theorem min_le_left (a b : Int) : min a b ≤ a := by
  unfold min; split <;> omega

theorem min_le_right (a b : Int) : min a b ≤ b := by
  unfold min; split <;> omega

theorem store_length (vs : List vertex) (p : Nat) (v : vertex) :
    (store vs p v).length = vs.length := by
  simp [store]

theorem store_at (vs : List vertex) (p q : Nat) (v : vertex) :
    (store vs p v)[q]? = if p = q then (if p < vs.length then some v else none) else vs[q]? := by
  simp [store, List.getElem?_set]

theorem store_at_ne (vs : List vertex) {p q : Nat} (v : vertex) (h : p ≠ q) :
    (store vs p v)[q]? = vs[q]? := by
  rw [store_at, if_neg h]

theorem lt_length_of_at {vs : List vertex} {p : Nat} {v : vertex} (h : vs[p]? = some v) :
    p < vs.length := (List.getElem?_eq_some_iff.1 h).1

theorem evolves_refl (vs : List vertex) : evolves vs vs :=
  ⟨rfl, fun _ v h _ => ⟨v, h, rfl⟩⟩

theorem evolves_trans {a b c : List vertex} (h1 : evolves a b) (h2 : evolves b c) :
    evolves a c := by
  refine ⟨h2.1.trans h1.1, ?_⟩
  intro p v hv hvis
  obtain ⟨w, hw, hwi⟩ := h1.2 p v hv hvis
  obtain ⟨x, hx, hxi⟩ := h2.2 p w hw (by rw [hwi]; exact hvis)
  exact ⟨x, hx, hxi.trans hwi⟩

theorem evolves_store {vs : List vertex} {p : Nat} {c c2 : vertex} (hc : vs[p]? = some c)
    (hi : c.index ≠ -1 → c2.index = c.index) : evolves vs (store vs p c2) := by
  refine ⟨store_length _ _ _, ?_⟩
  intro q v hv hvis
  by_cases hpq : p = q
  · subst hpq
    rw [hc] at hv; cases hv
    exact ⟨c2, deref_store_same _ (lt_length_of_at hc), hi hvis⟩
  · exact ⟨v, by rw [store_at_ne _ _ hpq]; exact hv, rfl⟩

theorem visited_at_of_evolves {vs vs2 : List vertex} (h : evolves vs vs2) {p : Nat}
    (hp : visited_at vs p) : visited_at vs2 p := by
  obtain ⟨v, hv, hvis⟩ := hp
  obtain ⟨w, hw, hwi⟩ := h.2 p v hv hvis
  exact ⟨w, hw, by rw [hwi]; exact hvis⟩

theorem wf_vertices_store {n : Nat} {vs : List vertex} (h : wf_vertices n vs) {p : Nat}
    {c c2 : vertex} (hc : vs[p]? = some c) (hname : c2.vertex_name = c.vertex_name)
    (hmark : (c2.index = -1 ∧ c2.low_link = -1) ∨ (0 ≤ c2.index ∧ 0 ≤ c2.low_link)) :
    wf_vertices n (store vs p c2) := by
  refine ⟨by rw [store_length]; exact h.len, ?_, ?_⟩
  · intro q v hv
    by_cases hpq : p = q
    · subst hpq
      rw [deref_store_same _ (lt_length_of_at hc)] at hv; cases hv
      rw [hname]; exact h.names p c hc
    · rw [store_at_ne _ _ hpq] at hv; exact h.names q v hv
  · intro q v hv
    by_cases hpq : p = q
    · subst hpq
      rw [deref_store_same _ (lt_length_of_at hc)] at hv; cases hv
      exact hmark
    · rw [store_at_ne _ _ hpq] at hv; exact h.marks q v hv

theorem visited_nonneg {n : Nat} {vs : List vertex} (h : wf_vertices n vs) {p : Nat}
    {v : vertex} (hv : vs[p]? = some v) (hvis : v.index ≠ -1) :
    0 ≤ v.index ∧ 0 ≤ v.low_link := by
  rcases h.marks p v hv with h1 | h1
  · exact absurd h1.1 hvis
  · exact h1

/-- Overwriting the low_link of a visited vertex with a non-negative value keeps the
vertex array well shaped and is a later stage of it. -/
theorem wf_vertices_set_low_link {n : Nat} {vs : List vertex} (h : wf_vertices n vs)
    {p : Nat} {c : vertex} (hc : vs[p]? = some c) (hvis : c.index ≠ -1) {x : Int}
    (hx : 0 ≤ x) :
    wf_vertices n (store vs p (c.set_low_link x)) ∧
      evolves vs (store vs p (c.set_low_link x)) :=
  ⟨wf_vertices_store h hc rfl (Or.inr ⟨(visited_nonneg h hc hvis).1, hx⟩),
   evolves_store hc (fun _ => rfl)⟩

theorem countP_le_of_pointwise {α : Type} (f : α → Bool) :
    ∀ (l1 l2 : List α), l1.length = l2.length →
      (∀ (p : Nat) a b, l1[p]? = some a → l2[p]? = some b → f b = true → f a = true) →
      l2.countP f ≤ l1.countP f := by
  intro l1
  induction l1 with
  | nil =>
    intro l2 hl _
    cases l2 with
    | nil => exact le_refl _
    | cons _ _ => cases hl
  | cons a l1 ih =>
    intro l2 hl h
    cases l2 with
    | nil => cases hl
    | cons b l2 =>
      have htail := ih l2 (by simpa using hl) (fun p x y hx hy => h (p + 1) x y (by simpa using hx) (by simpa using hy))
      have hhead := h 0 a b (by simp) (by simp)
      rw [List.countP_cons, List.countP_cons]
      by_cases hb : f b = true
      · rw [if_pos hb, if_pos (hhead hb)]; omega
      · rw [if_neg hb]; split <;> omega

theorem countP_set_drop {α : Type} (f : α → Bool) :
    ∀ (l : List α) (p : Nat) (a b : α), l[p]? = some a → f a = true → f b = false →
      (l.set p b).countP f + 1 = l.countP f := by
  intro l
  induction l with
  | nil => intro p a b h; simp at h
  | cons x l ih =>
    intro p a b h ha hb
    cases p with
    | zero =>
      simp at h; subst h
      rw [List.set_cons_zero, List.countP_cons, List.countP_cons, if_pos ha]
      simp [hb]
    | succ p =>
      rw [List.set_cons_succ, List.countP_cons, List.countP_cons]
      have := ih p a b (by simpa using h) ha hb
      omega

theorem unvisited_le_of_evolves {vs vs2 : List vertex} (h : evolves vs vs2) :
    unvisited vs2 ≤ unvisited vs := by
  unfold unvisited
  apply countP_le_of_pointwise _ vs vs2 h.1.symm
  intro p a b ha hb hfb
  by_contra hfa
  have hvis : a.index ≠ -1 := by simpa using hfa
  obtain ⟨w, hw, hwi⟩ := h.2 p a ha hvis
  rw [hb] at hw; cases hw
  have : b.index = -1 := by simpa using hfb
  exact hvis (by rw [← hwi]; exact this)

theorem unvisited_store_mark {vs : List vertex} {p : Nat} {c c2 : vertex}
    (hc : vs[p]? = some c) (hun : c.index = -1) (hvis : c2.index ≠ -1) :
    unvisited (store vs p c2) + 1 = unvisited vs := by
  unfold unvisited store
  exact countP_set_drop _ vs p c c2 hc (by simpa using hun) (by simpa using hvis)

theorem unvisited_le_length (vs : List vertex) : unvisited vs ≤ vs.length :=
  List.countP_le_length _

/-! ## contains and the closing loop -/

theorem vertex_eq_iff (a b : vertex) : vertex.eq a b = true ↔ a.vertex_name = b.vertex_name := by
  simp [vertex.eq]

theorem vertex_ne_iff (a b : vertex) : vertex.ne a b = true ↔ a.vertex_name ≠ b.vertex_name := by
  simp [vertex.ne, vertex.eq]

theorem contains_scan_spec (vs : List vertex) (w : vertex) :
    ∀ (s other : List Nat), (∀ p ∈ s, ∃ v, vs[p]? = some v) →
      ∃ found s1 o1, contains_scan vs w s other = Outcome.ok (found, s1, o1) ∧
        contains_restore o1 s1 = contains_restore other s ∧
        ((found = 1 ∧ ∃ p ∈ s, ∃ v, vs[p]? = some v ∧ vertex.eq v w = true) ∨
         (found = 0 ∧ ∀ p ∈ s, ∀ v, vs[p]? = some v → vertex.eq v w = false)) := by
  intro s
  induction s with
  | nil =>
    intro other _
    exact ⟨0, [], other, rfl, rfl, Or.inr ⟨rfl, fun p hp => by cases hp⟩⟩
  | cons current rest ih =>
    intro other hvalid
    obtain ⟨c, hc⟩ := hvalid current (List.mem_cons_self _ _)
    rw [contains_scan, deref_eq_ok.2 hc]
    simp only [Outcome.ok_bind]
    by_cases heq : vertex.eq c w = true
    · rw [if_pos heq]
      exact ⟨1, current :: rest, other, rfl, rfl,
        Or.inl ⟨rfl, current, List.mem_cons_self _ _, c, hc, heq⟩⟩
    · rw [if_neg heq]
      obtain ⟨found, s1, o1, h1, h2, h3⟩ :=
        ih (current :: other) (fun p hp => hvalid p (List.mem_cons_of_mem _ hp))
      refine ⟨found, s1, o1, h1, by rw [h2]; rfl, ?_⟩
      rcases h3 with ⟨hf, p, hp, v, hv, hvw⟩ | ⟨hf, hall⟩
      · exact Or.inl ⟨hf, p, List.mem_cons_of_mem _ hp, v, hv, hvw⟩
      · refine Or.inr ⟨hf, ?_⟩
        intro p hp v hv
        rcases List.mem_cons.1 hp with rfl | hp
        · rw [hc] at hv; cases hv; simpa using heq
        · exact hall p hp v hv

/-- The call `contains(s, w)` on a stack of valid pointers returns 1 when some
element of the stack equals `w` and 0 otherwise, and leaves the stack as it was. -/
theorem contains_spec (vs : List vertex) (w : vertex) (s : List Nat)
    (hvalid : ∀ p ∈ s, ∃ v, vs[p]? = some v) :
    ∃ found, contains vs s w = Outcome.ok (found, s) ∧
      ((found = 1 ∧ ∃ p ∈ s, ∃ v, vs[p]? = some v ∧ vertex.eq v w = true) ∨
       (found = 0 ∧ ∀ p ∈ s, ∀ v, vs[p]? = some v → vertex.eq v w = false)) := by
  obtain ⟨found, s1, o1, h1, h2, h3⟩ := contains_scan_spec vs w s [] hvalid
  refine ⟨found, ?_, h3⟩
  unfold contains
  rw [h1]
  simp only [Outcome.ok_bind, Outcome.pure_def]
  rw [h2]
  rfl

theorem suffix_of_cons_suffix {α : Type} {a : α} {l1 l2 : List α}
    (h : (a :: l1) <:+ l2) : l1 <:+ l2 :=
  (List.suffix_cons a l1).trans h

theorem strong_com_unwind_spec (n : Nat) (curr : Nat) :
    ∀ (rest : List Nat) (hold : Nat) (vs : List vertex), wf_vertices n vs →
      visited_at vs curr → visited_at vs hold → (∀ p ∈ rest, visited_at vs p) →
      ∃ vs2 st2, strong_com_unwind curr hold rest vs = Outcome.ok (vs2, st2) ∧
        wf_vertices n vs2 ∧ evolves vs vs2 ∧ st2 <:+ rest ∧
        ∀ tail, (curr :: tail) <:+ (hold :: rest) → tail <:+ st2 := by
  intro rest
  induction rest with
  | nil =>
    intro hold vs hwf hcurr hhold _
    obtain ⟨c, hc, _⟩ := hcurr
    obtain ⟨h, hh, _⟩ := hhold
    refine ⟨vs, [], ?_, hwf, evolves_refl vs, List.suffix_refl _, ?_⟩
    · rw [strong_com_unwind, deref_eq_ok.2 hh, deref_eq_ok.2 hc]; rfl
    · intro tail ht
      have hlen := ht.length_le
      simp at hlen
      subst hlen
      exact List.suffix_refl _
  | cons top rest ih =>
    intro hold vs hwf hcurr hhold hrest
    obtain ⟨c, hc, hcvis⟩ := hcurr
    obtain ⟨h, hh, hhvis⟩ := hhold
    have hcn := hwf.names curr c hc
    have hhn := hwf.names hold h hh
    rw [strong_com_unwind, deref_eq_ok.2 hh, deref_eq_ok.2 hc]
    simp only [Outcome.ok_bind]
    by_cases hne : vertex.ne h c = true
    · rw [if_pos hne]
      have hhc : hold ≠ curr := by
        intro heq
        rw [heq, hc] at hh
        have hch : c = h := Option.some.inj hh
        rw [hch] at hne
        exact ((vertex_ne_iff h h).1 hne) rfl
      have hptr : ptr_at vs h.get_vertex_name = Outcome.ok hold := by
        apply ptr_at_eq_ok.2
        have : h.get_vertex_name = (hold : Int) := hhn
        rw [this]
        exact ⟨by omega, lt_length_of_at hh, by simp⟩
      rw [hptr]
      simp only [Outcome.ok_bind]
      rw [deref_eq_ok.2 hh]
      simp only [Outcome.ok_bind]
      obtain ⟨hwf2, hev2⟩ :=
        wf_vertices_set_low_link hwf hh hhvis (x := c.get_low_link)
          (visited_nonneg hwf hc hcvis).2
      obtain ⟨vs3, st3, h1, h2, h3, h4, h5⟩ :=
        ih top (store vs hold (h.set_low_link c.get_low_link)) hwf2
          (visited_at_of_evolves hev2 ⟨c, hc, hcvis⟩)
          (visited_at_of_evolves hev2 (hrest top (List.mem_cons_self _ _)))
          (fun p hp => visited_at_of_evolves hev2 (hrest p (List.mem_cons_of_mem _ hp)))
      refine ⟨vs3, st3, h1, h2, evolves_trans hev2 h3,
        h4.trans (List.suffix_cons top rest), ?_⟩
      intro tail ht
      rcases List.suffix_cons_iff.1 ht with heq | hsuf
      · cases heq; exact absurd rfl hhc
      · exact h5 tail hsuf
    · rw [if_neg hne]
      have hhc : hold = curr := by
        have : ¬ (h.vertex_name ≠ c.vertex_name) := fun hx => hne ((vertex_ne_iff h c).2 hx)
        have h2 : h.vertex_name = c.vertex_name := not_not.1 this
        rw [hcn, hhn] at h2
        exact_mod_cast h2
      refine ⟨vs, top :: rest, rfl, hwf, evolves_refl vs, List.suffix_refl _, ?_⟩
      intro tail ht
      rcases List.suffix_cons_iff.1 ht with heq | hsuf
      · cases heq; exact List.suffix_refl _
      · exact suffix_of_cons_suffix hsuf

/-! ## strong_com returns, and keeps the state well shaped -/

theorem wf_state_mark {n : Nat} {s : TState} (h : wf_state n s) {p : Nat} {old : vertex}
    (hold : s.vertices[p]? = some old) (hun : old.index = -1) :
    wf_state n { s with
        vertices := store s.vertices p ((old.set_index s.index).set_low_link s.index),
        index := s.index + 1 } ∧
      evolves s.vertices (store s.vertices p ((old.set_index s.index).set_low_link s.index)) ∧
      unvisited (store s.vertices p ((old.set_index s.index).set_low_link s.index)) + 1
        = unvisited s.vertices ∧
      visited_at (store s.vertices p ((old.set_index s.index).set_low_link s.index)) p := by
  have hc := h.counter
  have hvis : ((old.set_index s.index).set_low_link s.index).index ≠ -1 := by
    show s.index ≠ -1
    omega
  have hev : evolves s.vertices
      (store s.vertices p ((old.set_index s.index).set_low_link s.index)) :=
    evolves_store hold (fun hx => absurd hun hx)
  refine ⟨⟨?_, ?_, ?_⟩, hev, unvisited_store_mark hold hun hvis,
    ⟨_, deref_store_same _ (lt_length_of_at hold), hvis⟩⟩
  · exact wf_vertices_store h.vertices hold rfl (Or.inr ⟨hc, hc⟩)
  · intro q hq
    exact visited_at_of_evolves hev (h.stack q hq)
  · show 0 ≤ s.index + 1
    omega

theorem wf_state_push {n : Nat} {s : TState} (h : wf_state n s) {p : Nat}
    (hp : visited_at s.vertices p) : wf_state n { s with st := p :: s.st } := by
  refine ⟨h.vertices, ?_, h.counter⟩
  intro q hq
  rcases List.mem_cons.1 hq with rfl | hq
  · exact hp
  · exact h.stack q hq

theorem wf_state_set_low_link {n : Nat} {s : TState} (h : wf_state n s) {p : Nat}
    {c : vertex} (hc : s.vertices[p]? = some c) (hvis : c.index ≠ -1) {x : Int}
    (hx : 0 ≤ x) :
    wf_state n { s with vertices := store s.vertices p (c.set_low_link x) } ∧
      evolves s.vertices (store s.vertices p (c.set_low_link x)) := by
  obtain ⟨h1, h2⟩ := wf_vertices_set_low_link h.vertices hc hvis hx
  exact ⟨⟨h1, fun q hq => visited_at_of_evolves h2 (h.stack q hq), h.counter⟩, h2⟩

theorem unvisited_pos {vs : List vertex} {p : Nat} {c : vertex} (hc : vs[p]? = some c)
    (hun : c.index = -1) : 0 < unvisited vs := by
  have := @unvisited_store_mark vs p c (c.set_index 0) hc hun (by show (0 : Int) ≠ -1; omega)
  omega

theorem strong_com_close_spec {n : Nat} {s : TState} (h : wf_state n s) {curr : Nat}
    (hcurr : visited_at s.vertices curr) {st0 : List Nat} (hst : (curr :: st0) <:+ s.st) :
    ∃ s2, strong_com_close curr s = Outcome.ok s2 ∧ wf_state n s2 ∧
      evolves s.vertices s2.vertices ∧ st0 <:+ s2.st := by
  obtain ⟨c, hc, hcvis⟩ := hcurr
  unfold strong_com_close
  rw [deref_eq_ok.2 hc]
  simp only [Outcome.ok_bind]
  by_cases hroot : c.get_low_link = c.get_index
  · rw [if_pos hroot]
    cases hs : s.st with
    | nil =>
      rw [hs] at hst
      have := hst.length_le
      simp at this
    | cons hold rest =>
      have hmem : ∀ q ∈ hold :: rest, visited_at s.vertices q := by
        intro q hq; rw [← hs] at hq; exact h.stack q hq
      obtain ⟨vs2, st2, h1, h2, h3, h4, h5⟩ :=
        strong_com_unwind_spec n curr rest hold s.vertices h.vertices ⟨c, hc, hcvis⟩
          (hmem hold (List.mem_cons_self _ _))
          (fun q hq => hmem q (List.mem_cons_of_mem _ hq))
      simp only [h1, Outcome.ok_bind, Outcome.pure_def]
      refine ⟨_, rfl, ⟨h2, ?_, h.counter⟩, h3, h5 st0 (by rw [← hs]; exact hst)⟩
      intro q hq
      exact visited_at_of_evolves h3 (hmem q (List.mem_cons_of_mem _ (h4.subset hq)))
  · rw [if_neg hroot]
    exact ⟨s, rfl, h, evolves_refl _, suffix_of_cons_suffix hst⟩

theorem strong_com_total (g : List SparseElement) (n : Nat) (N : Int) (hne : g ≠ [])
    (hr : ∀ e ∈ g, 0 ≤ e.getJ ∧ e.getJ < (n : Int)) (fuel : Nat) :
    (∀ (v : Int) (s : TState) (p : Nat) (old : vertex), wf_state n s →
      ptr_at s.vertices v = Outcome.ok p → s.vertices[p]? = some old → old.index = -1 →
      unvisited s.vertices * (g.length + 2) ≤ fuel →
      ∃ s2, strong_com g N fuel v s = Outcome.ok s2 ∧ wf_state n s2 ∧
        evolves s.vertices s2.vertices ∧ s.st <:+ s2.st ∧
        unvisited s2.vertices < unvisited s.vertices ∧ visited_at s2.vertices p) ∧
    (∀ (v : Int) (curr : Nat) (idx : Int) (sv : SparseElement) (s : TState), wf_state n s →
      0 ≤ idx → visited_at s.vertices curr →
      unvisited s.vertices * (g.length + 2) + ((g.length : Int) - idx).toNat < fuel →
      ∃ s2, strong_com_loop g N fuel v curr idx sv s = Outcome.ok s2 ∧ wf_state n s2 ∧
        evolves s.vertices s2.vertices ∧ s.st <:+ s2.st) := by
  induction fuel with
  | zero =>
    constructor
    · intro v s p old _ _ hold hun hf
      have := unvisited_pos hold hun
      have h2 : unvisited s.vertices * (g.length + 2) = 0 := by omega
      rcases Nat.mul_eq_zero.1 h2 with h3 | h3 <;> omega
    · intro v curr idx sv s _ _ _ hf
      omega
  | succ fuel ih =>
    obtain ⟨ihS, ihL⟩ := ih
    constructor
    · intro v s p old hwf hp hold hun hf
      obtain ⟨r, hbsi, hcase⟩ := binary_search_index_spec g v hne
      obtain ⟨hwf1, hev1, hcount1, hvis1⟩ := wf_state_mark hwf hold hun
      rw [strong_com, hbsi]
      simp only [Outcome.ok_bind, hp, deref_eq_ok.2 hold, Outcome.pure_def]
      by_cases hc : r < (g.length : Int) ∧ r > -1
      · rw [if_pos hc]
        obtain ⟨e, he⟩ := vec_at_of_lt g (by omega : 0 ≤ r) hc.1
        rw [he]
        simp only [Outcome.ok_bind]
        have hwf2 := wf_state_push hwf1 hvis1
        have hfuel : unvisited (store s.vertices p ((old.set_index s.index).set_low_link s.index))
            * (g.length + 2) + ((g.length : Int) - r).toNat < fuel := by
          have h1 : unvisited s.vertices * (g.length + 2)
              = unvisited (store s.vertices p ((old.set_index s.index).set_low_link s.index))
                * (g.length + 2) + (g.length + 2) := by
            rw [← hcount1, Nat.add_mul, Nat.one_mul]
          omega
        obtain ⟨s3, h3, hwf3, hev3, hst3⟩ := ihL v p r e _ hwf2 (by omega) hvis1 hfuel
        rw [h3]
        simp only [Outcome.ok_bind]
        obtain ⟨s4, h4, hwf4, hev4, hst4⟩ :=
          strong_com_close_spec hwf3 (visited_at_of_evolves hev3 hvis1) hst3
        have hev : evolves s.vertices s4.vertices :=
          evolves_trans hev1 (evolves_trans hev3 hev4)
        refine ⟨s4, h4, hwf4, hev, hst4, ?_, ?_⟩
        · have := unvisited_le_of_evolves (evolves_trans hev3 hev4)
          have h5 : unvisited s4.vertices
              ≤ unvisited (store s.vertices p ((old.set_index s.index).set_low_link s.index)) :=
            this
          omega
        · exact visited_at_of_evolves (evolves_trans hev3 hev4) hvis1
      · rw [if_neg hc]
        refine ⟨_, rfl, hwf1, hev1, List.suffix_refl _, ?_, hvis1⟩
        show unvisited (store s.vertices p ((old.set_index s.index).set_low_link s.index))
          < unvisited s.vertices
        omega
    · intro v curr idx sv s hwf hidx hcurr hf
      rw [strong_com_loop]
      by_cases hc : idx < (g.length : Int) ∧ sv.getI = v
      · rw [if_pos hc]
        obtain ⟨e, he⟩ := vec_at_of_lt g hidx hc.1
        obtain ⟨hj0, hj1⟩ := hr e (mem_of_vec_at he)
        have hlen := hwf.vertices.len
        have hjlt : e.getJ.toNat < s.vertices.length := by omega
        have hptr : ptr_at s.vertices e.getJ = Outcome.ok e.getJ.toNat :=
          ptr_at_eq_ok.2 ⟨hj0, hjlt, rfl⟩
        obtain ⟨o, ho⟩ : ∃ o, s.vertices[e.getJ.toNat]? = some o :=
          ⟨_, List.getElem?_eq_getElem hjlt⟩
        rw [he]
        simp only [Outcome.ok_bind, hptr, deref_eq_ok.2 ho]
        have hiter : ((g.length : Int) - (idx + 1)).toNat + 1 = ((g.length : Int) - idx).toNat := by
          omega
        by_cases hunv : o.get_index = -1
        · rw [if_pos hunv]
          obtain ⟨s1, h1, hwf1, hev1, hst1, hcount1, hvis1⟩ :=
            ihS e.getJ s e.getJ.toNat o hwf hptr ho hunv (by omega)
          rw [h1]
          simp only [Outcome.ok_bind]
          obtain ⟨c1, hc1, hc1vis⟩ := visited_at_of_evolves hev1 hcurr
          obtain ⟨o1, ho1, ho1vis⟩ := hvis1
          rw [deref_eq_ok.2 hc1, deref_eq_ok.2 ho1]
          simp only [Outcome.ok_bind]
          obtain ⟨hwf2, hev2⟩ := wf_state_set_low_link hwf1 hc1 hc1vis
            (x := min c1.get_low_link o1.get_low_link)
            (min_nonneg (visited_nonneg hwf1.vertices hc1 hc1vis).2
              (visited_nonneg hwf1.vertices ho1 ho1vis).2)
          have hmul : unvisited (store s1.vertices curr
              (c1.set_low_link (min c1.get_low_link o1.get_low_link))) * (g.length + 2)
              ≤ unvisited s.vertices * (g.length + 2) :=
            Nat.mul_le_mul_right _
              ((unvisited_le_of_evolves hev2).trans (le_of_lt hcount1))
          obtain ⟨s3, h3, hwf3, hev3, hst3⟩ :=
            ihL v curr (idx + 1) e _ hwf2 (by omega) (visited_at_of_evolves hev2 ⟨c1, hc1, hc1vis⟩)
              (by
                show unvisited (store s1.vertices curr
                  (c1.set_low_link (min c1.get_low_link o1.get_low_link))) * (g.length + 2)
                  + ((g.length : Int) - (idx + 1)).toNat < fuel
                omega)
          exact ⟨s3, h3, hwf3, evolves_trans hev1 (evolves_trans hev2 hev3), hst1.trans hst3⟩
        · rw [if_neg hunv]
          obtain ⟨found, hcont, hfound⟩ := contains_spec s.vertices o s.st
            (fun q hq => by obtain ⟨x, hx, _⟩ := hwf.stack q hq; exact ⟨x, hx⟩)
          rw [hcont]
          simp only [Outcome.ok_bind]
          by_cases hf1 : found = 1
          · rw [if_pos hf1]
            obtain ⟨c, hcc, hcvis⟩ := hcurr
            rw [deref_eq_ok.2 hcc]
            simp only [Outcome.ok_bind]
            obtain ⟨hwf2, hev2⟩ := wf_state_set_low_link hwf hcc hcvis
              (x := min c.get_low_link o.get_index)
              (min_nonneg (visited_nonneg hwf.vertices hcc hcvis).2
                (visited_nonneg hwf.vertices ho hunv).1)
            have hmul : unvisited (store s.vertices curr
                (c.set_low_link (min c.get_low_link o.get_index))) * (g.length + 2)
                ≤ unvisited s.vertices * (g.length + 2) :=
              Nat.mul_le_mul_right _ (unvisited_le_of_evolves hev2)
            obtain ⟨s3, h3, hwf3, hev3, hst3⟩ :=
              ihL v curr (idx + 1) e _ hwf2 (by omega)
                (visited_at_of_evolves hev2 ⟨c, hcc, hcvis⟩)
                (by
                  show unvisited (store s.vertices curr
                    (c.set_low_link (min c.get_low_link o.get_index))) * (g.length + 2)
                    + ((g.length : Int) - (idx + 1)).toNat < fuel
                  omega)
            exact ⟨s3, h3, hwf3, evolves_trans hev2 hev3, hst3⟩
          · rw [if_neg hf1]
            obtain ⟨s3, h3, hwf3, hev3, hst3⟩ :=
              ihL v curr (idx + 1) e { s with st := s.st } hwf (by omega) hcurr
                (by show unvisited s.vertices * (g.length + 2)
                      + ((g.length : Int) - (idx + 1)).toNat < fuel
                    omega)
            exact ⟨s3, h3, hwf3, hev3, hst3⟩
      · rw [if_neg hc]
        exact ⟨s, rfl, hwf, evolves_refl _, List.suffix_refl _⟩

/-! ## graph_con_com returns and leaves no sentinel -/

theorem wf_state_init (n : Nat) :
    wf_state n { index := 0, vertices := graph_con_com_init n, st := [] } := by
  have hat : ∀ (p : Nat) (v : vertex), (graph_con_com_init n)[p]? = some v →
      v = vertex.new (p : Int) (-1) := by
    intro p v hv
    have hlt : p < n := by
      have := lt_length_of_at hv
      rwa [graph_con_com_init_length] at this
    rw [graph_con_com_init_at hlt] at hv
    exact (Option.some.inj hv).symm
  refine ⟨⟨graph_con_com_init_length n, ?_, ?_⟩, ?_, le_refl _⟩
  · intro p v hv; rw [hat p v hv]; rfl
  · intro p v hv; rw [hat p v hv]; exact Or.inl ⟨rfl, rfl⟩
  · intro p hp; cases hp

theorem graph_con_com_loop_total (g : List SparseElement) (n : Nat) (hne : g ≠ [])
    (hr : ∀ e ∈ g, 0 ≤ e.getJ ∧ e.getJ < (n : Int)) (fuel : Nat)
    (hfuel : n * (g.length + 2) ≤ fuel) :
    ∀ (k i : Nat) (s : TState), wf_state n s → n - i < k →
      (∀ p, p < i → visited_at s.vertices p) →
      ∃ s2, graph_con_com_loop g (n : Int) fuel k (i : Int) s = Outcome.ok s2 ∧
        wf_state n s2 ∧ ∀ p, p < n → visited_at s2.vertices p := by
  intro k
  induction k with
  | zero => intro i s _ hk; omega
  | succ k ih =>
    intro i s hwf hk hvis
    rw [graph_con_com_loop]
    by_cases hc : (i : Int) < (n : Int)
    · rw [if_pos hc]
      have hin : i < n := by omega
      have hlen := hwf.vertices.len
      have hptr : ptr_at s.vertices (i : Int) = Outcome.ok i :=
        ptr_at_eq_ok.2 ⟨by omega, by omega, by simp⟩
      obtain ⟨v, hv⟩ : ∃ v, s.vertices[i]? = some v :=
        ⟨_, List.getElem?_eq_getElem (by omega)⟩
      have hcast : (i : Int) + 1 = ((i + 1 : Nat) : Int) := by push_cast; rfl
      simp only [hptr, Outcome.ok_bind, deref_eq_ok.2 hv]
      by_cases hll : v.get_low_link = -1
      · rw [if_pos hll]
        have hun : v.index = -1 := by
          rcases hwf.vertices.marks i v hv with h1 | h1
          · exact h1.1
          · have : v.low_link = -1 := hll
            omega
        have hu : unvisited s.vertices * (g.length + 2) ≤ fuel := by
          have h1 := unvisited_le_length s.vertices
          have h2 : unvisited s.vertices * (g.length + 2) ≤ n * (g.length + 2) :=
            Nat.mul_le_mul_right _ (by omega)
          omega
        obtain ⟨s1, h1, hwf1, hev1, _, _, hvis1⟩ :=
          (strong_com_total g n (n : Int) hne hr fuel).1 (i : Int) s i v hwf hptr hv hun hu
        rw [h1]
        simp only [Outcome.ok_bind]
        rw [hcast]
        refine ih (i + 1) s1 hwf1 (by omega) ?_
        intro p hp
        rcases Nat.lt_succ_iff_lt_or_eq.1 hp with h2 | h2
        · exact visited_at_of_evolves hev1 (hvis p h2)
        · rw [h2]; exact hvis1
      · rw [if_neg hll]
        rw [hcast]
        refine ih (i + 1) s hwf (by omega) ?_
        intro p hp
        rcases Nat.lt_succ_iff_lt_or_eq.1 hp with h2 | h2
        · exact hvis p h2
        · rw [h2]
          refine ⟨v, hv, ?_⟩
          intro hidx
          rcases hwf.vertices.marks i v hv with h1 | h1
          · exact hll h1.2
          · omega
    · rw [if_neg hc]
      exact ⟨s, rfl, hwf, fun p hp => hvis p (by omega)⟩

/-- The run of `graph_con_com` on a non-empty edge list with destinations in range
returns a well-shaped state in which every vertex has been visited. -/
theorem graph_con_com_run_total (g : List SparseElement) (n : Nat) (hne : g ≠ [])
    (hr : ∀ e ∈ g, 0 ≤ e.getJ ∧ e.getJ < (n : Int)) (fuel : Nat)
    (hfuel : n * (g.length + 2) ≤ fuel) :
    ∃ s, graph_con_com_run fuel n g = Outcome.ok s ∧ wf_state n s ∧
      ∀ p, p < n → visited_at s.vertices p := by
  unfold graph_con_com_run
  exact graph_con_com_loop_total g n hne hr fuel hfuel (n + 1) 0 _ (wf_state_init n)
    (by omega) (fun p hp => by omega)

/-- C5: on a non-empty, sorted, in-range edge list graph_con_com returns (given fuel
for the recursion), and every returned vertex has `index != -1` and `low_link != -1`. -/
theorem graph_con_com_no_sentinel (n : Nat) (g : List SparseElement) (hne : g ≠ [])
    (_hs : sorted_by_source g) (hr : in_range n g) (fuel : Nat)
    (hfuel : n * (g.length + 2) ≤ fuel) :
    ∃ vs, graph_con_com fuel n g = Outcome.ok vs ∧ vs.length = n ∧
      ∀ v ∈ vs, v.get_index ≠ -1 ∧ v.get_low_link ≠ -1 := by
  obtain ⟨s, hs, hwf, hvis⟩ :=
    graph_con_com_run_total g n hne (fun e he => (hr e he).2) fuel hfuel
  refine ⟨s.vertices, ?_, hwf.vertices.len, ?_⟩
  · unfold graph_con_com; rw [hs]; rfl
  · intro v hv
    obtain ⟨p, hp, rfl⟩ := List.getElem_of_mem hv
    obtain ⟨w, hw, hwvis⟩ := hvis p (by rw [← hwf.vertices.len]; exact hp)
    rw [List.getElem?_eq_getElem hp] at hw
    cases hw
    have := visited_nonneg hwf.vertices (List.getElem?_eq_getElem hp) hwvis
    refine ⟨hwvis, ?_⟩
    show (s.vertices[p]).low_link ≠ -1
    omega

/-- Witness for C5: the chain 0→1→2 on 3 vertices with fuel 12. -/
theorem graph_con_com_no_sentinel_witness :
    ∃ vs, graph_con_com 12 3 chain3 = Outcome.ok vs ∧ vs.length = 3 ∧
      ∀ v ∈ vs, v.get_index ≠ -1 ∧ v.get_low_link ≠ -1 :=
  graph_con_com_no_sentinel 3 chain3 (by decide) (by decide) (by decide) 12 (by decide)

/-! ## The cycle of length k -/

theorem cycle_graph_length (k : Nat) : (cycle_graph k).length = k := by
  rw [cycle_graph, List.length_map, List.length_range]

theorem cycle_graph_at {k j : Nat} (h : j < k) :
    vec_at (cycle_graph k) (j : Int) = Outcome.ok ⟨(j : Int), (((j + 1) % k : Nat) : Int)⟩ := by
  rw [vec_at_natCast, cycle_graph, List.getElem?_map, List.getElem?_range h]
  rfl

theorem cycle_pre_length (k j : Nat) : (cycle_pre k j).length = k := by
  rw [cycle_pre, List.length_map, List.length_range]

theorem cycle_post_length (k j : Nat) : (cycle_post k j).length = k := by
  rw [cycle_post, List.length_map, List.length_range]

theorem cycle_pre_at {k j i : Nat} (h : i < k) :
    (cycle_pre k j)[i]? = some (if i < j then (⟨(i : Int), (i : Int), (i : Int)⟩ : vertex)
      else ⟨(i : Int), -1, -1⟩) := by
  rw [cycle_pre, List.getElem?_map, List.getElem?_range h]
  rfl

theorem cycle_post_at {k j i : Nat} (h : i < k) :
    (cycle_post k j)[i]? = some (if i < j then (⟨(i : Int), (i : Int), (i : Int)⟩ : vertex)
      else ⟨(i : Int), (i : Int), 0⟩) := by
  rw [cycle_post, List.getElem?_map, List.getElem?_range h]
  rfl

theorem cycle_pre_zero (k : Nat) : cycle_pre k 0 = graph_con_com_init k := by
  unfold cycle_pre graph_con_com_init
  apply List.map_congr_left
  intro i _
  simp [vertex.new]

theorem cycle_pre_full (k : Nat) : cycle_pre k k = cycle_post k k := by
  unfold cycle_pre cycle_post
  apply List.map_congr_left
  intro i hi
  have : i < k := List.mem_range.1 hi
  simp [this]

theorem list_ext_at {α : Type} {l1 l2 : List α} (hlen : l1.length = l2.length)
    (h : ∀ (i : Nat), i < l1.length → l1[i]? = l2[i]?) : l1 = l2 := by
  apply List.ext_getElem? 
  intro i
  by_cases hi : i < l1.length
  · exact h i hi
  · rw [List.getElem?_eq_none (by omega), List.getElem?_eq_none (by omega)]

theorem cycle_pre_store {k j : Nat} (h : j < k) :
    store (cycle_pre k j) j ⟨(j : Int), (j : Int), (j : Int)⟩ = cycle_pre k (j + 1) := by
  apply list_ext_at
  · rw [store_length, cycle_pre_length, cycle_pre_length]
  · intro i hi
    rw [store_length, cycle_pre_length] at hi
    rw [store_at, cycle_pre_at hi, cycle_pre_at hi, cycle_pre_length]
    by_cases hji : j = i
    · subst hji; simp [h]
    · rw [if_neg hji]
      by_cases h1 : i < j
      · rw [if_pos h1, if_pos (by omega)]
      · rw [if_neg h1, if_neg (by omega)]

theorem cycle_post_store {k j : Nat} (h : j < k) :
    store (cycle_post k (j + 1)) j ⟨(j : Int), (j : Int), 0⟩ = cycle_post k j := by
  apply list_ext_at
  · rw [store_length, cycle_post_length, cycle_post_length]
  · intro i hi
    rw [store_length, cycle_post_length] at hi
    rw [store_at, cycle_post_at hi, cycle_post_at hi, cycle_post_length]
    by_cases hji : j = i
    · subst hji; simp [h]
    · rw [if_neg hji]
      by_cases h1 : i < j
      · rw [if_pos h1, if_pos (by omega)]
      · rw [if_neg h1, if_neg (by omega)]

theorem store_same {vs : List vertex} {p : Nat} {v : vertex} (h : vs[p]? = some v) :
    store vs p v = vs := by
  apply list_ext_at (store_length _ _ _)
  intro i _
  rw [store_at]
  by_cases hpi : p = i
  · subst hpi; rw [if_pos rfl, if_pos (lt_length_of_at h), h]
  · rw [if_neg hpi]

theorem ptr_at_natCast {vs : List vertex} {p : Nat} (h : p < vs.length) :
    ptr_at vs (p : Int) = Outcome.ok p :=
  ptr_at_eq_ok.2 ⟨by omega, h, by simp⟩

theorem cycle_graph_sorted (k : Nat) : sorted_by_source (cycle_graph k) := by
  unfold sorted_by_source cycle_graph
  rw [List.pairwise_map]
  refine List.Pairwise.imp ?_ (List.pairwise_lt_range k)
  intro a b hab
  show (a : Int) ≤ (b : Int)
  omega

theorem cycle_graph_bsi {k j : Nat} (h : j < k) :
    binary_search_index (cycle_graph k) (j : Int) = Outcome.ok (j : Int) := by
  have hne : cycle_graph k ≠ [] := by
    intro h0
    have := cycle_graph_length k
    rw [h0] at this
    simp at this
    omega
  obtain ⟨r, hr, hcase⟩ := binary_search_index_spec (cycle_graph k) (j : Int) hne
  rcases hcase with ⟨_, hnone⟩ | ⟨hr0, e, he, hej, _⟩
  · exact absurd rfl (hnone (cycle_graph_sorted k) (j : Int) _ (cycle_graph_at h))
  · obtain ⟨_, hlt⟩ := vec_at_ok_lt he
    rw [cycle_graph_length] at hlt
    have hp : r.toNat < k := by omega
    have h2 := cycle_graph_at hp
    rw [Int.toNat_of_nonneg hr0, he] at h2
    have h3 : e = ⟨r, (((r.toNat + 1) % k : Nat) : Int)⟩ := Outcome.ok.inj h2
    rw [h3] at hej
    have h4 : r = (j : Int) := hej
    rw [hr, h4]

theorem cycle_stack_succ (j : Nat) : cycle_stack (j + 1) = j :: cycle_stack j := by
  simp [cycle_stack, List.range_succ]

theorem mem_cycle_stack {j p : Nat} : p ∈ cycle_stack j ↔ p < j := by
  simp [cycle_stack]

/-- On a vertex array whose position `p` holds the vertex named `p`, a vertex named
`d` with `d < k` is found on the stack `k-1, ..., 0`. -/
theorem cycle_contains {k d : Nat} {vs : List vertex} {w : vertex} (hlen : vs.length = k)
    (hnames : ∀ (p : Nat) (v : vertex), vs[p]? = some v → v.vertex_name = (p : Int))
    (hd : d < k) (hw : w.vertex_name = (d : Int)) :
    contains vs (cycle_stack k) w = Outcome.ok (1, cycle_stack k) := by
  obtain ⟨found, h1, h2⟩ := contains_spec vs w (cycle_stack k)
    (fun p hp => ⟨_, List.getElem?_eq_getElem (by rw [hlen]; exact mem_cycle_stack.1 hp)⟩)
  rcases h2 with ⟨hf, _⟩ | ⟨_, hall⟩
  · rw [h1, hf]
  · have hdl : d < vs.length := by omega
    have := hall d (mem_cycle_stack.2 hd) _ (List.getElem?_eq_getElem hdl)
    have hn := hnames d _ (List.getElem?_eq_getElem hdl)
    have h3 : vertex.eq vs[d] w = true := (vertex_eq_iff _ _).2 (by rw [hn, hw])
    rw [h3] at this
    cases this

theorem cycle_post_names (k j : Nat) :
    ∀ (p : Nat) (v : vertex), (cycle_post k j)[p]? = some v → v.vertex_name = (p : Int) := by
  intro p v hv
  have hlt : p < k := by
    have := lt_length_of_at hv
    rwa [cycle_post_length] at this
  rw [cycle_post_at hlt] at hv
  have := Option.some.inj hv
  rw [← this]
  split <;> rfl

theorem cycle_post_index {k j p : Nat} {v : vertex} (hv : (cycle_post k j)[p]? = some v) :
    v.index = (p : Int) := by
  have hlt : p < k := by
    have := lt_length_of_at hv
    rwa [cycle_post_length] at this
  rw [cycle_post_at hlt] at hv
  have := Option.some.inj hv
  rw [← this]
  split <;> rfl

/-- The edge loop of vertex `j` after its first iteration: one more edge (the first
edge of vertex `j+1`, when there is one) is examined and changes nothing. -/
theorem cycle_loop_tail (k j : Nat) (N : Int) (hj : j < k) (fuel : Nat) (hf : 1 ≤ fuel)
    (hf2 : j + 1 < k → 2 ≤ fuel) :
    strong_com_loop (cycle_graph k) N fuel (j : Int) j ((j : Int) + 1)
        ⟨(j : Int), (((j + 1) % k : Nat) : Int)⟩
        ⟨(k : Int), cycle_post k j, cycle_stack k⟩
      = Outcome.ok ⟨(k : Int), cycle_post k j, cycle_stack k⟩ := by
  obtain ⟨f1, rfl⟩ : ∃ f, fuel = f + 1 := ⟨fuel - 1, by omega⟩
  rw [strong_com_loop]
  by_cases hlast : j + 1 < k
  · obtain ⟨f, rfl⟩ : ∃ f, f1 = f + 1 := ⟨f1 - 1, by have := hf2 hlast; omega⟩
    have hcond : ((j : Int) + 1 < ((cycle_graph k).length : Int)) ∧
        (SparseElement.getI ⟨(j : Int), (((j + 1) % k : Nat) : Int)⟩ = (j : Int)) := by
      rw [cycle_graph_length]
      exact ⟨by omega, rfl⟩
    rw [if_pos hcond]
    have hcast : (j : Int) + 1 = ((j + 1 : Nat) : Int) := by push_cast; rfl
    have hd : (j + 1 + 1) % k < k := Nat.mod_lt _ (by omega)
    rw [hcast, cycle_graph_at hlast]
    simp only [Outcome.ok_bind, SparseElement.getJ]
    rw [ptr_at_natCast (by rw [cycle_post_length]; exact hd)]
    simp only [Outcome.ok_bind]
    obtain ⟨o, ho⟩ : ∃ o, (cycle_post k j)[(j + 1 + 1) % k]? = some o :=
      ⟨_, cycle_post_at hd⟩
    have hoi := cycle_post_index ho
    have hon := cycle_post_names k j _ _ ho
    rw [deref_eq_ok.2 ho]
    simp only [Outcome.ok_bind]
    have hvis : ¬ (o.get_index = -1) := by
      show ¬ (o.index = -1)
      rw [hoi]; omega
    rw [if_neg hvis, cycle_contains (cycle_post_length k j) (cycle_post_names k j) hd hon]
    simp only [Outcome.ok_bind, if_true]
    have hc : (cycle_post k j)[j]? = some ⟨(j : Int), (j : Int), 0⟩ := by
      rw [cycle_post_at hj, if_neg (by omega)]
    rw [deref_eq_ok.2 hc]
    simp only [Outcome.ok_bind]
    have hmin : vertex.set_low_link ⟨(j : Int), (j : Int), 0⟩
        (min (vertex.get_low_link ⟨(j : Int), (j : Int), 0⟩) o.get_index)
        = ⟨(j : Int), (j : Int), 0⟩ := by
      have : min (0 : Int) o.index = 0 := by
        unfold min; rw [hoi]; split <;> omega
      simp [vertex.set_low_link, vertex.get_low_link, vertex.get_index, this]
    rw [hmin, store_same hc, strong_com_loop]
    have hcond2 : ¬ (((j + 1 : Nat) : Int) + 1 < ((cycle_graph k).length : Int) ∧
        (SparseElement.getI ⟨((j + 1 : Nat) : Int), (((j + 1 + 1) % k : Nat) : Int)⟩
          = (j : Int))) := by
      intro hx
      have : ((j + 1 : Nat) : Int) = (j : Int) := hx.2
      omega
    rw [if_neg hcond2]
    rfl
  · have hcond : ¬ (((j : Int) + 1 < ((cycle_graph k).length : Int)) ∧
        (SparseElement.getI ⟨(j : Int), (((j + 1) % k : Nat) : Int)⟩ = (j : Int))) := by
      rw [cycle_graph_length]
      intro hx; omega
    rw [if_neg hcond]
    rfl

theorem cycle_pre_names (k j : Nat) :
    ∀ (p : Nat) (v : vertex), (cycle_pre k j)[p]? = some v → v.vertex_name = (p : Int) := by
  intro p v hv
  have hlt : p < k := by
    have := lt_length_of_at hv
    rwa [cycle_pre_length] at this
  rw [cycle_pre_at hlt] at hv
  have := Option.some.inj hv
  rw [← this]
  split <;> rfl

/-- Entry of strong_com on vertex `j` of the cycle: the vertex is marked and pushed,
then the edge loop and the closing step run. -/
theorem cycle_strong_com_enter (k j : Nat) (N : Int) (hj : j < k) (f : Nat) :
    strong_com (cycle_graph k) N (f + 1) (j : Int) ⟨(j : Int), cycle_pre k j, cycle_stack j⟩
      = (strong_com_loop (cycle_graph k) N f (j : Int) j (j : Int)
          ⟨(j : Int), (((j + 1) % k : Nat) : Int)⟩
          ⟨(j : Int) + 1, cycle_pre k (j + 1), cycle_stack (j + 1)⟩
        >>= fun s => strong_com_close j s) := by
  rw [strong_com, cycle_graph_bsi hj]
  simp only [Outcome.ok_bind]
  rw [ptr_at_natCast (by rw [cycle_pre_length]; exact hj)]
  simp only [Outcome.ok_bind]
  have hold : (cycle_pre k j)[j]? = some ⟨(j : Int), -1, -1⟩ := by
    rw [cycle_pre_at hj, if_neg (by omega)]
  rw [deref_eq_ok.2 hold]
  simp only [Outcome.ok_bind]
  have hcond : (j : Int) < ((cycle_graph k).length : Int) ∧ (j : Int) > -1 := by
    rw [cycle_graph_length]; omega
  rw [if_pos hcond, cycle_graph_at hj]
  simp only [Outcome.ok_bind]
  have hmark : (vertex.set_low_link (vertex.set_index ⟨(j : Int), -1, -1⟩ (j : Int)) (j : Int))
      = ⟨(j : Int), (j : Int), (j : Int)⟩ := rfl
  rw [hmark, cycle_pre_store hj, cycle_stack_succ]

/-- The edge loop of vertex `j` of the cycle, given what strong_com does on vertex
`j+1`: it ends with every vertex from `j` on at low_link 0 and all of them stacked. -/
theorem cycle_loop_step (k j : Nat) (N : Int) (hj : j < k) (f : Nat) (hf : 1 ≤ f)
    (hf2 : j + 1 < k → 2 ≤ f)
    (hrec : j + 1 < k →
      strong_com (cycle_graph k) N f ((j + 1 : Nat) : Int)
          ⟨((j + 1 : Nat) : Int), cycle_pre k (j + 1), cycle_stack (j + 1)⟩
        = Outcome.ok ⟨(k : Int), cycle_post k (j + 1), cycle_stack k⟩) :
    strong_com_loop (cycle_graph k) N (f + 1) (j : Int) j (j : Int)
        ⟨(j : Int), (((j + 1) % k : Nat) : Int)⟩
        ⟨(j : Int) + 1, cycle_pre k (j + 1), cycle_stack (j + 1)⟩
      = Outcome.ok ⟨(k : Int), cycle_post k j, cycle_stack k⟩ := by
  rw [strong_com_loop]
  have hcond : (j : Int) < ((cycle_graph k).length : Int) ∧
      (SparseElement.getI ⟨(j : Int), (((j + 1) % k : Nat) : Int)⟩ = (j : Int)) := by
    rw [cycle_graph_length]
    exact ⟨by omega, rfl⟩
  rw [if_pos hcond, cycle_graph_at hj]
  simp only [Outcome.ok_bind, SparseElement.getJ]
  have hd : (j + 1) % k < k := Nat.mod_lt _ (by omega)
  rw [ptr_at_natCast (by rw [cycle_pre_length]; exact hd)]
  simp only [Outcome.ok_bind]
  have hcast : (j : Int) + 1 = ((j + 1 : Nat) : Int) := by push_cast; rfl
  have hc : (cycle_pre k (j + 1))[j]? = some ⟨(j : Int), (j : Int), (j : Int)⟩ := by
    rw [cycle_pre_at hj, if_pos (by omega)]
  have hmin : min (j : Int) 0 = 0 := by unfold min; split <;> omega
  by_cases hlast : j + 1 < k
  · have hmod : (j + 1) % k = j + 1 := Nat.mod_eq_of_lt hlast
    rw [hmod]
    have ho : (cycle_pre k (j + 1))[j + 1]? = some ⟨((j + 1 : Nat) : Int), -1, -1⟩ := by
      rw [cycle_pre_at hlast, if_neg (by omega)]
    rw [deref_eq_ok.2 ho]
    simp only [Outcome.ok_bind]
    have hun : vertex.get_index ⟨((j + 1 : Nat) : Int), -1, -1⟩ = -1 := rfl
    rw [if_pos hun, hcast, hrec hlast]
    simp only [Outcome.ok_bind]
    have hc2 : (cycle_post k (j + 1))[j]? = some ⟨(j : Int), (j : Int), (j : Int)⟩ := by
      rw [cycle_post_at hj, if_pos (by omega)]
    have ho2 : (cycle_post k (j + 1))[j + 1]? =
        some ⟨((j + 1 : Nat) : Int), ((j + 1 : Nat) : Int), 0⟩ := by
      rw [cycle_post_at hlast, if_neg (by omega)]
    rw [deref_eq_ok.2 hc2, deref_eq_ok.2 ho2]
    simp only [Outcome.ok_bind]
    have hset : vertex.set_low_link ⟨(j : Int), (j : Int), (j : Int)⟩
        (min (vertex.get_low_link ⟨(j : Int), (j : Int), (j : Int)⟩)
          (vertex.get_low_link ⟨((j + 1 : Nat) : Int), ((j + 1 : Nat) : Int), 0⟩))
        = ⟨(j : Int), (j : Int), 0⟩ := by
      show (⟨(j : Int), (j : Int), min (j : Int) 0⟩ : vertex) = _
      rw [hmin]
    rw [hset, cycle_post_store hj, ← hcast]
    have htail := cycle_loop_tail k j N hj f hf hf2
    rw [hmod, ← hcast] at htail
    exact htail
  · have hk : j + 1 = k := by omega
    have hmod : (j + 1) % k = 0 := by rw [hk]; exact Nat.mod_self k
    have h0 : 0 < k := by omega
    rw [hmod, hk, cycle_pre_full]
    have ho : (cycle_post k k)[0]? = some ⟨((0 : Nat) : Int), ((0 : Nat) : Int), ((0 : Nat) : Int)⟩ := by
      rw [cycle_post_at h0, if_pos h0]
    rw [deref_eq_ok.2 ho]
    simp only [Outcome.ok_bind]
    have hvis : ¬ (vertex.get_index ⟨((0 : Nat) : Int), ((0 : Nat) : Int), ((0 : Nat) : Int)⟩ = -1) := by
      show ¬ (((0 : Nat) : Int) = -1)
      omega
    rw [if_neg hvis, cycle_contains (cycle_post_length k k) (cycle_post_names k k) h0 rfl]
    simp only [Outcome.ok_bind, if_true]
    have hc2 : (cycle_post k k)[j]? = some ⟨(j : Int), (j : Int), (j : Int)⟩ := by
      rw [cycle_post_at hj, if_pos (by omega)]
    rw [deref_eq_ok.2 hc2]
    simp only [Outcome.ok_bind]
    have hset : vertex.set_low_link ⟨(j : Int), (j : Int), (j : Int)⟩
        (min (vertex.get_low_link ⟨(j : Int), (j : Int), (j : Int)⟩)
          (vertex.get_index ⟨((0 : Nat) : Int), ((0 : Nat) : Int), ((0 : Nat) : Int)⟩))
        = ⟨(j : Int), (j : Int), 0⟩ := by
      show (⟨(j : Int), (j : Int), min (j : Int) ((0 : Nat) : Int)⟩ : vertex) = _
      rw [Nat.cast_zero, hmin]
    have hstore : store (cycle_post k k) j ⟨(j : Int), (j : Int), 0⟩ = cycle_post k j := by
      have := cycle_post_store hj
      rwa [hk] at this
    rw [hset, hstore]
    have hidx : ((j : Int) + 1) = (k : Int) := by omega
    have htail := cycle_loop_tail k j N hj f hf hf2
    rw [hmod, hidx] at htail
    rw [hidx]
    exact htail

/-- The closing step on a vertex `j ≥ 1` of the cycle does nothing: its low_link 0
differs from its index. -/
theorem cycle_close_inner (k j : Nat) (hj : j < k) (hj1 : 1 ≤ j) :
    strong_com_close j ⟨(k : Int), cycle_post k j, cycle_stack k⟩
      = Outcome.ok ⟨(k : Int), cycle_post k j, cycle_stack k⟩ := by
  have hc : (cycle_post k j)[j]? = some ⟨(j : Int), (j : Int), 0⟩ := by
    rw [cycle_post_at hj, if_neg (by omega)]
  unfold strong_com_close
  simp only [deref_eq_ok.2 hc, Outcome.ok_bind]
  have hne : ¬ (vertex.get_low_link ⟨(j : Int), (j : Int), 0⟩
      = vertex.get_index ⟨(j : Int), (j : Int), 0⟩) := by
    show ¬ ((0 : Int) = (j : Int))
    omega
  rw [if_neg hne]
  rfl

/-- Going down and back up the cycle: the edge loop of vertex `j = k - 1 - m`. -/
theorem cycle_loop (k : Nat) (N : Int) :
    ∀ (m j : Nat), j + m + 1 = k → ∀ (f : Nat), 2 * m + 1 ≤ f →
      strong_com_loop (cycle_graph k) N (f + 1) (j : Int) j (j : Int)
          ⟨(j : Int), (((j + 1) % k : Nat) : Int)⟩
          ⟨(j : Int) + 1, cycle_pre k (j + 1), cycle_stack (j + 1)⟩
        = Outcome.ok ⟨(k : Int), cycle_post k j, cycle_stack k⟩ := by
  intro m
  induction m with
  | zero =>
    intro j hjm f hf
    exact cycle_loop_step k j N (by omega) f (by omega) (fun h => by omega) (fun h => by omega)
  | succ m ih =>
    intro j hjm f hf
    refine cycle_loop_step k j N (by omega) f (by omega) (fun _ => by omega) ?_
    intro hlast
    obtain ⟨f1, rfl⟩ : ∃ f1, f = f1 + 2 := ⟨f - 2, by omega⟩
    have hcast : ((j + 1 : Nat) : Int) + 1 = ((j + 1 + 1 : Nat) : Int) := by push_cast; rfl
    rw [cycle_strong_com_enter k (j + 1) N hlast (f1 + 1), ih (j + 1) (by omega) f1 (by omega)]
    exact cycle_close_inner k (j + 1) hlast (by omega)

theorem cycle_unwind (k : Nat) :
    ∀ (m : Nat), m < k →
      strong_com_unwind 0 m (cycle_stack m) (cycle_post k 0)
        = Outcome.ok (cycle_post k 0, []) := by
  intro m
  induction m with
  | zero =>
    intro h0
    have hc : (cycle_post k 0)[0]? = some ⟨((0 : Nat) : Int), ((0 : Nat) : Int), 0⟩ := by
      rw [cycle_post_at h0, if_neg (by omega)]
    show strong_com_unwind 0 0 [] (cycle_post k 0) = _
    rw [strong_com_unwind, deref_eq_ok.2 hc]
    rfl
  | succ m ih =>
    intro hm
    have h0 : 0 < k := by omega
    have hc : (cycle_post k 0)[0]? = some ⟨((0 : Nat) : Int), ((0 : Nat) : Int), 0⟩ := by
      rw [cycle_post_at h0, if_neg (by omega)]
    have hh : (cycle_post k 0)[m + 1]? =
        some ⟨((m + 1 : Nat) : Int), ((m + 1 : Nat) : Int), 0⟩ := by
      rw [cycle_post_at hm, if_neg (by omega)]
    rw [cycle_stack_succ, strong_com_unwind, deref_eq_ok.2 hh, deref_eq_ok.2 hc]
    simp only [Outcome.ok_bind]
    have hne : vertex.ne ⟨((m + 1 : Nat) : Int), ((m + 1 : Nat) : Int), 0⟩
        ⟨((0 : Nat) : Int), ((0 : Nat) : Int), 0⟩ = true := by
      rw [vertex_ne_iff]
      show ((m + 1 : Nat) : Int) ≠ ((0 : Nat) : Int)
      omega
    rw [if_pos hne]
    have hp : ptr_at (cycle_post k 0)
        (vertex.get_vertex_name ⟨((m + 1 : Nat) : Int), ((m + 1 : Nat) : Int), 0⟩)
        = Outcome.ok (m + 1) :=
      ptr_at_natCast (by rw [cycle_post_length]; exact hm)
    rw [hp]
    simp only [Outcome.ok_bind, deref_eq_ok.2 hh]
    have hset : vertex.set_low_link ⟨((m + 1 : Nat) : Int), ((m + 1 : Nat) : Int), 0⟩
        (vertex.get_low_link ⟨((0 : Nat) : Int), ((0 : Nat) : Int), 0⟩)
        = ⟨((m + 1 : Nat) : Int), ((m + 1 : Nat) : Int), 0⟩ := rfl
    rw [hset, store_same hh]
    exact ih (by omega)

/-- The call of strong_com on vertex 0 of the cycle, launched by the driver: it
returns with every vertex at low_link 0 and the stack empty. -/
theorem cycle_strong_com_root (k : Nat) (hk : 1 ≤ k) (fuel : Nat) (hf : 2 * k + 1 ≤ fuel) :
    strong_com (cycle_graph k) (k : Int) fuel 0 ⟨0, graph_con_com_init k, []⟩
      = Outcome.ok ⟨(k : Int), cycle_post k 0, []⟩ := by
  obtain ⟨f, rfl⟩ : ∃ f, fuel = f + 2 := ⟨fuel - 2, by omega⟩
  have h := cycle_strong_com_enter k 0 (k : Int) (by omega) (f + 1)
  rw [cycle_loop k (k : Int) (k - 1) 0 (by omega) f (by omega)] at h
  rw [cycle_pre_zero] at h
  have hstack : cycle_stack 0 = [] := rfl
  rw [hstack] at h
  have hz : ((0 : Nat) : Int) = 0 := rfl
  rw [hz] at h
  rw [h]
  simp only [Outcome.ok_bind]
  have hc : (cycle_post k 0)[0]? = some ⟨((0 : Nat) : Int), ((0 : Nat) : Int), 0⟩ := by
    rw [cycle_post_at (by omega), if_neg (by omega)]
  unfold strong_com_close
  simp only [deref_eq_ok.2 hc, Outcome.ok_bind]
  have hroot : vertex.get_low_link ⟨((0 : Nat) : Int), ((0 : Nat) : Int), 0⟩
      = vertex.get_index ⟨((0 : Nat) : Int), ((0 : Nat) : Int), 0⟩ := rfl
  rw [if_pos hroot]
  obtain ⟨m, rfl⟩ : ∃ m, k = m + 1 := ⟨k - 1, by omega⟩
  have hst : cycle_stack (m + 1) = m :: cycle_stack m := cycle_stack_succ m
  simp only [hst]
  rw [cycle_unwind (m + 1) m (by omega)]
  rfl

theorem cycle_driver_skip (k : Nat) (fuel : Nat) :
    ∀ (cnt i : Nat), k - i < cnt →
      graph_con_com_loop (cycle_graph k) (k : Int) fuel cnt (i : Int)
          ⟨(k : Int), cycle_post k 0, []⟩
        = Outcome.ok ⟨(k : Int), cycle_post k 0, []⟩ := by
  intro cnt
  induction cnt with
  | zero => intro i h; omega
  | succ cnt ih =>
    intro i h
    rw [graph_con_com_loop]
    by_cases hc : (i : Int) < (k : Int)
    · rw [if_pos hc]
      have hik : i < k := by omega
      have hv : (cycle_post k 0)[i]? = some ⟨(i : Int), (i : Int), 0⟩ := by
        rw [cycle_post_at hik, if_neg (by omega)]
      simp only [ptr_at_natCast (show i < (cycle_post k 0).length by
        rw [cycle_post_length]; exact hik), Outcome.ok_bind, deref_eq_ok.2 hv]
      have hne : ¬ (vertex.get_low_link ⟨(i : Int), (i : Int), 0⟩ = -1) := by
        show ¬ ((0 : Int) = -1)
        omega
      rw [if_neg hne]
      have hcast : (i : Int) + 1 = ((i + 1 : Nat) : Int) := by push_cast; rfl
      rw [hcast]
      exact ih (i + 1) (by omega)
    · rw [if_neg hc]
      rfl

theorem cycle_run (k : Nat) (hk : 1 ≤ k) (fuel : Nat) (hf : 2 * k + 1 ≤ fuel) :
    graph_con_com_run fuel k (cycle_graph k) = Outcome.ok ⟨(k : Int), cycle_post k 0, []⟩ := by
  unfold graph_con_com_run
  rw [graph_con_com_loop]
  have hc : (0 : Int) < (k : Int) := by omega
  rw [if_pos hc]
  have hv : (graph_con_com_init k)[0]? = some (vertex.new ((0 : Nat) : Int) (-1)) :=
    graph_con_com_init_at (by omega)
  have hp : ptr_at (graph_con_com_init k) 0 = Outcome.ok 0 :=
    ptr_at_natCast (p := 0) (by rw [graph_con_com_init_length]; omega)
  simp only [hp, Outcome.ok_bind, deref_eq_ok.2 hv]
  have hll : vertex.get_low_link (vertex.new ((0 : Nat) : Int) (-1)) = -1 := rfl
  rw [if_pos hll, cycle_strong_com_root k hk fuel hf]
  simp only [Outcome.ok_bind]
  exact cycle_driver_skip k fuel k 1 (by omega)

/-- C8: on the cycle 0→1→...→(k-1)→0 with `k ≥ 1`, graph_con_com returns `k`
vertices whose final low_link values are all equal, and none is the initial -1
(all are 0). -/
theorem graph_con_com_cycle (k : Nat) (hk : 1 ≤ k) (fuel : Nat) (hf : 2 * k + 1 ≤ fuel) :
    ∃ vs, graph_con_com fuel k (cycle_graph k) = Outcome.ok vs ∧ vs.length = k ∧
      (∀ u ∈ vs, ∀ v ∈ vs, u.get_low_link = v.get_low_link) ∧
      ∀ u ∈ vs, u.get_low_link ≠ -1 := by
  have hzero : ∀ v ∈ cycle_post k 0, v.get_low_link = 0 := by
    intro v hv
    obtain ⟨p, hp, rfl⟩ := List.getElem_of_mem hv
    rw [cycle_post_length] at hp
    have h1 : (cycle_post k 0)[p]? = some ⟨(p : Int), (p : Int), 0⟩ := by
      rw [cycle_post_at hp, if_neg (by omega)]
    have h2 : (cycle_post k 0)[p]? = some (cycle_post k 0)[p] :=
      List.getElem?_eq_getElem _
    rw [h1] at h2
    rw [← Option.some.inj h2]
    rfl
  refine ⟨cycle_post k 0, ?_, cycle_post_length k 0, ?_, ?_⟩
  · unfold graph_con_com
    rw [cycle_run k hk fuel hf]
    rfl
  · intro u hu v hv
    rw [hzero u hu, hzero v hv]
  · intro u hu
    rw [hzero u hu]
    decide

/-- Witness for C8: the cycle of length 3 with fuel 7. -/
theorem graph_con_com_cycle_witness :
    ∃ vs, graph_con_com 7 3 (cycle_graph 3) = Outcome.ok vs ∧ vs.length = 3 ∧
      (∀ u ∈ vs, ∀ v ∈ vs, u.get_low_link = v.get_low_link) ∧
      ∀ u ∈ vs, u.get_low_link ≠ -1 :=
  graph_con_com_cycle 3 (by decide) 7 (by decide)

/-! ## The logged program computes what the program computes -/

@[simp] theorem Outcome.map_ok {α β : Type} (f : α → β) (a : α) :
    Outcome.map f (Outcome.ok a) = Outcome.ok (f a) := rfl

theorem Outcome.map_bind {α β γ δ : Type} (x : Outcome α) (y : Outcome β)
    (f : α → Outcome γ) (k : β → Outcome δ) (e1 : α → β) (e2 : γ → δ)
    (hx : Outcome.map e1 x = y) (hf : ∀ a, Outcome.map e2 (f a) = k (e1 a)) :
    Outcome.map e2 (x >>= f) = (y >>= k) := by
  subst hx
  cases x with
  | ok a => exact hf a
  | undefined => rfl
  | out_of_fuel => rfl

theorem Outcome.map_bind_same {α γ δ : Type} (x : Outcome α)
    (f : α → Outcome γ) (k : α → Outcome δ) (e2 : γ → δ)
    (hf : ∀ a, Outcome.map e2 (f a) = k a) :
    Outcome.map e2 (x >>= f) = (x >>= k) := by
  cases x with
  | ok a => exact hf a
  | undefined => rfl
  | out_of_fuel => rfl

theorem Outcome.map_ite {α β : Type} (f : α → β) {c : Prop} [Decidable c]
    (x y : Outcome α) (u v : Outcome β)
    (h1 : Outcome.map f x = u) (h2 : Outcome.map f y = v) :
    Outcome.map f (if c then x else y) = (if c then u else v) := by
  split
  · exact h1
  · exact h2

theorem strong_com_unwind_tr_erase (curr : Nat) :
    ∀ (rest : List Nat) (hold : Nat) (vs : List vertex) (log : List Event),
      Outcome.map (fun r => (r.1, r.2.1)) (strong_com_unwind_tr curr hold rest vs log)
        = strong_com_unwind curr hold rest vs := by
  intro rest
  induction rest with
  | nil =>
    intro hold vs log
    rw [strong_com_unwind_tr, strong_com_unwind]
    refine Outcome.map_bind_same _ _ _ _ fun _ => ?_
    refine Outcome.map_bind_same _ _ _ _ fun _ => ?_
    rfl
  | cons top rest ih =>
    intro hold vs log
    rw [strong_com_unwind_tr, strong_com_unwind]
    refine Outcome.map_bind_same _ _ _ _ fun _ => ?_
    refine Outcome.map_bind_same _ _ _ _ fun _ => ?_
    refine Outcome.map_ite _ _ _ _ _ ?_ rfl
    refine Outcome.map_bind_same _ _ _ _ fun _ => ?_
    refine Outcome.map_bind_same _ _ _ _ fun _ => ?_
    exact ih _ _ _

theorem strong_com_close_tr_erase (curr : Nat) (t : TrState) :
    Outcome.map TrState.s (strong_com_close_tr curr t) = strong_com_close curr t.s := by
  unfold strong_com_close_tr strong_com_close
  refine Outcome.map_bind_same _ _ _ _ fun _ => ?_
  refine Outcome.map_ite _ _ _ _ _ ?_ rfl
  cases t.s.st with
  | nil => rfl
  | cons hold rest =>
    exact Outcome.map_bind _ _ _ _ _ _ (strong_com_unwind_tr_erase curr rest hold _ _)
      (fun _ => rfl)

theorem strong_com_tr_erase_both (g : List SparseElement) (n : Int) (fuel : Nat) :
    (∀ d v t, Outcome.map TrState.s (strong_com_tr g n fuel d v t)
        = strong_com g n fuel v t.s) ∧
    (∀ d v c i sv t, Outcome.map TrState.s (strong_com_loop_tr g n fuel d v c i sv t)
        = strong_com_loop g n fuel v c i sv t.s) := by
  induction fuel with
  | zero =>
    constructor
    · intro d v t; rw [strong_com_tr, strong_com]; rfl
    · intro d v c i sv t; rw [strong_com_loop_tr, strong_com_loop]; rfl
  | succ fuel ih =>
    obtain ⟨ih1, ih2⟩ := ih
    constructor
    · intro d v t
      rw [strong_com_tr, strong_com]
      refine Outcome.map_bind_same _ _ _ _ fun _ => ?_
      refine Outcome.map_bind_same _ _ _ _ fun _ => ?_
      refine Outcome.map_bind_same _ _ _ _ fun _ => ?_
      refine Outcome.map_ite _ _ _ _ _ ?_ rfl
      refine Outcome.map_bind_same _ _ _ _ fun _ => ?_
      exact Outcome.map_bind _ _ _ _ _ _ (ih2 _ _ _ _ _ _)
        (fun _ => strong_com_close_tr_erase _ _)
    · intro d v c i sv t
      rw [strong_com_loop_tr, strong_com_loop]
      refine Outcome.map_ite _ _ _ _ _ ?_ rfl
      refine Outcome.map_bind_same _ _ _ _ fun _ => ?_
      refine Outcome.map_bind_same _ _ _ _ fun _ => ?_
      refine Outcome.map_bind_same _ _ _ _ fun _ => ?_
      refine Outcome.map_ite _ _ _ _ _ ?_ ?_
      · refine Outcome.map_bind _ _ _ _ _ _ (ih1 _ _ _) fun _ => ?_
        refine Outcome.map_bind_same _ _ _ _ fun _ => ?_
        refine Outcome.map_bind_same _ _ _ _ fun _ => ?_
        exact ih2 _ _ _ _ _ _
      · refine Outcome.map_bind_same _ _ _ _ fun _ => ?_
        refine Outcome.map_ite _ _ _ _ _ ?_ (ih2 _ _ _ _ _ _)
        refine Outcome.map_bind_same _ _ _ _ fun _ => ?_
        refine Outcome.map_bind_same _ _ _ _ fun _ => ?_
        exact ih2 _ _ _ _ _ _

/-- Dropping the log of the logged `strong_com` gives `strong_com`. -/
theorem strong_com_tr_erase (g : List SparseElement) (n : Int) (fuel d : Nat) (v : Int)
    (t : TrState) :
    Outcome.map TrState.s (strong_com_tr g n fuel d v t) = strong_com g n fuel v t.s :=
  (strong_com_tr_erase_both g n fuel).1 d v t

theorem strong_com_loop_tr_erase (g : List SparseElement) (n : Int) (fuel d : Nat) (v : Int)
    (c : Nat) (i : Int) (sv : SparseElement) (t : TrState) :
    Outcome.map TrState.s (strong_com_loop_tr g n fuel d v c i sv t)
      = strong_com_loop g n fuel v c i sv t.s :=
  (strong_com_tr_erase_both g n fuel).2 d v c i sv t

theorem graph_con_com_loop_tr_erase (g : List SparseElement) (n : Int) (fuel : Nat) :
    ∀ (k : Nat) (i : Int) (t : TrState),
      Outcome.map TrState.s (graph_con_com_loop_tr g n fuel k i t)
        = graph_con_com_loop g n fuel k i t.s := by
  intro k
  induction k with
  | zero => intro i t; rw [graph_con_com_loop_tr, graph_con_com_loop]; rfl
  | succ k ih =>
    intro i t
    rw [graph_con_com_loop_tr, graph_con_com_loop]
    refine Outcome.map_ite _ _ _ _ _ ?_ rfl
    refine Outcome.map_bind_same _ _ _ _ fun _ => ?_
    refine Outcome.map_bind_same _ _ _ _ fun _ => ?_
    refine Outcome.map_ite _ _ _ _ _ ?_ (ih _ _)
    exact Outcome.map_bind _ _ _ _ _ _ (strong_com_tr_erase g n fuel 1 i t) (fun _ => ih _ _)

/-- Dropping the log of the logged run gives the run of `graph_con_com`. -/
theorem graph_con_com_run_tr_erase (fuel n : Nat) (g : List SparseElement) :
    Outcome.map TrState.s (graph_con_com_run_tr fuel n g) = graph_con_com_run fuel n g :=
  graph_con_com_loop_tr_erase g n fuel _ _ _

theorem Outcome.map_eq_ok {α β : Type} {f : α → β} {x : Outcome α} {a : α}
    (h : x = Outcome.ok a) : Outcome.map f x = Outcome.ok (f a) := by
  rw [h]; rfl

/-! ## Toolkit for the stronger invariants -/

theorem low_only_refl (vs : List vertex) : low_only vs vs :=
  ⟨rfl, fun _ v h => ⟨v, h, rfl, rfl, Or.inl rfl⟩⟩

theorem low_only_trans {a b c : List vertex} (h1 : low_only a b) (h2 : low_only b c) :
    low_only a c := by
  refine ⟨h2.1.trans h1.1, ?_⟩
  intro p v hv
  obtain ⟨w, hw, hwn, hwi, hwl⟩ := h1.2 p v hv
  obtain ⟨x, hx, hxn, hxi, hxl⟩ := h2.2 p w hw
  refine ⟨x, hx, hxn.trans hwn, hxi.trans hwi, ?_⟩
  rcases hxl with h3 | ⟨h3, h4, h5⟩
  · rcases hwl with h6 | ⟨h6, h7, h8⟩
    · exact Or.inl (h3.trans h6)
    · exact Or.inr ⟨h6, by omega, by omega⟩
  · rcases hwl with h6 | ⟨h6, h7, h8⟩
    · exact Or.inr ⟨by rw [← hwi]; exact h3, h4, by omega⟩
    · exact Or.inr ⟨h6, h4, by omega⟩

theorem low_only_back {vs vs2 : List vertex} (h : low_only vs vs2) {p : Nat} {w : vertex}
    (hw : vs2[p]? = some w) :
    ∃ v, vs[p]? = some v ∧ w.vertex_name = v.vertex_name ∧ w.index = v.index ∧
      (w.low_link = v.low_link ∨
        (v.index ≠ -1 ∧ 0 ≤ w.low_link ∧ w.low_link ≤ v.low_link)) := by
  have hlt : p < vs.length := by rw [← h.1]; exact lt_length_of_at hw
  obtain ⟨x, hx, h1, h2, h3⟩ := h.2 p _ (List.getElem?_eq_getElem hlt)
  rw [hw] at hx
  cases hx
  exact ⟨_, List.getElem?_eq_getElem hlt, h1, h2, h3⟩

theorem low_only_store {vs : List vertex} {p : Nat} {c : vertex} (hc : vs[p]? = some c)
    (hvis : c.index ≠ -1) {x : Int} (hx0 : 0 ≤ x) (hx : x ≤ c.low_link) :
    low_only vs (store vs p (c.set_low_link x)) := by
  refine ⟨store_length _ _ _, ?_⟩
  intro q v hv
  by_cases hpq : p = q
  · subst hpq
    rw [hc] at hv
    cases hv
    exact ⟨_, deref_store_same _ (lt_length_of_at hc), rfl, rfl, Or.inr ⟨hvis, hx0, hx⟩⟩
  · exact ⟨v, by rw [store_at_ne _ _ hpq]; exact hv, rfl, rfl, Or.inl rfl⟩

theorem low_only_evolves {vs vs2 : List vertex} (h : low_only vs vs2) : evolves vs vs2 := by
  refine ⟨h.1, ?_⟩
  intro p v hv _
  obtain ⟨w, hw, _, hwi, _⟩ := h.2 p v hv
  exact ⟨w, hw, hwi⟩

theorem low_only_visited {vs vs2 : List vertex} (h : low_only vs vs2) {p : Nat} :
    visited_at vs2 p ↔ visited_at vs p := by
  constructor
  · rintro ⟨w, hw, hwvis⟩
    obtain ⟨v, hv, _, hvi, _⟩ := low_only_back h hw
    exact ⟨v, hv, by rw [← hvi]; exact hwvis⟩
  · exact visited_at_of_evolves (low_only_evolves h)

theorem low_only_unvisited {vs vs2 : List vertex} (h : low_only vs vs2) :
    unvisited vs2 = unvisited vs := by
  apply le_antisymm (unvisited_le_of_evolves (low_only_evolves h))
  unfold unvisited
  apply countP_le_of_pointwise _ vs2 vs h.1
  intro p a b ha hb hfb
  obtain ⟨w, hw, _, hwi, _⟩ := h.2 p b hb
  rw [ha] at hw
  cases hw
  have : b.index = -1 := by simpa using hfb
  simp [hwi, this]

theorem wf_vertices_low_only {n : Nat} {vs vs2 : List vertex} (hwf : wf_vertices n vs)
    (h : low_only vs vs2) : wf_vertices n vs2 := by
  refine ⟨h.1.trans hwf.len, ?_, ?_⟩
  · intro p w hw
    obtain ⟨v, hv, hn, _, _⟩ := low_only_back h hw
    rw [hn]; exact hwf.names p v hv
  · intro p w hw
    obtain ⟨v, hv, _, hi, hl⟩ := low_only_back h hw
    rcases hl with h1 | ⟨h1, h2, _⟩
    · rw [hi, h1]; exact hwf.marks p v hv
    · have := visited_nonneg hwf hv h1
      exact Or.inr ⟨by rw [hi]; exact this.1, h2⟩

/-- Lowering low_links and shrinking the stack keeps a state `rich_state`. -/
theorem rich_state_low_only {n : Nat} {s : TState} (hs : rich_state n s)
    {vs2 : List vertex} (h : low_only s.vertices vs2) {st2 : List Nat}
    (hnd : st2.Nodup) (hsub : ∀ q ∈ st2, q ∈ s.st) :
    rich_state n { s with vertices := vs2, st := st2 } := by
  refine ⟨⟨wf_vertices_low_only hs.wf.vertices h, ?_, hs.wf.counter⟩, hnd, ?_, ?_, ?_, ?_⟩
  · intro q hq
    exact (low_only_visited h).2 (hs.wf.stack q (hsub q hq))
  · intro p w hw
    obtain ⟨v, hv, _, hi, hl⟩ := low_only_back h hw
    have := hs.low_le p v hv
    rcases hl with h1 | ⟨_, _, h3⟩ <;> omega
  · intro p w hw
    obtain ⟨v, hv, _, hi, _⟩ := low_only_back h hw
    have := hs.index_lt p v hv
    show w.index < s.index
    omega
  · intro p q v w hv hw hvis heq
    obtain ⟨v0, hv0, _, hi1, _⟩ := low_only_back h hv
    obtain ⟨w0, hw0, _, hi2, _⟩ := low_only_back h hw
    exact hs.index_inj p q v0 w0 hv0 hw0 (by rw [← hi1]; exact hvis) (by omega)
  · show s.index + (unvisited vs2 : Int) = (n : Int)
    rw [low_only_unvisited h]
    exact hs.count

theorem calls_write (p : Nat) (old new : vertex) (l : List Event) :
    calls (Event.write p old new :: l) = calls l := rfl

theorem calls_edge (v i : Int) (e : SparseElement) (l : List Event) :
    calls (Event.edge v i e :: l) = calls l := rfl

theorem calls_call (v : Int) (d : Nat) (l : List Event) :
    calls (Event.call v d :: l) = v :: calls l := rfl

/-- Lowering low_links, shrinking the stack and logging good events that are not
calls keeps a logged state `rich_trace`. -/
theorem rich_trace_low_only {n : Nat} {t : TrState} (ht : rich_trace n t)
    {vs2 : List vertex} (h : low_only t.s.vertices vs2) {st2 : List Nat}
    (hnd : st2.Nodup) (hsub : ∀ q ∈ st2, q ∈ t.s.st) {log2 : List Event}
    (hgood : ∀ e ∈ log2, good_event n e) (hcalls : calls log2 = calls t.log) :
    rich_trace n { s := { t.s with vertices := vs2, st := st2 }, log := log2 } := by
  refine ⟨rich_state_low_only ht.state h hnd hsub, hgood, ?_, ?_⟩
  · show (calls log2).Nodup
    rw [hcalls]; exact ht.calls_nodup
  · intro v
    show v ∈ calls log2 ↔ (0 ≤ v ∧ visited_at vs2 v.toNat)
    rw [hcalls, ht.calls_iff v, low_only_visited h]

/-- A store that lowers the low_link of a visited vertex, logged, keeps a logged
state `rich_trace`. -/
theorem rich_trace_write {n : Nat} {t : TrState} (ht : rich_trace n t) {p : Nat}
    {c : vertex} (hc : t.s.vertices[p]? = some c) (hvis : c.index ≠ -1) {x : Int}
    (hx0 : 0 ≤ x) (hx : x ≤ c.low_link) :
    rich_trace n { s := { t.s with vertices := store t.s.vertices p (c.set_low_link x) },
                   log := Event.write p c (c.set_low_link x) :: t.log } := by
  refine rich_trace_low_only ht (low_only_store hc hvis hx0 hx) ht.state.nodup
    (fun q hq => hq) ?_ (calls_write _ _ _ _)
  intro e he
  rcases List.mem_cons.1 he with rfl | he
  · exact ⟨rfl, fun _ => ⟨rfl, hx⟩⟩
  · exact ht.good e he

theorem rich_trace_edge {n : Nat} {t : TrState} (ht : rich_trace n t) (v i : Int)
    (e : SparseElement) :
    rich_trace n { s := t.s, log := Event.edge v i e :: t.log } := by
  refine ⟨ht.state, ?_, ht.calls_nodup, ht.calls_iff⟩
  intro x hx
  rcases List.mem_cons.1 hx with rfl | hx
  · exact True.intro
  · exact ht.good x hx

/-! ## Steps of the logged traversal -/

theorem store_at_cases {vs : List vertex} {p q : Nat} {c v : vertex} {old : vertex}
    (hold : vs[p]? = some old) (hv : (store vs p c)[q]? = some v) :
    (q = p ∧ v = c) ∨ (q ≠ p ∧ vs[q]? = some v) := by
  by_cases hpq : p = q
  · subst hpq
    rw [deref_store_same _ (lt_length_of_at hold)] at hv
    exact Or.inl ⟨rfl, (Option.some.inj hv).symm⟩
  · rw [store_at_ne _ _ hpq] at hv
    exact Or.inr ⟨fun h => hpq h.symm, hv⟩

/-- The entry of `strong_com` on an unvisited vertex (lines 128-130), logged, keeps a
logged state `rich_trace`. -/
theorem rich_trace_mark {n : Nat} {t : TrState} (ht : rich_trace n t) {v : Int} {p : Nat}
    {old : vertex} (hp : ptr_at t.s.vertices v = Outcome.ok p)
    (hold : t.s.vertices[p]? = some old) (hun : old.index = -1) {d : Nat} (hd : d ≤ n) :
    rich_trace n
      { s := { t.s with
          vertices := store t.s.vertices p ((old.set_index t.s.index).set_low_link t.s.index),
          index := t.s.index + 1 },
        log := Event.write p old ((old.set_index t.s.index).set_low_link t.s.index)
          :: Event.call v d :: t.log } := by
  obtain ⟨hwf1, hev1, hcount1, hvis1⟩ := wf_state_mark ht.state.wf hold hun
  obtain ⟨hv0, _, hpv⟩ := ptr_at_eq_ok.1 hp
  have hcnt := ht.state.wf.counter
  have hnotin : v ∉ calls t.log := by
    intro hmem
    obtain ⟨_, w, hw, hwvis⟩ := (ht.calls_iff v).1 hmem
    rw [← hpv, hold] at hw
    cases hw
    exact hwvis hun
  refine ⟨⟨hwf1, ht.state.nodup, ?_, ?_, ?_, ?_⟩, ?_, ?_, ?_⟩
  · intro q w hw
    rcases store_at_cases hold hw with ⟨_, rfl⟩ | ⟨_, h2⟩
    · exact le_refl _
    · exact ht.state.low_le q w h2
  · intro q w hw
    show w.index < t.s.index + 1
    rcases store_at_cases hold hw with ⟨_, rfl⟩ | ⟨_, h2⟩
    · show t.s.index < t.s.index + 1
      omega
    · have := ht.state.index_lt q w h2
      omega
  · intro q1 q2 w1 w2 hw1 hw2 hvis heq
    rcases store_at_cases hold hw1 with ⟨h1, rfl⟩ | ⟨h1, h1'⟩
    · rcases store_at_cases hold hw2 with ⟨h2, rfl⟩ | ⟨h2, h2'⟩
      · rw [h1, h2]
      · have := ht.state.index_lt q2 w2 h2'
        have h3 : t.s.index = w2.index := heq
        omega
    · rcases store_at_cases hold hw2 with ⟨h2, rfl⟩ | ⟨h2, h2'⟩
      · have := ht.state.index_lt q1 w1 h1'
        have h3 : w1.index = t.s.index := heq
        omega
      · exact ht.state.index_inj q1 q2 w1 w2 h1' h2' hvis heq
  · show t.s.index + 1
      + (unvisited (store t.s.vertices p ((old.set_index t.s.index).set_low_link t.s.index)) : Int)
      = (n : Int)
    have := ht.state.count
    omega
  · intro e he
    rcases List.mem_cons.1 he with rfl | he
    · exact ⟨rfl, fun h => absurd hun h⟩
    · rcases List.mem_cons.1 he with rfl | he
      · exact hd
      · exact ht.good e he
  · show (v :: calls t.log).Nodup
    exact List.nodup_cons.2 ⟨hnotin, ht.calls_nodup⟩
  · intro u
    show u ∈ v :: calls t.log ↔ _
    constructor
    · intro hu
      rcases List.mem_cons.1 hu with rfl | hu
      · exact ⟨hv0, by rw [← hpv]; exact hvis1⟩
      · obtain ⟨hu0, huvis⟩ := (ht.calls_iff u).1 hu
        exact ⟨hu0, visited_at_of_evolves hev1 huvis⟩
    · rintro ⟨hu0, w, hw, hwvis⟩
      rcases store_at_cases hold hw with ⟨h1, _⟩ | ⟨_, h2⟩
      · have : u = v := by omega
        rw [this]; exact List.mem_cons_self _ _
      · exact List.mem_cons_of_mem _ ((ht.calls_iff u).2 ⟨hu0, w, h2, hwvis⟩)

theorem rich_trace_push {n : Nat} {t : TrState} (ht : rich_trace n t) {p : Nat}
    (hp : visited_at t.s.vertices p) (hnot : p ∉ t.s.st) :
    rich_trace n { s := { t.s with st := p :: t.s.st }, log := t.log } := by
  refine ⟨⟨wf_state_push ht.state.wf hp, List.nodup_cons.2 ⟨hnot, ht.state.nodup⟩,
    ht.state.low_le, ht.state.index_lt, ht.state.index_inj, ht.state.count⟩,
    ht.good, ht.calls_nodup, ht.calls_iff⟩

theorem vertex_ne_self (c : vertex) : vertex.ne c c = false := by
  simp [vertex.ne, vertex.eq]

/-- The loop of the closing step on a stack without repetition: it pops exactly the
vertices above `curr` and `curr` itself, gives each vertex above `curr` the low_link
of `curr`, never raises a low_link, and touches nothing else. -/
theorem strong_com_unwind_tr_spec (n : Nat) (curr : Nat) (st0 : List Nat) :
    ∀ (ext : List Nat) (hold : Nat) (rest : List Nat) (i : Int) (vs : List vertex)
      (log : List Event), hold :: rest = ext ++ curr :: st0 →
      rich_trace n ⟨⟨i, vs, hold :: rest⟩, log⟩ → low_order vs curr ext →
      ∃ vs2 log2, strong_com_unwind_tr curr hold rest vs log = Outcome.ok (vs2, st0, log2) ∧
        rich_trace n ⟨⟨i, vs2, st0⟩, log2⟩ ∧ low_only vs vs2 ∧
        (∀ q, q ∉ ext → vs2[q]? = vs[q]?) ∧
        (∀ q ∈ ext, ∀ (w c : vertex), vs2[q]? = some w → vs[curr]? = some c →
          w.low_link = c.low_link) := by
  intro ext
  induction ext with
  | nil =>
    intro hold rest i vs log heq ht _
    have h1 : hold = curr := (List.cons.inj heq).1
    have h2 : rest = st0 := (List.cons.inj heq).2
    subst h1 h2
    obtain ⟨c, hc, _⟩ := ht.state.wf.stack hold (List.mem_cons_self _ _)
    have hc2 : vs[hold]? = some c := hc
    refine ⟨vs, log, ?_, ?_, low_only_refl vs, fun _ _ => rfl, fun q hq => by cases hq⟩
    · cases rest with
      | nil =>
        rw [strong_com_unwind_tr, deref_eq_ok.2 hc2]
        rfl
      | cons top rest =>
        rw [strong_com_unwind_tr, deref_eq_ok.2 hc2]
        simp only [Outcome.ok_bind, vertex_ne_self]
        rfl
    · exact rich_trace_low_only ht (low_only_refl vs) (List.nodup_cons.1 ht.state.nodup).2
        (fun q hq => List.mem_cons_of_mem _ hq) ht.good rfl
  | cons q ext ih =>
    intro hold rest i vs log heq ht hord
    have h1 : hold = q := (List.cons.inj heq).1
    have h2 : rest = ext ++ curr :: st0 := (List.cons.inj heq).2
    subst h1
    obtain ⟨top, rest2, hrest⟩ : ∃ top rest2, rest = top :: rest2 := by
      cases ext with
      | nil => exact ⟨curr, st0, h2⟩
      | cons a ext => exact ⟨a, ext ++ curr :: st0, h2⟩
    subst hrest
    have hnd : (hold :: top :: rest2).Nodup := ht.state.nodup
    have hnd2 : (hold :: (ext ++ curr :: st0)).Nodup := by rw [← h2]; exact hnd
    have hcurr_mem : curr ∈ hold :: top :: rest2 := by
      rw [h2]; simp
    have hne : hold ≠ curr := by
      intro h
      have := (List.nodup_cons.1 hnd2).1
      rw [h] at this
      exact this (by simp)
    have hq_ext : hold ∉ ext := by
      intro h
      exact (List.nodup_cons.1 hnd2).1 (by simp [h])
    obtain ⟨c, hc, hcvis⟩ := ht.state.wf.stack curr hcurr_mem
    obtain ⟨h, hh, hhvis⟩ := ht.state.wf.stack hold (List.mem_cons_self _ _)
    have hc2 : vs[curr]? = some c := hc
    have hh2 : vs[hold]? = some h := hh
    have hwfv : wf_vertices n vs := ht.state.wf.vertices
    have hcn := hwfv.names curr c hc2
    have hhn := hwfv.names hold h hh2
    have hvne : vertex.ne h c = true := by
      rw [vertex_ne_iff, hcn, hhn]
      intro hx
      exact hne (by exact_mod_cast hx)
    have hptr : ptr_at vs h.get_vertex_name = Outcome.ok hold := by
      have : h.get_vertex_name = (hold : Int) := hhn
      rw [this]
      exact ptr_at_natCast (lt_length_of_at hh2)
    have hle : c.get_low_link ≤ h.low_link :=
      hord hold (List.mem_cons_self _ _) h c hh2 hc2
    have h0 : 0 ≤ c.get_low_link := (visited_nonneg hwfv hc2 hcvis).2
    have hlo : low_only vs (store vs hold (h.set_low_link c.get_low_link)) :=
      low_only_store hh2 hhvis h0 hle
    have ht2 : rich_trace n ⟨⟨i, store vs hold (h.set_low_link c.get_low_link), top :: rest2⟩,
        Event.write hold h (h.set_low_link c.get_low_link) :: log⟩ := by
      refine rich_trace_low_only ht hlo (List.nodup_cons.1 hnd).2
        (fun x hx => List.mem_cons_of_mem _ hx) ?_ (calls_write _ _ _ _)
      intro e he
      rcases List.mem_cons.1 he with rfl | he
      · exact ⟨rfl, fun _ => ⟨rfl, hle⟩⟩
      · exact ht.good e he
    have hcurr2 : (store vs hold (h.set_low_link c.get_low_link))[curr]? = some c := by
      rw [store_at_ne _ _ hne]; exact hc2
    have hord2 : low_order (store vs hold (h.set_low_link c.get_low_link)) curr ext := by
      intro x hx w c' hw hc'
      have hxq : hold ≠ x := fun hx2 => hq_ext (by rw [hx2]; exact hx)
      rw [store_at_ne _ _ hxq] at hw
      rw [hcurr2] at hc'
      cases hc'
      exact hord x (List.mem_cons_of_mem _ hx) w c hw hc2
    obtain ⟨vs2, log2, e1, e2, e3, e4, e5⟩ := ih top rest2 i _ _ h2 ht2 hord2
    refine ⟨vs2, log2, ?_, e2, low_only_trans hlo e3, ?_, ?_⟩
    · rw [strong_com_unwind_tr, deref_eq_ok.2 hh2, deref_eq_ok.2 hc2]
      simp only [Outcome.ok_bind, hvne, if_true, hptr]
      rw [deref_eq_ok.2 hh2]
      exact e1
    · intro x hx
      have hx1 : hold ≠ x := fun h => hx (by rw [h]; exact List.mem_cons_self _ _)
      have hx2 : x ∉ ext := fun h => hx (List.mem_cons_of_mem _ h)
      rw [e4 x hx2, store_at_ne _ _ hx1]
    · intro x hx w c' hw hc'
      rw [hc2] at hc'
      cases hc'
      rcases List.mem_cons.1 hx with rfl | hx
      · rw [e4 _ hq_ext, deref_store_same _ (lt_length_of_at hh2)] at hw
        cases hw
        rfl
      · exact e5 x hx w c hw hcurr2

/-- The closing step on a logged state whose stack is `ext ++ curr :: st0`: when
`low_link == index` holds for `curr` the stack is cut back to `st0` and the
vertices of `ext` get the low_link of `curr`; otherwise nothing changes. -/
theorem strong_com_close_tr_spec {n : Nat} {t : TrState} (ht : rich_trace n t)
    {curr : Nat} {st0 ext : List Nat} (hst : t.s.st = ext ++ curr :: st0)
    (hord : low_order t.s.vertices curr ext) {c : vertex}
    (hc : t.s.vertices[curr]? = some c) :
    ∃ t2, strong_com_close_tr curr t = Outcome.ok t2 ∧ rich_trace n t2 ∧
      low_only t.s.vertices t2.s.vertices ∧ t2.s.index = t.s.index ∧
      (∀ q, q ∉ ext → t2.s.vertices[q]? = t.s.vertices[q]?) ∧
      ((c.low_link = c.index ∧ t2.s.st = st0 ∧
          ∀ q ∈ ext, ∀ (w : vertex), t2.s.vertices[q]? = some w → w.low_link = c.low_link) ∨
       (c.low_link ≠ c.index ∧ t2 = t)) := by
  obtain ⟨⟨i, vs, st⟩, log⟩ := t
  have hst2 : st = ext ++ curr :: st0 := hst
  have hc2 : vs[curr]? = some c := hc
  subst hst2
  obtain ⟨hold, rest, hrest⟩ : ∃ hold rest, hold :: rest = ext ++ curr :: st0 := by
    cases ext with
    | nil => exact ⟨curr, st0, rfl⟩
    | cons a ext => exact ⟨a, ext ++ curr :: st0, rfl⟩
  unfold strong_com_close_tr
  simp only [deref_eq_ok.2 hc2, Outcome.ok_bind]
  by_cases hroot : c.get_low_link = c.get_index
  · rw [if_pos hroot]
    simp only [← hrest]
    have ht2 : rich_trace n ⟨⟨i, vs, hold :: rest⟩, log⟩ := by rw [hrest]; exact ht
    obtain ⟨vs2, log2, e1, e2, e3, e4, e5⟩ :=
      strong_com_unwind_tr_spec n curr st0 ext hold rest i vs log hrest ht2 hord
    simp only [e1, Outcome.ok_bind, Outcome.pure_def]
    exact ⟨_, rfl, e2, e3, rfl, e4,
      Or.inl ⟨hroot, rfl, fun q hq w hw => e5 q hq w c hw hc2⟩⟩
  · rw [if_neg hroot]
    exact ⟨_, rfl, ht, low_only_refl _, rfl, fun _ _ => rfl, Or.inr ⟨hroot, rfl⟩⟩

/-! ## The logged traversal returns and keeps its invariants -/

theorem le_min {B a b : Int} (ha : B ≤ a) (hb : B ≤ b) : B ≤ min a b := by
  unfold min; split <;> assumption

theorem nodup_split {ext st0 : List Nat} {curr : Nat} (h : (ext ++ curr :: st0).Nodup) :
    curr ∉ ext ∧ curr ∉ st0 ∧ ∀ q ∈ ext, q ∉ st0 := by
  rw [List.nodup_append] at h
  obtain ⟨_, h2, h3⟩ := h
  refine ⟨?_, (List.nodup_cons.1 h2).1, ?_⟩
  · intro hc
    exact h3 hc (List.mem_cons_self _ _)
  · intro q hq hq0
    exact h3 hq (List.mem_cons_of_mem _ hq0)

theorem index_bounded_low_only {B : Int} {s : TState} (hb : index_bounded B s)
    {vs2 : List vertex} (h : low_only s.vertices vs2) {st2 : List Nat}
    (hsub : ∀ q ∈ st2, q ∈ s.st) :
    index_bounded B { s with vertices := vs2, st := st2 } := by
  refine ⟨hb.1, ?_⟩
  intro q hq w hw
  obtain ⟨v, hv, _, hi, _⟩ := low_only_back h hw
  rw [hi]
  exact hb.2 q (hsub q hq) v hv

theorem strong_spec_zero (g : List SparseElement) (n : Nat) (N : Int) :
    strong_spec g n N 0 := by
  intro d v t p old _ _ hold hun _ hf
  have := unvisited_pos hold hun
  have h2 : unvisited t.s.vertices * (g.length + 2) = 0 := by omega
  rcases Nat.mul_eq_zero.1 h2 with h3 | h3 <;> omega

theorem loop_spec_zero (g : List SparseElement) (n : Nat) (N : Int) :
    loop_spec g n N 0 := by
  intro d v curr idx sv t st0 ext _ _ _ _ _ hf
  omega

theorem strong_spec_succ (g : List SparseElement) (n : Nat) (N : Int) (hne : g ≠ [])
    (fuel : Nat) (hL : loop_spec g n N fuel) : strong_spec g n N (fuel + 1) := by
  intro d v t p old ht hp hold hun hd hf
  obtain ⟨r, hbsi, _⟩ := binary_search_index_spec g v hne
  have hpos := unvisited_pos hold hun
  have ht1 := rich_trace_mark ht hp hold hun (show d ≤ n by omega)
  obtain ⟨hwf1, hev1, hcount1, hvis1⟩ := wf_state_mark ht.state.wf hold hun
  have hpst : p ∉ t.s.st := by
    intro hmem
    obtain ⟨w, hw, hwvis⟩ := ht.state.wf.stack p hmem
    rw [hold] at hw
    cases hw
    exact hwvis hun
  have hlt : p < t.s.vertices.length := lt_length_of_at hold
  have hframe1 : ∀ q ∈ t.s.st,
      (store t.s.vertices p ((old.set_index t.s.index).set_low_link t.s.index))[q]?
        = t.s.vertices[q]? := by
    intro q hq
    exact store_at_ne _ _ (fun h => hpst (by rw [h]; exact hq))
  have hcm : (store t.s.vertices p ((old.set_index t.s.index).set_low_link t.s.index))[p]?
      = some ((old.set_index t.s.index).set_low_link t.s.index) := deref_store_same _ hlt
  rw [strong_com_tr, hbsi]
  simp only [Outcome.ok_bind, hp, deref_eq_ok.2 hold, Outcome.pure_def]
  by_cases hc : r < (g.length : Int) ∧ r > -1
  · rw [if_pos hc]
    obtain ⟨e, he⟩ := vec_at_of_lt g (by omega : 0 ≤ r) hc.1
    rw [he]
    simp only [Outcome.ok_bind]
    have ht2 := rich_trace_push ht1 hvis1 hpst
    have hfuel : unvisited (store t.s.vertices p ((old.set_index t.s.index).set_low_link t.s.index))
        * (g.length + 2) + ((g.length : Int) - r).toNat < fuel := by
      have h1 : unvisited t.s.vertices * (g.length + 2)
          = unvisited (store t.s.vertices p ((old.set_index t.s.index).set_low_link t.s.index))
            * (g.length + 2) + (g.length + 2) := by
        rw [← hcount1, Nat.add_mul, Nat.one_mul]
      omega
    obtain ⟨t3, h3, ht3, hev3, ⟨ext2, hst3, hord3⟩, hfr3, hB3⟩ :=
      hL d v p r e _ t.s.st [] ht2 (by omega) rfl (fun q hq => by cases hq)
        (by show d + 1 + unvisited (store t.s.vertices p _) ≤ n + 1; omega) hfuel
    rw [h3]
    simp only [Outcome.ok_bind]
    obtain ⟨c3, hc3, hc3i⟩ := hev3.2 p _ hcm (by show t.s.index ≠ -1; have := ht.state.wf.counter; omega)
    have hc3i2 : c3.index = t.s.index := hc3i
    obtain ⟨t4, h4, ht4, hlo4, hidx4, hfr4, hcase⟩ :=
      strong_com_close_tr_spec ht3 hst3 hord3 hc3
    have hnd3 := ht3.state.nodup
    rw [hst3] at hnd3
    obtain ⟨hp_ext, _, hdisj⟩ := nodup_split hnd3
    have hc4 : t4.s.vertices[p]? = some c3 := by rw [hfr4 p hp_ext]; exact hc3
    have hev34 : evolves t3.s.vertices t4.s.vertices := low_only_evolves hlo4
    have hsub4 : ∀ q ∈ t4.s.st, q ∈ t3.s.st := by
      intro q hq
      rcases hcase with ⟨_, h5, _⟩ | ⟨_, h5⟩
      · rw [hst3]; rw [h5] at hq; simp [hq]
      · rw [h5] at hq; exact hq
    refine ⟨t4, h4, ht4, evolves_trans hev1 (evolves_trans hev3 hev34), ?_,
      ⟨c3, hc4, hc3i2, ?_⟩, ?_, ?_, ?_⟩
    · have h5 := unvisited_le_of_evolves (evolves_trans hev3 hev34)
      have h6 : unvisited t4.s.vertices
          ≤ unvisited (store t.s.vertices p ((old.set_index t.s.index).set_low_link t.s.index)) :=
        h5
      omega
    · intro hroot
      rcases hcase with ⟨_, h5, _⟩ | ⟨h5, _⟩
      · exact h5
      · exact absurd hroot h5
    · rcases hcase with ⟨_, h5, _⟩ | ⟨_, h5⟩
      · exact ⟨[], by rw [h5]; rfl, fun q hq => by cases hq⟩
      · refine ⟨ext2 ++ [p], by rw [h5, hst3]; simp, ?_⟩
        rw [h5]
        intro q hq w c hw hcc
        rcases List.mem_append.1 hq with hq | hq
        · exact hord3 q hq w c hw hcc
        · have : q = p := by simpa using hq
          rw [this, hcc] at hw
          cases hw
          exact le_refl _
    · intro q hq
      have hq_ext : q ∉ ext2 := fun h => hdisj q h hq
      rw [hfr4 q hq_ext, hfr3 q hq]
      exact hframe1 q hq
    · intro B hB
      have hB2 : index_bounded B
          { index := t.s.index + 1,
            vertices := store t.s.vertices p ((old.set_index t.s.index).set_low_link t.s.index),
            st := p :: t.s.st } := by
        refine ⟨by show B ≤ t.s.index + 1; have := hB.1; omega, ?_⟩
        intro q hq w hw
        rcases List.mem_cons.1 hq with rfl | hq
        · rw [hcm] at hw
          cases hw
          exact hB.1
        · rw [hframe1 q hq] at hw
          exact hB.2 q hq w hw
      obtain ⟨hB3a, hB3b⟩ := hB3 B hB2 (by
        intro c hcc
        rw [hcm] at hcc
        cases hcc
        exact hB.1)
      refine ⟨?_, ?_⟩
      · have := index_bounded_low_only hB3a hlo4 hsub4
        exact ⟨by rw [hidx4]; exact this.1, this.2⟩
      · intro c hcc
        rw [hc4] at hcc
        cases hcc
        exact hB3b c3 hc3
  · rw [if_neg hc]
    refine ⟨_, rfl, ht1, hev1, ?_, ⟨_, hcm, rfl, fun _ => rfl⟩, ⟨[], rfl, fun q hq => by cases hq⟩,
      hframe1, ?_⟩
    · show unvisited (store t.s.vertices p ((old.set_index t.s.index).set_low_link t.s.index))
        < unvisited t.s.vertices
      omega
    · intro B hB
      refine ⟨⟨by show B ≤ t.s.index + 1; have := hB.1; omega, ?_⟩, ?_⟩
      · intro q hq w hw
        have hw2 : (store t.s.vertices p
            ((old.set_index t.s.index).set_low_link t.s.index))[q]? = some w := hw
        rw [hframe1 q hq] at hw2
        exact hB.2 q hq w hw2
      · intro c hcc
        have hcc2 : (store t.s.vertices p
            ((old.set_index t.s.index).set_low_link t.s.index))[p]? = some c := hcc
        rw [hcm] at hcc2
        cases hcc2
        exact hB.1

theorem loop_spec_succ (g : List SparseElement) (n : Nat) (N : Int)
    (hr : ∀ e ∈ g, 0 ≤ e.getJ ∧ e.getJ < (n : Int)) (fuel : Nat)
    (hS : strong_spec g n N fuel) (hL : loop_spec g n N fuel) :
    loop_spec g n N (fuel + 1) := by
  intro d v curr idx sv t st0 ext ht hidx hst hord hd hf
  have hnd := ht.state.nodup
  rw [hst] at hnd
  obtain ⟨hcurr_ext, hcurr_st0, hdisj⟩ := nodup_split hnd
  have hcurr_mem : curr ∈ t.s.st := by rw [hst]; simp
  obtain ⟨c0, hc0, hc0vis⟩ := ht.state.wf.stack curr hcurr_mem
  rw [strong_com_loop_tr]
  by_cases hc : idx < (g.length : Int) ∧ sv.getI = v
  · rw [if_pos hc]
    obtain ⟨e, he⟩ := vec_at_of_lt g hidx hc.1
    obtain ⟨hj0, hj1⟩ := hr e (mem_of_vec_at he)
    have hlen := ht.state.wf.vertices.len
    have hjlt : e.getJ.toNat < t.s.vertices.length := by omega
    have hptr : ptr_at t.s.vertices e.getJ = Outcome.ok e.getJ.toNat :=
      ptr_at_eq_ok.2 ⟨hj0, hjlt, rfl⟩
    obtain ⟨o, ho⟩ : ∃ o, t.s.vertices[e.getJ.toNat]? = some o :=
      ⟨_, List.getElem?_eq_getElem hjlt⟩
    rw [he]
    simp only [Outcome.ok_bind, hptr, deref_eq_ok.2 ho]
    have hiter : ((g.length : Int) - (idx + 1)).toNat + 1 = ((g.length : Int) - idx).toNat := by
      omega
    have hte := rich_trace_edge ht v idx e
    by_cases hunv : o.get_index = -1
    · rw [if_pos hunv]
      obtain ⟨t1, h1, ht1, hev1, hcount1, ⟨o1, ho1, ho1i, _⟩, ⟨extx, hstx, hordx⟩, hfr1, hB1⟩ :=
        hS (d + 1) e.getJ ⟨t.s, Event.edge v idx e :: t.log⟩ e.getJ.toNat o hte hptr ho hunv
          (by show d + 1 + unvisited t.s.vertices ≤ n + 1; omega)
          (by show unvisited t.s.vertices * (g.length + 2) ≤ fuel; omega)
      have hev1' : evolves t.s.vertices t1.s.vertices := hev1
      have hcount1' : unvisited t1.s.vertices < unvisited t.s.vertices := hcount1
      have hstx' : t1.s.st = extx ++ t.s.st := hstx
      have hfr1' : ∀ q ∈ t.s.st, t1.s.vertices[q]? = t.s.vertices[q]? := hfr1
      rw [h1]
      simp only [Outcome.ok_bind]
      have hc1 : t1.s.vertices[curr]? = some c0 := by rw [hfr1' curr hcurr_mem]; exact hc0
      have ho1vis : o1.index ≠ -1 := by
        have h5 : o1.index = t.s.index := ho1i
        have := ht.state.wf.counter
        omega
      rw [deref_eq_ok.2 hc1, deref_eq_ok.2 ho1]
      simp only [Outcome.ok_bind]
      have hx0 : 0 ≤ min c0.get_low_link o1.get_low_link :=
        min_nonneg (visited_nonneg ht1.state.wf.vertices hc1 hc0vis).2
          (visited_nonneg ht1.state.wf.vertices ho1 ho1vis).2
      have ht2 := rich_trace_write ht1 hc1 hc0vis hx0 (min_le_left _ _)
      have hlo2 := low_only_store hc1 hc0vis hx0 (min_le_left c0.get_low_link o1.get_low_link)
      have hnd1 := ht1.state.nodup
      rw [hstx', hst, ← List.append_assoc] at hnd1
      obtain ⟨hcurr_ext1, _, _⟩ := nodup_split hnd1
      have hst2 : t1.s.st = (extx ++ ext) ++ curr :: st0 := by
        rw [hstx', hst, List.append_assoc]
      have hlt1 : curr < t1.s.vertices.length := lt_length_of_at hc1
      have hord2 : low_order (store t1.s.vertices curr
          (c0.set_low_link (min c0.get_low_link o1.get_low_link))) curr (extx ++ ext) := by
        intro q hq w c hw hcc
        have hqc : curr ≠ q := fun h => hcurr_ext1 (by rw [h]; exact hq)
        rw [store_at_ne _ _ hqc] at hw
        rw [deref_store_same _ hlt1] at hcc
        cases hcc
        show min c0.get_low_link o1.get_low_link ≤ w.low_link
        rcases List.mem_append.1 hq with hq | hq
        · have := hordx q hq w o1 hw ho1
          have := min_le_right c0.get_low_link o1.get_low_link
          have h5 : o1.get_low_link = o1.low_link := rfl
          omega
        · have hq_mem : q ∈ t.s.st := by rw [hst]; simp [hq]
          rw [hfr1' q hq_mem] at hw
          have := hord q hq w c0 hw hc0
          have := min_le_left c0.get_low_link o1.get_low_link
          have h5 : c0.get_low_link = c0.low_link := rfl
          omega
      have hmul : unvisited (store t1.s.vertices curr
          (c0.set_low_link (min c0.get_low_link o1.get_low_link))) * (g.length + 2)
          ≤ unvisited t.s.vertices * (g.length + 2) :=
        Nat.mul_le_mul_right _ (by rw [low_only_unvisited hlo2]; omega)
      have hun2 : unvisited (store t1.s.vertices curr
          (c0.set_low_link (min c0.get_low_link o1.get_low_link)))
          ≤ unvisited t.s.vertices := by rw [low_only_unvisited hlo2]; omega
      obtain ⟨t3, h3, ht3, hev3, hext3, hfr3, hB3⟩ :=
        hL d v curr (idx + 1) e _ st0 (extx ++ ext) ht2 (by omega) hst2 hord2
          (by
            show d + 1 + unvisited (store t1.s.vertices curr
              (c0.set_low_link (min c0.get_low_link o1.get_low_link))) ≤ n + 1
            omega)
          (by
            show unvisited (store t1.s.vertices curr
              (c0.set_low_link (min c0.get_low_link o1.get_low_link))) * (g.length + 2)
              + ((g.length : Int) - (idx + 1)).toNat < fuel
            omega)
      refine ⟨t3, h3, ht3,
        evolves_trans hev1' (evolves_trans (low_only_evolves hlo2) hev3), hext3, ?_, ?_⟩
      · intro q hq
        have hq_mem : q ∈ t.s.st := by rw [hst]; simp [hq]
        have hqc : curr ≠ q := fun h => hcurr_st0 (by rw [h]; exact hq)
        have := hfr3 q hq
        rw [this]
        show (store t1.s.vertices curr _)[q]? = _
        rw [store_at_ne _ _ hqc, hfr1' q hq_mem]
      · intro B hB hBc
        obtain ⟨hB1a, hB1b⟩ := hB1 B hB
        have hB2 := index_bounded_low_only hB1a hlo2 (fun q hq => hq)
        refine hB3 B hB2 ?_
        intro c hcc
        have hcc2 : (store t1.s.vertices curr
            (c0.set_low_link (min c0.get_low_link o1.get_low_link)))[curr]? = some c := hcc
        rw [deref_store_same _ hlt1] at hcc2
        cases hcc2
        exact le_min (hBc c0 hc0) (hB1b o1 ho1)
    · rw [if_neg hunv]
      obtain ⟨found, hcont, hfound⟩ := contains_spec t.s.vertices o t.s.st
        (fun q hq => by obtain ⟨x, hx, _⟩ := ht.state.wf.stack q hq; exact ⟨x, hx⟩)
      rw [hcont]
      simp only [Outcome.ok_bind]
      by_cases hf1 : found = 1
      · rw [if_pos hf1]
        rw [deref_eq_ok.2 hc0]
        simp only [Outcome.ok_bind]
        have hoidx : 0 ≤ o.get_index := (visited_nonneg ht.state.wf.vertices ho hunv).1
        have hx0 : 0 ≤ min c0.get_low_link o.get_index :=
          min_nonneg (visited_nonneg ht.state.wf.vertices hc0 hc0vis).2 hoidx
        have ht2 := rich_trace_write hte hc0 hc0vis hx0 (min_le_left _ _)
        have hlo2 := low_only_store hc0 hc0vis hx0 (min_le_left c0.get_low_link o.get_index)
        have hlt0 : curr < t.s.vertices.length := lt_length_of_at hc0
        have hord2 : low_order (store t.s.vertices curr
            (c0.set_low_link (min c0.get_low_link o.get_index))) curr ext := by
          intro q hq w c hw hcc
          have hqc : curr ≠ q := fun h => hcurr_ext (by rw [h]; exact hq)
          rw [store_at_ne _ _ hqc] at hw
          rw [deref_store_same _ hlt0] at hcc
          cases hcc
          show min c0.get_low_link o.get_index ≤ w.low_link
          have := hord q hq w c0 hw hc0
          have := min_le_left c0.get_low_link o.get_index
          have h5 : c0.get_low_link = c0.low_link := rfl
          omega
        have hun2 : unvisited (store t.s.vertices curr
            (c0.set_low_link (min c0.get_low_link o.get_index)))
            = unvisited t.s.vertices := low_only_unvisited hlo2
        obtain ⟨t3, h3, ht3, hev3, hext3, hfr3, hB3⟩ :=
          hL d v curr (idx + 1) e _ st0 ext ht2 (by omega) hst hord2
            (by
              show d + 1 + unvisited (store t.s.vertices curr
                (c0.set_low_link (min c0.get_low_link o.get_index))) ≤ n + 1
              omega)
            (by
              show unvisited (store t.s.vertices curr
                (c0.set_low_link (min c0.get_low_link o.get_index))) * (g.length + 2)
                + ((g.length : Int) - (idx + 1)).toNat < fuel
              rw [hun2]
              omega)
        refine ⟨t3, h3, ht3, evolves_trans (low_only_evolves hlo2) hev3, hext3, ?_, ?_⟩
        · intro q hq
          have hqc : curr ≠ q := fun h => hcurr_st0 (by rw [h]; exact hq)
          have := hfr3 q hq
          rw [this]
          show (store t.s.vertices curr _)[q]? = _
          rw [store_at_ne _ _ hqc]
        · intro B hB hBc
          have hB2 := index_bounded_low_only hB hlo2 (fun q hq => hq)
          refine hB3 B hB2 ?_
          intro c hcc
          have hcc2 : (store t.s.vertices curr
              (c0.set_low_link (min c0.get_low_link o.get_index)))[curr]? = some c := hcc
          rw [deref_store_same _ hlt0] at hcc2
          cases hcc2
          refine le_min (hBc c0 hc0) ?_
          rcases hfound with ⟨_, q, hq, vq, hvq, hveq⟩ | ⟨h0, _⟩
          · have hn1 := ht.state.wf.vertices.names q vq hvq
            have hn2 := ht.state.wf.vertices.names _ o ho
            have hn3 := (vertex_eq_iff vq o).1 hveq
            have hqe : q = e.getJ.toNat := by
              rw [hn1, hn2] at hn3
              exact_mod_cast hn3
            have hvo : vq = o := by
              have h := hvq
              rw [hqe, ho] at h
              exact (Option.some.inj h).symm
            rw [← hvo]
            exact hB.2 q hq vq hvq
          · omega
      · rw [if_neg hf1]
        obtain ⟨t3, h3, ht3, hev3, hext3, hfr3, hB3⟩ :=
          hL d v curr (idx + 1) e ⟨{ t.s with st := t.s.st }, Event.edge v idx e :: t.log⟩
            st0 ext hte (by omega) hst hord
            (by show d + 1 + unvisited t.s.vertices ≤ n + 1; omega)
            (by
              show unvisited t.s.vertices * (g.length + 2)
                + ((g.length : Int) - (idx + 1)).toNat < fuel
              omega)
        exact ⟨t3, h3, ht3, hev3, hext3, hfr3, hB3⟩
  · rw [if_neg hc]
    exact ⟨t, rfl, ht, evolves_refl _, ⟨ext, hst, hord⟩, fun _ _ => rfl,
      fun B hB hBc => ⟨hB, hBc⟩⟩

/-- With a non-empty edge list and destinations in range, the logged `strong_com`
and its edge loop meet `strong_spec` and `loop_spec` for every amount of fuel. -/
theorem strong_loop_spec (g : List SparseElement) (n : Nat) (N : Int) (hne : g ≠ [])
    (hr : ∀ e ∈ g, 0 ≤ e.getJ ∧ e.getJ < (n : Int)) (fuel : Nat) :
    strong_spec g n N fuel ∧ loop_spec g n N fuel := by
  induction fuel with
  | zero => exact ⟨strong_spec_zero g n N, loop_spec_zero g n N⟩
  | succ fuel ih =>
    exact ⟨strong_spec_succ g n N hne fuel ih.2, loop_spec_succ g n N hr fuel ih.1 ih.2⟩

theorem unvisited_init (n : Nat) : unvisited (graph_con_com_init n) = n := by
  unfold unvisited graph_con_com_init
  rw [List.countP_eq_length.2, List.length_map, List.length_range]
  intro v hv
  obtain ⟨j, _, rfl⟩ := List.mem_map.1 hv
  simp [vertex.new]

theorem not_visited_init (n p : Nat) : ¬ visited_at (graph_con_com_init n) p := by
  rintro ⟨v, hv, hvis⟩
  have hlt : p < n := by
    have := lt_length_of_at hv
    rwa [graph_con_com_init_length] at this
  rw [graph_con_com_init_at hlt] at hv
  cases hv
  exact hvis rfl

theorem rich_trace_init (n : Nat) :
    rich_trace n ⟨⟨0, graph_con_com_init n, []⟩, []⟩ := by
  have hat : ∀ (p : Nat) (v : vertex), (graph_con_com_init n)[p]? = some v →
      v = vertex.new (p : Int) (-1) := by
    intro p v hv
    have hlt : p < n := by
      have := lt_length_of_at hv
      rwa [graph_con_com_init_length] at this
    rw [graph_con_com_init_at hlt] at hv
    exact (Option.some.inj hv).symm
  refine ⟨⟨wf_state_init n, List.nodup_nil, ?_, ?_, ?_, ?_⟩, ?_, List.nodup_nil, ?_⟩
  · intro p v hv; rw [hat p v hv]; exact le_refl _
  · intro p v hv; rw [hat p v hv]; show (-1 : Int) < 0; omega
  · intro p q v w hv _ hvis _
    rw [hat p v hv] at hvis
    exact absurd rfl hvis
  · show (0 : Int) + (unvisited (graph_con_com_init n) : Int) = (n : Int)
    rw [unvisited_init]; omega
  · intro e he; cases he
  · intro v
    constructor
    · intro h; cases h
    · rintro ⟨_, h⟩; exact absurd h (not_visited_init n _)

theorem unvisited_eq_zero {vs : List vertex} (h : ∀ p, p < vs.length → visited_at vs p) :
    unvisited vs = 0 := by
  unfold unvisited
  rw [List.countP_eq_zero]
  intro v hv
  obtain ⟨p, hp, rfl⟩ := List.getElem_of_mem hv
  obtain ⟨w, hw, hwvis⟩ := h p hp
  rw [List.getElem?_eq_getElem hp] at hw
  cases hw
  simpa using hwvis

/-- The logged driver loop from a state with an empty stack: it returns, every call
it launches comes back with an empty stack, and in the end every vertex is visited. -/
theorem graph_con_com_loop_tr_spec (g : List SparseElement) (n : Nat) (hne : g ≠ [])
    (hr : ∀ e ∈ g, 0 ≤ e.getJ ∧ e.getJ < (n : Int)) (fuel : Nat)
    (hfuel : n * (g.length + 2) ≤ fuel) :
    ∀ (k i : Nat) (t : TrState), rich_trace n t → t.s.st = [] → n - i < k →
      (∀ p, p < i → visited_at t.s.vertices p) →
      ∃ t2, graph_con_com_loop_tr g (n : Int) fuel k (i : Int) t = Outcome.ok t2 ∧
        rich_trace n t2 ∧ t2.s.st = [] ∧ ∀ p, p < n → visited_at t2.s.vertices p := by
  intro k
  induction k with
  | zero => intro i t _ _ hk; omega
  | succ k ih =>
    intro i t ht hst hk hvis
    rw [graph_con_com_loop_tr]
    by_cases hc : (i : Int) < (n : Int)
    · rw [if_pos hc]
      have hin : i < n := by omega
      have hlen := ht.state.wf.vertices.len
      have hptr : ptr_at t.s.vertices (i : Int) = Outcome.ok i :=
        ptr_at_natCast (by omega)
      obtain ⟨v, hv⟩ : ∃ v, t.s.vertices[i]? = some v :=
        ⟨_, List.getElem?_eq_getElem (by omega)⟩
      have hcast : (i : Int) + 1 = ((i + 1 : Nat) : Int) := by push_cast; rfl
      simp only [hptr, Outcome.ok_bind, deref_eq_ok.2 hv]
      by_cases hll : v.get_low_link = -1
      · rw [if_pos hll]
        have hun : v.index = -1 := by
          rcases ht.state.wf.vertices.marks i v hv with h1 | h1
          · exact h1.1
          · have : v.low_link = -1 := hll
            omega
        have hule := unvisited_le_length t.s.vertices
        have hu : unvisited t.s.vertices * (g.length + 2) ≤ fuel := by
          have h2 : unvisited t.s.vertices * (g.length + 2) ≤ n * (g.length + 2) :=
            Nat.mul_le_mul_right _ (by omega)
          omega
        obtain ⟨t1, h1, ht1, hev1, _, ⟨c, hcc, hci, hcst⟩, _, _, hB⟩ :=
          (strong_loop_spec g n (n : Int) hne hr fuel).1 1 (i : Int) t i v ht hptr hv hun
            (by omega) hu
        rw [h1]
        simp only [Outcome.ok_bind]
        rw [hcast]
        have hb : index_bounded t.s.index t.s :=
          ⟨le_refl _, fun q hq => by rw [hst] at hq; cases hq⟩
        have hlow := (hB t.s.index hb).2 c hcc
        have hle := ht1.state.low_le i c hcc
        have hst1 : t1.s.st = [] := by
          rw [hcst (by omega), hst]
        refine ih (i + 1) t1 ht1 hst1 (by omega) ?_
        intro p hp
        rcases Nat.lt_succ_iff_lt_or_eq.1 hp with h2 | h2
        · exact visited_at_of_evolves hev1 (hvis p h2)
        · rw [h2]
          exact ⟨c, hcc, by rw [hci]; have := ht.state.wf.counter; omega⟩
      · rw [if_neg hll]
        rw [hcast]
        refine ih (i + 1) t ht hst (by omega) ?_
        intro p hp
        rcases Nat.lt_succ_iff_lt_or_eq.1 hp with h2 | h2
        · exact hvis p h2
        · rw [h2]
          refine ⟨v, hv, ?_⟩
          intro hidx
          rcases ht.state.wf.vertices.marks i v hv with h1 | h1
          · exact hll h1.2
          · omega
    · rw [if_neg hc]
      exact ⟨t, rfl, ht, hst, fun p hp => hvis p (by omega)⟩

/-- The logged run of `graph_con_com` on a non-empty edge list with destinations in
range: it returns a `rich_trace` state with an empty stack and every vertex visited,
and the run of `graph_con_com` returns the same state without the log. -/
theorem graph_con_com_run_tr_spec (g : List SparseElement) (n : Nat) (hne : g ≠ [])
    (hr : ∀ e ∈ g, 0 ≤ e.getJ ∧ e.getJ < (n : Int)) (fuel : Nat)
    (hfuel : n * (g.length + 2) ≤ fuel) :
    ∃ t, graph_con_com_run_tr fuel n g = Outcome.ok t ∧
      graph_con_com_run fuel n g = Outcome.ok t.s ∧ rich_trace n t ∧ t.s.st = [] ∧
      (∀ p, p < n → visited_at t.s.vertices p) ∧ t.s.index = (n : Int) := by
  obtain ⟨t, h1, h2, h3, h4⟩ :=
    graph_con_com_loop_tr_spec g n hne hr fuel hfuel (n + 1) 0 _ (rich_trace_init n) rfl
      (by omega) (fun p hp => by omega)
  have h1' : graph_con_com_run_tr fuel n g = Outcome.ok t := h1
  refine ⟨t, h1', ?_, h2, h3, h4, ?_⟩
  · rw [← graph_con_com_run_tr_erase, h1']
    rfl
  · have hz : unvisited t.s.vertices = 0 :=
      unvisited_eq_zero (fun p hp => h4 p (by rw [← h2.state.wf.vertices.len]; exact hp))
    have := h2.state.count
    rw [hz] at this
    omega

/-! ## The empty graph, and contains -/

/-- C11: with no vertices graph_con_com returns the empty vertex collection for every
edge list and every fuel, fuel 0 included, and the log of the run is empty:
`strong_com` is never called (and with it `binary_search_index`, which only
`strong_com` calls). -/
theorem graph_con_com_empty (fuel : Nat) (g : List SparseElement) :
    graph_con_com fuel 0 g = Outcome.ok [] ∧
      graph_con_com_run_tr fuel 0 g = Outcome.ok ⟨⟨0, [], []⟩, []⟩ := by
  constructor
  · simp [graph_con_com, graph_con_com_run, graph_con_com_loop, graph_con_com_init]
  · simp [graph_con_com_run_tr, graph_con_com_loop_tr, graph_con_com_init]

/-- C15: on a stack of valid pointers `contains(s, w)` returns 1 if some element of
the stack equals `w` and 0 otherwise. -/
theorem contains_found (vs : List vertex) (s : List Nat) (w : vertex)
    (hvalid : ∀ p ∈ s, p < vs.length) :
    ∃ found st, contains vs s w = Outcome.ok (found, st) ∧
      ((∃ p ∈ s, ∃ v, vs[p]? = some v ∧ vertex.eq v w = true) → found = 1) ∧
      ((¬ ∃ p ∈ s, ∃ v, vs[p]? = some v ∧ vertex.eq v w = true) → found = 0) := by
  obtain ⟨found, h1, h2⟩ := contains_spec vs w s
    (fun p hp => ⟨_, List.getElem?_eq_getElem (hvalid p hp)⟩)
  refine ⟨found, s, h1, ?_, ?_⟩
  · rintro ⟨p, hp, v, hv, hvw⟩
    rcases h2 with ⟨hf, _⟩ | ⟨_, hall⟩
    · exact hf
    · rw [hall p hp v hv] at hvw
      cases hvw
  · intro hno
    rcases h2 with ⟨_, hex⟩ | ⟨hf, _⟩
    · exact absurd hex hno
    · exact hf

/-- Witness for C15: vertex 1 is on the stack `[2, 1]` over `three_vertices`. -/
theorem contains_found_witness :
    ∃ found st, contains three_vertices [2, 1] ⟨1, 1, 1⟩ = Outcome.ok (found, st) ∧
      ((∃ p ∈ [2, 1], ∃ v, three_vertices[p]? = some v ∧ vertex.eq v ⟨1, 1, 1⟩ = true) →
        found = 1) ∧
      ((¬ ∃ p ∈ [2, 1], ∃ v, three_vertices[p]? = some v ∧ vertex.eq v ⟨1, 1, 1⟩ = true) →
        found = 0) :=
  contains_found three_vertices [2, 1] ⟨1, 1, 1⟩ (by decide)

/-- C16: on a stack of valid pointers `contains(s, w)` leaves the stack with the same
elements in the same order, whether or not `w` was found. -/
theorem contains_keeps_stack (vs : List vertex) (s : List Nat) (w : vertex)
    (hvalid : ∀ p ∈ s, p < vs.length) :
    ∃ found, contains vs s w = Outcome.ok (found, s) := by
  obtain ⟨found, h1, _⟩ := contains_spec vs w s
    (fun p hp => ⟨_, List.getElem?_eq_getElem (hvalid p hp)⟩)
  exact ⟨found, h1⟩

/-- Witness for C16: the stack `[2, 1]` over `three_vertices`, searched for vertex 0,
which is not on it. -/
theorem contains_keeps_stack_witness :
    ∃ found, contains three_vertices [2, 1] ⟨0, 0, 0⟩ = Outcome.ok (found, [2, 1]) :=
  contains_keeps_stack three_vertices [2, 1] ⟨0, 0, 0⟩ (by decide)

/-! ## binary_search_index and the positions it reads -/

theorem Outcome.map_eq_ok_iff {α β : Type} {f : α → β} {x : Outcome α} {b : β}
    (h : Outcome.map f x = Outcome.ok b) : ∃ a, x = Outcome.ok a ∧ f a = b := by
  cases x with
  | ok a => exact ⟨a, rfl, Outcome.ok.inj h⟩
  | undefined => cases h
  | out_of_fuel => cases h

theorem bsi_search_tr_erase (g : List SparseElement) (q : Int) :
    ∀ (fuel : Nat) (start finish mid : Int) (reads : List Int),
      Outcome.map (fun r => (r.1, r.2.1, r.2.2.1)) (bsi_search_tr g q fuel start finish mid reads)
        = bsi_search g q fuel start finish mid := by
  intro fuel
  induction fuel with
  | zero => intro a b m reads; rw [bsi_search_tr, bsi_search]; rfl
  | succ fuel ih =>
    intro a b m reads
    rw [bsi_search_tr, bsi_search]
    refine Outcome.map_ite _ _ _ _ _ ?_ rfl
    refine Outcome.map_bind_same _ _ _ _ fun _ => ?_
    refine Outcome.map_ite _ _ _ _ _ rfl ?_
    exact Outcome.map_ite _ _ _ _ _ (ih _ _ _ _) (ih _ _ _ _)

theorem bsi_rewind_tr_erase (g : List SparseElement) (q : Int) :
    ∀ (fuel : Nat) (mid : Int) (reads : List Int),
      Outcome.map (fun r => r.1) (bsi_rewind_tr g q fuel mid reads) = bsi_rewind g q fuel mid := by
  intro fuel
  induction fuel with
  | zero => intro m reads; rw [bsi_rewind_tr, bsi_rewind]; rfl
  | succ fuel ih =>
    intro m reads
    rw [bsi_rewind_tr, bsi_rewind]
    refine Outcome.map_ite _ _ _ _ _ ?_ rfl
    refine Outcome.map_bind_same _ _ _ _ fun _ => ?_
    exact Outcome.map_ite _ _ _ _ _ (ih _ _) rfl

/-- Dropping the recorded reads of `binary_search_index_tr` gives
`binary_search_index`. -/
theorem binary_search_index_tr_erase (g : List SparseElement) (q : Int) :
    Outcome.map (fun r => r.1) (binary_search_index_tr g q) = binary_search_index g q := by
  unfold binary_search_index_tr binary_search_index
  refine Outcome.map_bind _ _ _ _ (fun r => (r.1, r.2.1, r.2.2.1)) _
    (bsi_search_tr_erase g q _ _ _ _ _) fun r => ?_
  refine Outcome.map_bind _ _ _ _ (fun r => r.1) _ (bsi_rewind_tr_erase g q _ _ _) fun m => ?_
  exact Outcome.map_ite _ _ _ _ _ rfl rfl

theorem bsi_search_tr_reads (g : List SparseElement) (q : Int) :
    ∀ (fuel : Nat) (start finish mid : Int) (reads : List Int)
      (r : Int × Int × Int × List Int),
      bsi_search_tr g q fuel start finish mid reads = Outcome.ok r →
      ∀ k ∈ r.2.2.2, k ∈ reads ∨ (0 ≤ k ∧ k < (g.length : Int)) := by
  intro fuel
  induction fuel with
  | zero => intro a b m reads r h; rw [bsi_search_tr] at h; cases h
  | succ fuel ih =>
    intro a b m reads r h
    rw [bsi_search_tr] at h
    by_cases hc : a ≤ b ∧ m ≥ 0 ∧ m < (g.length : Int)
    · rw [if_pos hc] at h
      obtain ⟨e, he, h2⟩ := Outcome.bind_eq_ok h
      have hin := vec_at_ok_lt he
      have hstep : ∀ k ∈ Int.tdiv (a + b) 2 :: reads,
          k ∈ reads ∨ (0 ≤ k ∧ k < (g.length : Int)) := by
        intro k hk
        rcases List.mem_cons.1 hk with rfl | hk
        · exact Or.inr hin
        · exact Or.inl hk
      have hrec : ∀ (a2 b2 : Int),
          bsi_search_tr g q fuel a2 b2 (Int.tdiv (a + b) 2) (Int.tdiv (a + b) 2 :: reads)
            = Outcome.ok r →
          ∀ k ∈ r.2.2.2, k ∈ reads ∨ (0 ≤ k ∧ k < (g.length : Int)) := by
        intro a2 b2 h3 k hk
        rcases ih _ _ _ _ r h3 k hk with h4 | h4
        · exact hstep k h4
        · exact Or.inr h4
      by_cases heq : e.getI = q
      · rw [if_pos heq] at h2
        cases h2
        exact hstep
      · rw [if_neg heq] at h2
        by_cases hlt : e.getI < q
        · rw [if_pos hlt] at h2
          exact hrec _ _ h2
        · rw [if_neg hlt] at h2
          exact hrec _ _ h2
    · rw [if_neg hc] at h
      cases h
      intro k hk
      exact Or.inl hk

theorem bsi_rewind_tr_reads (g : List SparseElement) (q : Int) :
    ∀ (fuel : Nat) (mid : Int) (reads : List Int) (r : Int × List Int),
      bsi_rewind_tr g q fuel mid reads = Outcome.ok r →
      ∀ k ∈ r.2, k ∈ reads ∨ (0 ≤ k ∧ k < (g.length : Int)) := by
  intro fuel
  induction fuel with
  | zero => intro m reads r h; rw [bsi_rewind_tr] at h; cases h
  | succ fuel ih =>
    intro m reads r h
    rw [bsi_rewind_tr] at h
    by_cases hc : m > -1
    · rw [if_pos hc] at h
      obtain ⟨e, he, h2⟩ := Outcome.bind_eq_ok h
      have hin := vec_at_ok_lt he
      have hstep : ∀ k ∈ m :: reads, k ∈ reads ∨ (0 ≤ k ∧ k < (g.length : Int)) := by
        intro k hk
        rcases List.mem_cons.1 hk with rfl | hk
        · exact Or.inr hin
        · exact Or.inl hk
      by_cases heq : e.getI = q
      · rw [if_pos heq] at h2
        intro k hk
        rcases ih _ _ r h2 k hk with h4 | h4
        · exact hstep k h4
        · exact Or.inr h4
      · rw [if_neg heq] at h2
        cases h2
        exact hstep
    · rw [if_neg hc] at h
      cases h
      intro k hk
      exact Or.inl hk

theorem binary_search_index_tr_reads (g : List SparseElement) (q : Int)
    (r : Int × List Int) (h : binary_search_index_tr g q = Outcome.ok r) :
    ∀ k ∈ r.2, 0 ≤ k ∧ k < (g.length : Int) := by
  unfold binary_search_index_tr at h
  obtain ⟨r1, h1, h2⟩ := Outcome.bind_eq_ok h
  obtain ⟨m, h3, h4⟩ := Outcome.bind_eq_ok h2
  have hreads : r.2 = m.2 := by
    by_cases hc : r1.1 > r1.2.1
    · rw [if_pos hc] at h4; cases h4; rfl
    · rw [if_neg hc] at h4; cases h4; rfl
  intro k hk
  rw [hreads] at hk
  rcases bsi_rewind_tr_reads g q _ _ _ m h3 k hk with h5 | h5
  · rcases bsi_search_tr_reads g q _ _ _ _ _ r1 h1 k h5 with h6 | h6
    · cases h6
    · exact h6
  · exact h5

/-- C20: on a non-empty edge list, sorted or not, binary_search_index returns, every
position it reads lies in `[0, size)`, and its result `r` is -1 or satisfies
`0 ≤ r < size`, `edges[r].source == query` and (`r == 0` or
`edges[r-1].source != query`). -/
theorem binary_search_index_safe (g : List SparseElement) (q : Int) (hne : g ≠ []) :
    ∃ r reads, binary_search_index_tr g q = Outcome.ok (r, reads) ∧
      binary_search_index g q = Outcome.ok r ∧
      (∀ k ∈ reads, 0 ≤ k ∧ k < (g.length : Int)) ∧
      (r = -1 ∨
        (0 ≤ r ∧ r < (g.length : Int) ∧
          (∃ e, g[r.toNat]? = some e ∧ e.getI = q) ∧
          (r = 0 ∨ ∃ e2, g[(r - 1).toNat]? = some e2 ∧ e2.getI ≠ q))) := by
  obtain ⟨r, hr, hcase⟩ := binary_search_index_spec g q hne
  have herase := binary_search_index_tr_erase g q
  rw [hr] at herase
  obtain ⟨⟨r2, reads⟩, htr, hfst⟩ := Outcome.map_eq_ok_iff herase
  have hr2 : r2 = r := hfst
  subst hr2
  refine ⟨r2, reads, htr, hr, binary_search_index_tr_reads g q _ htr, ?_⟩
  rcases hcase with ⟨h, _⟩ | ⟨hr0, e, he, heq, hprev⟩
  · exact Or.inl h
  · obtain ⟨_, hlt⟩ := vec_at_ok_lt he
    refine Or.inr ⟨hr0, hlt, ⟨e, (vec_at_eq_ok.1 he).2, heq⟩, ?_⟩
    by_cases hz : r2 = 0
    · exact Or.inl hz
    · obtain ⟨e2, he2⟩ := vec_at_of_lt g (by omega : 0 ≤ r2 - 1) (by omega)
      exact Or.inr ⟨e2, (vec_at_eq_ok.1 he2).2, hprev e2 he2⟩

/-- Witness for C20: the unsorted list `unsorted3` searched for vertex 0. -/
theorem binary_search_index_safe_witness :
    ∃ r reads, binary_search_index_tr unsorted3 0 = Outcome.ok (r, reads) ∧
      binary_search_index unsorted3 0 = Outcome.ok r ∧
      (∀ k ∈ reads, 0 ≤ k ∧ k < (unsorted3.length : Int)) ∧
      (r = -1 ∨
        (0 ≤ r ∧ r < (unsorted3.length : Int) ∧
          (∃ e, unsorted3[r.toNat]? = some e ∧ e.getI = 0) ∧
          (r = 0 ∨ ∃ e2, unsorted3[(r - 1).toNat]? = some e2 ∧ e2.getI ≠ 0))) :=
  binary_search_index_safe unsorted3 0 (by decide)

/-! ## Fuel and the logged program -/

theorem strong_com_tr_fuel_succ (g : List SparseElement) (n : Int) (fuel : Nat) :
    (∀ d v t, Outcome.refines (strong_com_tr g n fuel d v t)
      (strong_com_tr g n (fuel + 1) d v t)) ∧
    (∀ d v c i sv t, Outcome.refines (strong_com_loop_tr g n fuel d v c i sv t)
      (strong_com_loop_tr g n (fuel + 1) d v c i sv t)) := by
  induction fuel with
  | zero =>
    constructor
    · intro d v t; rw [strong_com_tr]; exact Outcome.refines_fuel _
    · intro d v c i sv t; rw [strong_com_loop_tr]; exact Outcome.refines_fuel _
  | succ fuel ih =>
    obtain ⟨ih1, ih2⟩ := ih
    constructor
    · intro d v t
      rw [strong_com_tr, strong_com_tr]
      refine Outcome.refines_bind (Outcome.refines_refl _) fun _ => ?_
      refine Outcome.refines_bind (Outcome.refines_refl _) fun _ => ?_
      refine Outcome.refines_bind (Outcome.refines_refl _) fun _ => ?_
      refine Outcome.refines_ite ?_ (Outcome.refines_refl _)
      refine Outcome.refines_bind (Outcome.refines_refl _) fun _ => ?_
      exact Outcome.refines_bind (ih2 _ _ _ _ _ _) fun _ => Outcome.refines_refl _
    · intro d v c i sv t
      rw [strong_com_loop_tr, strong_com_loop_tr]
      refine Outcome.refines_ite ?_ (Outcome.refines_refl _)
      refine Outcome.refines_bind (Outcome.refines_refl _) fun _ => ?_
      refine Outcome.refines_bind (Outcome.refines_refl _) fun _ => ?_
      refine Outcome.refines_bind (Outcome.refines_refl _) fun _ => ?_
      refine Outcome.refines_ite ?_ ?_
      · refine Outcome.refines_bind (ih1 _ _ _) fun _ => ?_
        refine Outcome.refines_bind (Outcome.refines_refl _) fun _ => ?_
        refine Outcome.refines_bind (Outcome.refines_refl _) fun _ => ?_
        exact ih2 _ _ _ _ _ _
      · refine Outcome.refines_bind (Outcome.refines_refl _) fun _ => ?_
        refine Outcome.refines_ite ?_ (ih2 _ _ _ _ _ _)
        refine Outcome.refines_bind (Outcome.refines_refl _) fun _ => ?_
        refine Outcome.refines_bind (Outcome.refines_refl _) fun _ => ?_
        exact ih2 _ _ _ _ _ _

theorem strong_com_tr_fuel_le (g : List SparseElement) (n : Int) {f1 f2 : Nat} (h : f1 ≤ f2)
    (d : Nat) (v : Int) (t : TrState) :
    Outcome.refines (strong_com_tr g n f1 d v t) (strong_com_tr g n f2 d v t) := by
  induction h with
  | refl => exact Outcome.refines_refl _
  | step _ ih => exact Outcome.refines_trans ih ((strong_com_tr_fuel_succ g n _).1 d v t)

theorem graph_con_com_loop_tr_fuel_le (g : List SparseElement) (n : Int) {f1 f2 : Nat}
    (h : f1 ≤ f2) : ∀ (k : Nat) (i : Int) (t : TrState),
      Outcome.refines (graph_con_com_loop_tr g n f1 k i t)
        (graph_con_com_loop_tr g n f2 k i t) := by
  intro k
  induction k with
  | zero => intro i t; rw [graph_con_com_loop_tr]; exact Outcome.refines_fuel _
  | succ k ih =>
    intro i t
    rw [graph_con_com_loop_tr, graph_con_com_loop_tr]
    refine Outcome.refines_ite ?_ (Outcome.refines_refl _)
    refine Outcome.refines_bind (Outcome.refines_refl _) fun _ => ?_
    refine Outcome.refines_bind (Outcome.refines_refl _) fun _ => ?_
    refine Outcome.refines_ite ?_ (ih _ _)
    exact Outcome.refines_bind (strong_com_tr_fuel_le g n h _ _ _) fun _ => ih _ _

theorem graph_con_com_run_tr_of_eval {f : Nat} {n : Nat} {g : List SparseElement}
    {t : TrState} (h : graph_con_com_run_tr f n g = Outcome.ok t) (fuel : Nat) :
    graph_con_com_run_tr (fuel + f) n g = Outcome.ok t := by
  have := graph_con_com_loop_tr_fuel_le g n (Nat.le_add_left f fuel) (n + 1) 0
    ⟨⟨0, graph_con_com_init n, []⟩, []⟩
  have h2 : Outcome.refines (graph_con_com_run_tr f n g) (graph_con_com_run_tr (fuel + f) n g) :=
    this
  rw [h] at h2
  exact Outcome.refines_ok h2

/-! ## The edge loop on `stray3` -/

/-- C12 at `stray3`: the input is sorted and in range, yet the edge loop of vertex 0
loads the edge at position 1, whose source is 1, and the edge loop of vertex 1 loads
the edge at position 2, whose source is 2, and min-merges over it: the low_link of
vertex 1 drops from 1 to 0, and vertices 0 and 1 end with the same low_link. -/
theorem strong_com_loop_overruns (fuel : Nat) :
    stray3 ≠ [] ∧ sorted_by_source stray3 ∧ in_range 4 stray3 ∧
    ∃ t, graph_con_com_run_tr (fuel + 6) 4 stray3 = Outcome.ok t ∧
      Event.edge 0 1 ⟨1, 3⟩ ∈ t.log ∧ Event.edge 1 2 ⟨2, 0⟩ ∈ t.log ∧
      Event.write 1 ⟨1, 1, 1⟩ ⟨1, 1, 0⟩ ∈ t.log ∧
      low_links t.s.vertices = [0, 0, 3, 2] := by
  have h : graph_con_com_run_tr 6 4 stray3 = Outcome.ok
      ⟨⟨4, [⟨0, 0, 0⟩, ⟨1, 1, 0⟩, ⟨2, 3, 3⟩, ⟨3, 2, 2⟩], []⟩,
       [Event.edge 2 2 ⟨2, 0⟩,
        Event.write 2 ⟨2, -1, -1⟩ ⟨2, 3, 3⟩,
        Event.call 2 1,
        Event.write 1 ⟨1, 1, 0⟩ ⟨1, 1, 0⟩,
        Event.edge 0 1 ⟨1, 3⟩,
        Event.write 0 ⟨0, 0, 0⟩ ⟨0, 0, 0⟩,
        Event.write 1 ⟨1, 1, 1⟩ ⟨1, 1, 0⟩,
        Event.edge 1 2 ⟨2, 0⟩,
        Event.write 1 ⟨1, 1, 1⟩ ⟨1, 1, 1⟩,
        Event.write 3 ⟨3, -1, -1⟩ ⟨3, 2, 2⟩,
        Event.call 3 3,
        Event.edge 1 1 ⟨1, 3⟩,
        Event.write 1 ⟨1, -1, -1⟩ ⟨1, 1, 1⟩,
        Event.call 1 2,
        Event.edge 0 0 ⟨0, 1⟩,
        Event.write 0 ⟨0, -1, -1⟩ ⟨0, 0, 0⟩,
        Event.call 0 1]⟩ := by decide!
  refine ⟨by decide, by decide, by decide, _, graph_con_com_run_tr_of_eval h fuel,
    by decide, by decide, by decide, rfl⟩

/-! ## The whole run -/

theorem mem_range_cast {n : Nat} {x : Int} :
    x ∈ (List.range n).map (fun (i : Nat) => (i : Int)) ↔ 0 ≤ x ∧ x < (n : Int) := by
  constructor
  · intro h
    obtain ⟨i, hi, rfl⟩ := List.mem_map.1 h
    have := List.mem_range.1 hi
    omega
  · rintro ⟨h0, h1⟩
    exact List.mem_map.2 ⟨x.toNat, List.mem_range.2 (by omega), by omega⟩

theorem nodup_range_cast (n : Nat) :
    ((List.range n).map (fun (i : Nat) => (i : Int))).Nodup :=
  List.Nodup.map (fun a b h => by exact_mod_cast h) (List.nodup_range n)

theorem calls_perm_of_all_visited {n : Nat} {t : TrState} (ht : rich_trace n t)
    (hall : ∀ p, p < n → visited_at t.s.vertices p) :
    (calls t.log).Perm ((List.range n).map (fun (i : Nat) => (i : Int))) := by
  rw [List.perm_ext_iff_of_nodup ht.calls_nodup (nodup_range_cast n)]
  intro v
  rw [ht.calls_iff v, mem_range_cast]
  constructor
  · rintro ⟨h0, w, hw, _⟩
    have := lt_length_of_at hw
    rw [ht.state.wf.vertices.len] at this
    exact ⟨h0, by omega⟩
  · rintro ⟨h0, h1⟩
    exact ⟨h0, hall v.toNat (by omega)⟩

theorem indices_perm_of_all_visited {n : Nat} {s : TState} (hs : rich_state n s)
    (hall : ∀ p, p < n → visited_at s.vertices p) (hidx : s.index = (n : Int)) :
    (indices s.vertices).Perm ((List.range n).map (fun (i : Nat) => (i : Int))) := by
  have hlen : (indices s.vertices).length = n := by
    rw [indices, List.length_map]; exact hs.wf.vertices.len
  have hget : ∀ (i : Nat) (hi : i < (indices s.vertices).length),
      ∃ v, s.vertices[i]? = some v ∧ (indices s.vertices)[i] = v.index ∧ v.index ≠ -1 := by
    intro i hi
    obtain ⟨v, hv, hvis⟩ := hall i (by omega)
    refine ⟨v, hv, ?_, hvis⟩
    have h1 : (indices s.vertices)[i]? = some v.index := by
      rw [indices, List.getElem?_map, hv]; rfl
    rw [List.getElem?_eq_getElem hi] at h1
    exact Option.some.inj h1
  have hnd : (indices s.vertices).Nodup := by
    unfold List.Nodup
    rw [List.pairwise_iff_getElem]
    intro i j hi hj hij heq
    obtain ⟨v, hv, hvi, hvis⟩ := hget i hi
    obtain ⟨w, hw, hwi, _⟩ := hget j hj
    have := hs.index_inj i j v w hv hw hvis (by rw [← hvi, ← hwi]; exact heq)
    omega
  have hsub : indices s.vertices ⊆ (List.range n).map (fun (i : Nat) => (i : Int)) := by
    intro x hx
    obtain ⟨i, hi, rfl⟩ := List.getElem_of_mem hx
    obtain ⟨v, hv, hvi, hvis⟩ := hget i hi
    rw [hvi, mem_range_cast]
    have h1 := hs.index_lt i v hv
    have h2 := (visited_nonneg hs.wf.vertices hv hvis).1
    omega
  refine (List.subperm_of_subset hnd hsub).perm_of_length_le ?_
  rw [List.length_map, List.length_range, hlen]

/-- C14: in the run of graph_con_com on a non-empty, sorted, in-range edge list every
store to a vertex that has already been visited keeps its index and stores a
low_link less than or equal to the one it held (the min-merges of the edge loop and
the assignments of the closing step alike). -/
theorem graph_con_com_writes_decrease (n : Nat) (g : List SparseElement) (hne : g ≠ [])
    (_hs : sorted_by_source g) (hr : in_range n g) (fuel : Nat)
    (hfuel : n * (g.length + 2) ≤ fuel) :
    ∃ t, graph_con_com_run_tr fuel n g = Outcome.ok t ∧
      graph_con_com fuel n g = Outcome.ok t.s.vertices ∧
      ∀ (p : Nat) (old new : vertex), Event.write p old new ∈ t.log → old.index ≠ -1 →
        new.index = old.index ∧ new.low_link ≤ old.low_link := by
  obtain ⟨t, h1, h2, ht, _, _, _⟩ :=
    graph_con_com_run_tr_spec g n hne (fun e he => (hr e he).2) fuel hfuel
  refine ⟨t, h1, ?_, ?_⟩
  · unfold graph_con_com; rw [h2]; rfl
  · intro p old new hmem hvis
    exact (ht.good _ hmem).2 hvis

/-- Witness for C14: the two 3-cycles with their bridge, 6 vertices, fuel 54. -/
theorem graph_con_com_writes_decrease_witness :
    ∃ t, graph_con_com_run_tr 54 6 two_cycles = Outcome.ok t ∧
      graph_con_com 54 6 two_cycles = Outcome.ok t.s.vertices ∧
      ∀ (p : Nat) (old new : vertex), Event.write p old new ∈ t.log → old.index ≠ -1 →
        new.index = old.index ∧ new.low_link ≤ old.low_link :=
  graph_con_com_writes_decrease 6 two_cycles (by decide) (by decide) (by decide) 54
    (by decide)

/-- C17: in the run of graph_con_com on a non-empty, sorted, in-range edge list
`strong_com` is called exactly once on each of the vertices 0..N-1, the final
counter is N, and the final index values are the numbers 0..N-1, each once. -/
theorem graph_con_com_once_per_vertex (n : Nat) (g : List SparseElement) (hne : g ≠ [])
    (_hs : sorted_by_source g) (hr : in_range n g) (fuel : Nat)
    (hfuel : n * (g.length + 2) ≤ fuel) :
    ∃ t, graph_con_com_run_tr fuel n g = Outcome.ok t ∧
      graph_con_com fuel n g = Outcome.ok t.s.vertices ∧
      (calls t.log).Perm ((List.range n).map (fun (i : Nat) => (i : Int))) ∧
      t.s.index = (n : Int) ∧
      (indices t.s.vertices).Perm ((List.range n).map (fun (i : Nat) => (i : Int))) := by
  obtain ⟨t, h1, h2, ht, _, hall, hidx⟩ :=
    graph_con_com_run_tr_spec g n hne (fun e he => (hr e he).2) fuel hfuel
  refine ⟨t, h1, ?_, calls_perm_of_all_visited ht hall, hidx,
    indices_perm_of_all_visited ht.state hall hidx⟩
  unfold graph_con_com; rw [h2]; rfl

/-- Witness for C17: the acyclic graph `dag4` on 4 vertices with fuel 20. -/
theorem graph_con_com_once_per_vertex_witness :
    ∃ t, graph_con_com_run_tr 20 4 dag4 = Outcome.ok t ∧
      graph_con_com 20 4 dag4 = Outcome.ok t.s.vertices ∧
      (calls t.log).Perm ((List.range 4).map (fun (i : Nat) => (i : Int))) ∧
      t.s.index = ((4 : Nat) : Int) ∧
      (indices t.s.vertices).Perm ((List.range 4).map (fun (i : Nat) => (i : Int))) :=
  graph_con_com_once_per_vertex 4 dag4 (by decide) (by decide) (by decide) 20 (by decide)

/-- C19: with a non-empty edge list whose destinations are in range, every call of
`strong_com` on an unvisited vertex of a well-shaped state returns and leaves
strictly fewer unvisited vertices, the run of graph_con_com returns, no vertex is
the subject of two calls of `strong_com`, and no call is more than N deep. -/
theorem strong_com_terminates (n : Nat) (g : List SparseElement) (hne : g ≠ [])
    (hr : ∀ e ∈ g, 0 ≤ e.getJ ∧ e.getJ < (n : Int)) (fuel : Nat)
    (hfuel : n * (g.length + 2) ≤ fuel) :
    (∀ (v : Int) (s : TState) (p : Nat) (old : vertex), wf_state n s →
      ptr_at s.vertices v = Outcome.ok p → s.vertices[p]? = some old → old.index = -1 →
      ∃ s2, strong_com g (n : Int) fuel v s = Outcome.ok s2 ∧
        unvisited s2.vertices < unvisited s.vertices) ∧
    ∃ t, graph_con_com_run_tr fuel n g = Outcome.ok t ∧
      graph_con_com fuel n g = Outcome.ok t.s.vertices ∧ (calls t.log).Nodup ∧
      ∀ (v : Int) (d : Nat), Event.call v d ∈ t.log → d ≤ n := by
  constructor
  · intro v s p old hwf hp hold hun
    have hu : unvisited s.vertices * (g.length + 2) ≤ fuel := by
      have h1 := unvisited_le_length s.vertices
      have h2 : unvisited s.vertices * (g.length + 2) ≤ n * (g.length + 2) :=
        Nat.mul_le_mul_right _ (by rw [← hwf.vertices.len]; exact h1)
      omega
    obtain ⟨s2, h1, _, _, _, h5, _⟩ :=
      (strong_com_total g n (n : Int) hne hr fuel).1 v s p old hwf hp hold hun hu
    exact ⟨s2, h1, h5⟩
  · obtain ⟨t, h1, h2, ht, _, _, _⟩ := graph_con_com_run_tr_spec g n hne hr fuel hfuel
    refine ⟨t, h1, ?_, ht.calls_nodup, ?_⟩
    · unfold graph_con_com; rw [h2]; rfl
    · intro v d hmem
      exact ht.good _ hmem

/-- Witness for C19: the chain 0→1→2 on 3 vertices with fuel 12. -/
theorem strong_com_terminates_witness :
    (∀ (v : Int) (s : TState) (p : Nat) (old : vertex), wf_state 3 s →
      ptr_at s.vertices v = Outcome.ok p → s.vertices[p]? = some old → old.index = -1 →
      ∃ s2, strong_com chain3 ((3 : Nat) : Int) 12 v s = Outcome.ok s2 ∧
        unvisited s2.vertices < unvisited s.vertices) ∧
    ∃ t, graph_con_com_run_tr 12 3 chain3 = Outcome.ok t ∧
      graph_con_com 12 3 chain3 = Outcome.ok t.s.vertices ∧ (calls t.log).Nodup ∧
      ∀ (v : Int) (d : Nat), Event.call v d ∈ t.log → d ≤ 3 :=
  strong_com_terminates 3 chain3 (by decide) (by decide) 12 (by decide)

/-! ## Single calls of strong_com -/

theorem calls_map_call (l : List Nat) :
    calls (l.map (fun (p : Nat) => Event.call (p : Int) 0)) = l.map (fun (p : Nat) => (p : Int)) := by
  induction l with
  | nil => rfl
  | cons a l ih =>
    rw [List.map_cons, List.map_cons, calls_call, ih]

theorem mem_ghost_log {vs : List vertex} {e : Event} (h : e ∈ ghost_log vs) :
    ∃ p : Nat, e = Event.call (p : Int) 0 := by
  unfold ghost_log at h
  obtain ⟨p, _, rfl⟩ := List.mem_map.1 h
  exact ⟨p, rfl⟩

/-- Every `rich_state` is the state of a `rich_trace` with a suitable log. -/
theorem rich_trace_ghost {n : Nat} {s : TState} (hs : rich_state n s) :
    rich_trace n ⟨s, ghost_log s.vertices⟩ := by
  refine ⟨hs, ?_, ?_, ?_⟩
  · intro e he
    obtain ⟨p, rfl⟩ := mem_ghost_log he
    exact Nat.zero_le n
  · show (calls (ghost_log s.vertices)).Nodup
    unfold ghost_log
    rw [calls_map_call]
    exact List.Nodup.map (fun a b h => by exact_mod_cast h)
      (List.Nodup.filter _ (List.nodup_range _))
  · intro v
    show v ∈ calls (ghost_log s.vertices) ↔ _
    unfold ghost_log
    rw [calls_map_call]
    constructor
    · intro h
      obtain ⟨p, hp, rfl⟩ := List.mem_map.1 h
      obtain ⟨hp1, hp2⟩ := List.mem_filter.1 hp
      have hlt := List.mem_range.1 hp1
      refine ⟨by omega, ?_⟩
      rw [Int.toNat_ofNat]
      rw [List.getElem?_eq_getElem hlt] at hp2
      exact ⟨_, List.getElem?_eq_getElem hlt, by simpa using hp2⟩
    · rintro ⟨h0, w, hw, hwvis⟩
      refine List.mem_map.2 ⟨v.toNat, ?_, by omega⟩
      refine List.mem_filter.2 ⟨List.mem_range.2 (lt_length_of_at hw), ?_⟩
      rw [hw]
      simpa using hwvis

theorem erase_ok {x : Outcome TrState} {y : Outcome TState} {t : TrState}
    (he : Outcome.map TrState.s x = y) (hx : x = Outcome.ok t) : y = Outcome.ok t.s := by
  rw [← he, hx]; rfl

/-- C13: a call of strong_com on an unvisited vertex `v` with at least one outgoing
edge, from a state in `rich_state`: the edge loop returns a state `s3`; if there
`low_link(v) == index(v)`, then on return the stack is exactly the stack at entry,
the vertices popped are `v` and those above it, and each of them has low_link equal
to `index(v)`. -/
theorem strong_com_close_restores (g : List SparseElement) (n : Nat) (N : Int)
    (hne : g ≠ []) (hr : ∀ e ∈ g, 0 ≤ e.getJ ∧ e.getJ < (n : Int)) (fuel : Nat)
    (v : Int) (s : TState) (p : Nat) (old : vertex) (idx : Int) (e : SparseElement)
    (hs : rich_state n s) (hp : ptr_at s.vertices v = Outcome.ok p)
    (hold : s.vertices[p]? = some old) (hun : old.index = -1)
    (hb : binary_search_index g v = Outcome.ok idx) (hidx : 0 ≤ idx ∧ idx < (g.length : Int))
    (he : vec_at g idx = Outcome.ok e)
    (hf : unvisited s.vertices * (g.length + 2) ≤ fuel + 1) :
    ∃ s3 c s2,
      strong_com_loop g N fuel v p idx e
        { index := s.index + 1,
          vertices := store s.vertices p ((old.set_index s.index).set_low_link s.index),
          st := p :: s.st } = Outcome.ok s3 ∧
      s3.vertices[p]? = some c ∧ strong_com g N (fuel + 1) v s = Outcome.ok s2 ∧
      (c.get_low_link = c.get_index →
        s2.st = s.st ∧ ∃ popped, s3.st = popped ++ s.st ∧ p ∈ popped ∧
          ∀ q ∈ popped, ∃ w, s2.vertices[q]? = some w ∧ w.low_link = c.index) := by
  have ht : rich_trace n ⟨s, ghost_log s.vertices⟩ := rich_trace_ghost hs
  have ht1 : rich_trace n
      ⟨⟨s.index + 1, store s.vertices p ((old.set_index s.index).set_low_link s.index), s.st⟩,
       Event.write p old ((old.set_index s.index).set_low_link s.index)
         :: Event.call v 0 :: ghost_log s.vertices⟩ :=
    rich_trace_mark ht hp hold hun (Nat.zero_le n)
  obtain ⟨_, hev1, hcount1, hvis1⟩ := wf_state_mark hs.wf hold hun
  have hpst : p ∉ s.st := by
    intro hmem
    obtain ⟨w, hw, hwvis⟩ := hs.wf.stack p hmem
    rw [hold] at hw
    cases hw
    exact hwvis hun
  have ht2 : rich_trace n
      ⟨⟨s.index + 1, store s.vertices p ((old.set_index s.index).set_low_link s.index),
        p :: s.st⟩,
       Event.write p old ((old.set_index s.index).set_low_link s.index)
         :: Event.call v 0 :: ghost_log s.vertices⟩ :=
    rich_trace_push ht1 hvis1 hpst
  have hule := unvisited_le_length s.vertices
  have hlen := hs.wf.vertices.len
  have hfuel : unvisited (store s.vertices p ((old.set_index s.index).set_low_link s.index))
      * (g.length + 2) + ((g.length : Int) - idx).toNat < fuel := by
    have h1 : unvisited s.vertices * (g.length + 2)
        = unvisited (store s.vertices p ((old.set_index s.index).set_low_link s.index))
          * (g.length + 2) + (g.length + 2) := by
      rw [← hcount1, Nat.add_mul, Nat.one_mul]
    omega
  have hdepth : 0 + 1
      + unvisited (store s.vertices p ((old.set_index s.index).set_low_link s.index))
      ≤ n + 1 := by omega
  obtain ⟨t3, h3, ht3, hev3, ⟨ext2, hst3, hord3⟩, _, _⟩ :=
    (strong_loop_spec g n N hne hr fuel).2 0 v p idx e _ s.st [] ht2 hidx.1 rfl
      (fun q hq => by cases hq) hdepth hfuel
  have hcm : (store s.vertices p ((old.set_index s.index).set_low_link s.index))[p]?
      = some ((old.set_index s.index).set_low_link s.index) :=
    deref_store_same _ (lt_length_of_at hold)
  obtain ⟨c3, hc3, _⟩ := hev3.2 p _ hcm
    (by show s.index ≠ -1; have := hs.wf.counter; omega)
  obtain ⟨t4, h4, _, hlo4, _, hfr4, hcase⟩ := strong_com_close_tr_spec ht3 hst3 hord3 hc3
  have hloop := erase_ok (strong_com_loop_tr_erase g N fuel 0 v p idx e _) h3
  have hclose := erase_ok (strong_com_close_tr_erase p t3) h4
  have hnd3 := ht3.state.nodup
  rw [hst3] at hnd3
  obtain ⟨hp_ext, _, _⟩ := nodup_split hnd3
  refine ⟨t3.s, c3, t4.s, hloop, hc3, ?_, ?_⟩
  · rw [strong_com, hb]
    simp only [Outcome.ok_bind, hp, deref_eq_ok.2 hold]
    rw [if_pos ⟨hidx.2, by omega⟩, he]
    simp only [Outcome.ok_bind]
    have hloop2 : strong_com_loop g N fuel v p idx e
        { index := s.index + 1,
          vertices := store s.vertices p ((old.set_index s.index).set_low_link s.index),
          st := p :: s.st } = Outcome.ok t3.s := hloop
    rw [hloop2]
    exact hclose
  · intro hroot
    rcases hcase with ⟨hrt, h5, h6⟩ | ⟨h5, _⟩
    · refine ⟨h5, ext2 ++ [p], by rw [hst3]; simp, by simp, ?_⟩
      intro q hq
      rcases List.mem_append.1 hq with hq | hq
      · have hq_mem : q ∈ t3.s.st := by rw [hst3]; simp [hq]
        obtain ⟨w3, hw3, _⟩ := ht3.state.wf.stack q hq_mem
        obtain ⟨w, hw, _⟩ := hlo4.2 q w3 hw3
        exact ⟨w, hw, by rw [h6 q hq w hw]; exact hrt⟩
      · have hqp : q = p := by simpa using hq
        rw [hqp]
        exact ⟨c3, by rw [hfr4 p hp_ext]; exact hc3, hrt⟩
    · exact absurd hroot h5

/-- The state `inner_call_state` is the start state of the driver loop on three
vertices after lines 128-130 and 144 of the call on vertex 0: index and low_link of
vertex 0 set to the counter 0, the counter advanced, vertex 0 pushed. -/
theorem inner_call_state_eq :
    inner_call_state =
      { index := 0 + 1,
        vertices := store (graph_con_com_init 3) 0
          ((vertex.set_index (vertex.new 0 (-1)) 0).set_low_link 0),
        st := [0] } := by decide

/-- The state `inner_call_state` has the invariants of the run. -/
theorem inner_call_state_rich : rich_state 3 inner_call_state := by
  have h1 := @rich_trace_mark 3 _ (rich_trace_init 3) 0 0 (vertex.new 0 (-1))
    (by decide) (by decide) (by decide) 0 (by decide)
  have h2 := @rich_trace_push 3 _ h1 0 ⟨⟨0, 0, 0⟩, by decide, by decide⟩ (by decide)
  rw [inner_call_state_eq]
  exact h2.state

/-- The whole run on `tail_cycle` ends with the vertex array that the call on
vertex 1 from `inner_call_state` returns. -/
theorem tail_cycle_run :
    graph_con_com_run 15 3 tail_cycle
      = Outcome.ok ⟨3, [⟨0, 0, 0⟩, ⟨1, 1, 1⟩, ⟨2, 2, 1⟩], []⟩ := by decide!

/-- Witness for C13: on `tail_cycle`, the call on vertex 1 from `inner_call_state`,
where vertex 0 is on the stack at entry. The edge loop of vertex 1 descends into
vertex 2, which stays on the stack above vertex 1, and ends with the stack
`[2, 1, 0]` and `low_link(1) == index(1) == 1`; the closing step pops 2 (giving it
low_link 1) and 1, and the call returns with the entry stack `[0]`. -/
theorem strong_com_close_restores_witness :
    strong_com_loop tail_cycle 3 9 1 1 1 ⟨1, 2⟩
        { index := inner_call_state.index + 1,
          vertices := store inner_call_state.vertices 1
            ((vertex.set_index ⟨1, -1, -1⟩ inner_call_state.index).set_low_link
              inner_call_state.index),
          st := 1 :: inner_call_state.st }
      = Outcome.ok ⟨3, [⟨0, 0, 0⟩, ⟨1, 1, 1⟩, ⟨2, 2, 1⟩], [2, 1, 0]⟩ ∧
    strong_com tail_cycle 3 (9 + 1) 1 inner_call_state
      = Outcome.ok ⟨3, [⟨0, 0, 0⟩, ⟨1, 1, 1⟩, ⟨2, 2, 1⟩], [0]⟩ ∧
    ∃ s3 c s2,
      strong_com_loop tail_cycle 3 9 1 1 1 ⟨1, 2⟩
        { index := inner_call_state.index + 1,
          vertices := store inner_call_state.vertices 1
            ((vertex.set_index ⟨1, -1, -1⟩ inner_call_state.index).set_low_link
              inner_call_state.index),
          st := 1 :: inner_call_state.st } = Outcome.ok s3 ∧
      s3.vertices[1]? = some c ∧
      strong_com tail_cycle 3 (9 + 1) 1 inner_call_state = Outcome.ok s2 ∧
      (c.get_low_link = c.get_index →
        s2.st = inner_call_state.st ∧
        ∃ popped, s3.st = popped ++ inner_call_state.st ∧ 1 ∈ popped ∧
          ∀ q ∈ popped, ∃ w, s2.vertices[q]? = some w ∧ w.low_link = c.index) :=
  ⟨by decide!, by decide!,
   strong_com_close_restores tail_cycle 3 3 (by decide) (by decide) 9 1 inner_call_state 1
    ⟨1, -1, -1⟩ 1 ⟨1, 2⟩ inner_call_state_rich (by decide) (by decide) (by decide)
    (by decide) (by decide) (by decide) (by decide)⟩

/-- C18: on a non-empty, sorted, in-range edge list the driver loop of graph_con_com
starts in a `rich_state` with an empty stack; every call of strong_com launched from
such a state on a vertex with `low_link == -1` returns in such a state again, with
`low_link == index` for the launched vertex, both set (no longer -1); and the run
ends with an empty stack. -/
theorem graph_con_com_launch_closes (n : Nat) (g : List SparseElement) (hne : g ≠ [])
    (_hs : sorted_by_source g) (hr : in_range n g) (fuel : Nat)
    (hfuel : n * (g.length + 2) ≤ fuel) :
    (rich_state n ⟨0, graph_con_com_init n, []⟩) ∧
    (∀ (s : TState) (i : Nat) (v : vertex), rich_state n s → s.st = [] →
      s.vertices[i]? = some v → v.get_low_link = -1 →
      ∃ s2 c, strong_com g (n : Int) fuel (i : Int) s = Outcome.ok s2 ∧ rich_state n s2 ∧
        s2.st = [] ∧ s2.vertices[i]? = some c ∧ c.get_low_link = c.get_index ∧
        c.get_low_link ≠ -1) ∧
    ∃ s, graph_con_com_run fuel n g = Outcome.ok s ∧ s.st = [] := by
  have hr2 : ∀ e ∈ g, 0 ≤ e.getJ ∧ e.getJ < (n : Int) := fun e he => (hr e he).2
  refine ⟨(rich_trace_init n).state, ?_, ?_⟩
  · intro s i v hs hst hv hll
    have ht : rich_trace n ⟨s, ghost_log s.vertices⟩ := rich_trace_ghost hs
    have hun : v.index = -1 := by
      rcases hs.wf.vertices.marks i v hv with h1 | h1
      · exact h1.1
      · have : v.low_link = -1 := hll
        omega
    have hptr : ptr_at s.vertices (i : Int) = Outcome.ok i :=
      ptr_at_natCast (lt_length_of_at hv)
    have hule := unvisited_le_length s.vertices
    have hlen := hs.wf.vertices.len
    have hu : unvisited s.vertices * (g.length + 2) ≤ fuel := by
      have h2 : unvisited s.vertices * (g.length + 2) ≤ n * (g.length + 2) :=
        Nat.mul_le_mul_right _ (by omega)
      omega
    obtain ⟨t1, h1, ht1, _, _, ⟨c, hcc, hci, hcst⟩, _, _, hB⟩ :=
      (strong_loop_spec g n (n : Int) hne hr2 fuel).1 1 (i : Int)
        ⟨s, ghost_log s.vertices⟩ i v ht hptr hv hun
        (by show 1 + unvisited s.vertices ≤ n + 1; omega) hu
    have hci2 : c.index = s.index := hci
    have hcst2 : c.low_link = c.index → t1.s.st = s.st := hcst
    have hb : index_bounded s.index s :=
      ⟨le_refl _, fun q hq => by rw [hst] at hq; cases hq⟩
    have hlow := (hB s.index hb).2 c hcc
    have hle := ht1.state.low_le i c hcc
    have heq : c.low_link = c.index := by omega
    refine ⟨t1.s, c, erase_ok (strong_com_tr_erase g (n : Int) fuel 1 (i : Int) _) h1,
      ht1.state, by rw [hcst2 heq, hst], hcc, heq, ?_⟩
    show c.low_link ≠ -1
    have hcnt := hs.wf.counter
    omega
  · obtain ⟨t, _, h2, _, h4, _, _⟩ := graph_con_com_run_tr_spec g n hne hr2 fuel hfuel
    exact ⟨t.s, h2, h4⟩

/-- Witness for C18: the two 3-cycles with their bridge, 6 vertices, fuel 54. -/
theorem graph_con_com_launch_closes_witness :
    (rich_state 6 ⟨0, graph_con_com_init 6, []⟩) ∧
    (∀ (s : TState) (i : Nat) (v : vertex), rich_state 6 s → s.st = [] →
      s.vertices[i]? = some v → v.get_low_link = -1 →
      ∃ s2 c, strong_com two_cycles ((6 : Nat) : Int) 54 (i : Int) s = Outcome.ok s2 ∧
        rich_state 6 s2 ∧ s2.st = [] ∧ s2.vertices[i]? = some c ∧
        c.get_low_link = c.get_index ∧ c.get_low_link ≠ -1) ∧
    ∃ s, graph_con_com_run 54 6 two_cycles = Outcome.ok s ∧ s.st = [] :=
  graph_con_com_launch_closes 6 two_cycles (by decide) (by decide) (by decide) 54 (by decide)

end Tarjan
